import Mathlib

/-!
# Lucene++ `BitSet` (src/core/util/BitSet.cpp) and `Future` (include/lucene++/ThreadPool.h)

A shallow embedding of `Lucene::BitSet` and of the part of
`boost::dynamic_bitset<uint64_t>` it is built on, and of the result slot of
`Lucene::Future`, whose calls are taken one after the other.

* Blocks are 64-bit words, modelled as natural numbers below `2 ^ 64`; the
  signed 64-bit `hash` of `hashCode` is modelled by its bit pattern, with `<<`
  dropping the bits shifted out and `>>` copying the sign bit.
* `size_type` is a 64-bit unsigned integer, `uint32_t` arguments and results are
  reduced modulo `2 ^ 32` wherever the C++ code converts to that type.
* A write to `m_bits[k]`, or a `test` of it, with `k` outside the block vector is
  a fault, the result `none`.  Boost's `assert`s themselves are not executed
  (release build), so a write to an unused bit of the highest block is a write.
* The members of `dynamic_bitset` follow the Boost implementation; the range
  members `set(pos, len, val)` and `reset(pos, len)` are given by their effect,
  bit by bit, which touches the same blocks as Boost's block-wise loop; so is
  `flip(pos, len)`.
* The source selects code by the macro `BOOST_VERSION`; the functions concerned
  take its value as the parameter `boostVersion`.
* `BitSet` objects are values here: an operand (`other`, `set`) is read and never
  returned; the outcome of the pointer comparison that opens `equals` is an
  argument of the model.
-/

namespace Lucene

/-! ## Machine integers -/

/-- Conversion of an unsigned value to `uint32_t`. -/
def toUInt32 (n : Nat) : Nat := n % 2 ^ 32

/-- Conversion of an unsigned value to `int32_t` (two's complement). -/
def toInt32 (n : Nat) : Int :=
  if n % 2 ^ 32 < 2 ^ 31 then ((n % 2 ^ 32 : Nat) : Int) else ((n % 2 ^ 32 : Nat) : Int) - 2 ^ 32

/-- The largest value of `size_type`, `dynamic_bitset::npos`. -/
def npos : Nat := 2 ^ 64 - 1

/-! ## boost::dynamic_bitset -/

/-- Modelled from the spec: the block type `bitset_type::block_type` is declared
in `BitSet.h`, which is not among the sources; the spec gives 64-bit blocks, so
`bits_per_block` is 64 and `sizeof(bitset_type::block_type)` is 8. -/
def bits_per_block : Nat := 64

/-- Index of the block holding bit `pos`. -/
def block_index (pos : Nat) : Nat := pos / bits_per_block

/-- Index of bit `pos` inside its block. -/
def bit_index (pos : Nat) : Nat := pos % bits_per_block

/-- The block `Block(1) << bit_index(pos)`. -/
def bit_mask (pos : Nat) : Nat := 2 ^ bit_index pos

/-- The block `~Block(0)`. -/
def all_ones : Nat := 2 ^ 64 - 1

/-- Number of blocks needed for `num_bits` bits. -/
def calc_num_blocks (num_bits : Nat) : Nat :=
  num_bits / bits_per_block + (if num_bits % bits_per_block ≠ 0 then 1 else 0)

/-- The data members of `boost::dynamic_bitset<uint64_t>`. -/
structure dynamic_bitset where
  /-- The block vector, least significant block first. -/
  m_bits : List Nat
  /-- The number of bits. -/
  m_num_bits : Nat
  deriving DecidableEq, Repr

/-- Position of the lowest set bit of a block, searched over `fuel` positions. -/
def lowest_bit_aux : Nat → Nat → Nat
  | 0, _ => 0
  | fuel + 1, x => if x % 2 = 1 then 0 else 1 + lowest_bit_aux fuel (x / 2)

/-- Model of `detail::lowest_bit` on a nonzero 64-bit block. -/
def lowest_bit (x : Nat) : Nat := lowest_bit_aux 64 x

/-- Number of one bits among the lowest `fuel` bits of a block. -/
def popcount_aux : Nat → Nat → Nat
  | 0, _ => 0
  | fuel + 1, x => x % 2 + popcount_aux fuel (x / 2)

/-- Population count of a 64-bit block, the quantity `count()` adds up. -/
def popcount (x : Nat) : Nat := popcount_aux 64 x

/-- Model of `std::vector::resize(n, v)`. -/
def vector_resize (l : List Nat) (n : Nat) (v : Nat) : List Nat :=
  l.take n ++ List.replicate (n - l.length) v

/-- Model of `std::find_if(first, last, m_not_empty)`; `i` is the index of the
head of the list, the result is the index found or the index of the end. -/
def find_if_not_empty : List Nat → Nat → Nat
  | [], i => i
  | b :: bs, i => if b ≠ 0 then i else find_if_not_empty bs (i + 1)

namespace dynamic_bitset

/-- Constructor `dynamic_bitset(num_bits)`: all bits zero. -/
def create (num_bits : Nat) : dynamic_bitset :=
  ⟨List.replicate (calc_num_blocks num_bits) 0, num_bits⟩

/-- Member `size()`. -/
def size (d : dynamic_bitset) : Nat := d.m_num_bits

/-- Member `num_blocks()`. -/
def num_blocks (d : dynamic_bitset) : Nat := d.m_bits.length

/-- Member `set(pos, val)`; for `val == false` this is `reset(pos)`. -/
def set (d : dynamic_bitset) (pos : Nat) (val : Bool) : Option dynamic_bitset :=
  match d.m_bits[block_index pos]? with
  | none => none
  | some blk =>
    if val then
      some { d with m_bits := d.m_bits.set (block_index pos) (blk ||| bit_mask pos) }
    else
      some { d with m_bits := d.m_bits.set (block_index pos) (blk &&& (all_ones ^^^ bit_mask pos)) }

/-- Member `test(pos)`. -/
def test (d : dynamic_bitset) (pos : Nat) : Option Bool :=
  match d.m_bits[block_index pos]? with
  | none => none
  | some blk => some (decide (blk &&& bit_mask pos ≠ 0))

/-- Member `clear()`. -/
def clear (_d : dynamic_bitset) : dynamic_bitset := ⟨[], 0⟩

/-- Member `m_zero_unused_bits()`. -/
def m_zero_unused_bits (d : dynamic_bitset) : dynamic_bitset :=
  let extra_bits := d.m_num_bits % bits_per_block
  if extra_bits ≠ 0 then
    let highest := d.m_bits.getD (d.m_bits.length - 1) 0
    { d with m_bits := d.m_bits.set (d.m_bits.length - 1) (highest &&& (2 ^ extra_bits - 1)) }
  else d

/-- Member `resize(num_bits)` with the default fill value `false`. -/
def resize (d : dynamic_bitset) (num_bits : Nat) : dynamic_bitset :=
  let old_num_blocks := d.num_blocks
  let required_blocks := calc_num_blocks num_bits
  let bits := if required_blocks ≠ old_num_blocks then vector_resize d.m_bits required_blocks 0
              else d.m_bits
  m_zero_unused_bits ⟨bits, num_bits⟩

/-- Member `m_do_find_from(first_block)`. -/
def m_do_find_from (d : dynamic_bitset) (first_block : Nat) : Nat :=
  let i := find_if_not_empty (d.m_bits.drop first_block) first_block
  if i ≥ d.num_blocks then npos
  else i * bits_per_block + lowest_bit (d.m_bits.getD i 0)

/-- Member `find_first()`. -/
def find_first (d : dynamic_bitset) : Nat := d.m_do_find_from 0

/-- Member `find_next(pos)`. -/
def find_next (d : dynamic_bitset) (pos : Nat) : Nat :=
  let sz := d.size
  if pos ≥ (sz + 2 ^ 64 - 1) % 2 ^ 64 ∨ sz = 0 then npos
  else
    let pos := pos + 1
    let blk := block_index pos
    let ind := bit_index pos
    let fore := d.m_bits.getD blk 0 >>> ind
    if fore ≠ 0 then pos + lowest_bit fore else d.m_do_find_from (blk + 1)

/-- Member `find_first(pos)` (Boost 1.88 and later). -/
def find_first_from (d : dynamic_bitset) (pos : Nat) : Nat :=
  let sz := d.size
  if pos ≥ sz then npos
  else
    let blk := block_index pos
    let ind := bit_index pos
    let fore := d.m_bits.getD blk 0 >>> ind
    if fore ≠ 0 then pos + lowest_bit fore else d.m_do_find_from (blk + 1)

/-- The loop `for (i = pos; i < pos + len; ++i) set(i, val)`, stopping at a fault. -/
def set_loop (d : dynamic_bitset) (val : Bool) : Nat → Nat → Option dynamic_bitset
  | _, 0 => some d
  | pos, len + 1 =>
    match d.set pos val with
    | none => none
    | some d1 => set_loop d1 val (pos + 1) len

/-- Member `set(pos, len, val)` (Boost 1.69 and later): assigns `val` to the
bits `pos, …, pos + len - 1`; nothing is accessed when `len` is zero. -/
def set_range (d : dynamic_bitset) (pos len : Nat) (val : Bool) : Option dynamic_bitset :=
  set_loop d val pos len

/-- Member `reset(pos, len)` (Boost 1.69 and later). -/
def reset_range (d : dynamic_bitset) (pos len : Nat) : Option dynamic_bitset :=
  set_loop d false pos len

/-- Operator `|=`: block-wise, over the blocks of the left operand. -/
def or_assign (d rhs : dynamic_bitset) : Option dynamic_bitset :=
  if rhs.m_bits.length < d.m_bits.length then none
  else some { d with m_bits := List.zipWith (· ||| ·) d.m_bits rhs.m_bits }

/-- Operator `^=`: block-wise, over the blocks of the left operand. -/
def xor_assign (d rhs : dynamic_bitset) : Option dynamic_bitset :=
  if rhs.m_bits.length < d.m_bits.length then none
  else some { d with m_bits := List.zipWith (· ^^^ ·) d.m_bits rhs.m_bits }

/-- Member `flip(pos)`. -/
def flip (d : dynamic_bitset) (pos : Nat) : Option dynamic_bitset :=
  match d.m_bits[block_index pos]? with
  | none => none
  | some blk => some { d with m_bits := d.m_bits.set (block_index pos) (blk ^^^ bit_mask pos) }

/-- The loop `for (i = pos; i < pos + len; ++i) flip(i)`, stopping at a fault. -/
def flip_loop (d : dynamic_bitset) : Nat → Nat → Option dynamic_bitset
  | _, 0 => some d
  | pos, len + 1 =>
    match d.flip pos with
    | none => none
    | some d1 => flip_loop d1 (pos + 1) len

/-- Member `flip(pos, len)` (Boost 1.69 and later): toggles the bits
`pos, …, pos + len - 1`; nothing is accessed when `len` is zero. -/
def flip_range (d : dynamic_bitset) (pos len : Nat) : Option dynamic_bitset :=
  flip_loop d pos len

/-- Member `flip()`: complements every block, then `m_zero_unused_bits()`. -/
def flip_all (d : dynamic_bitset) : dynamic_bitset :=
  m_zero_unused_bits { d with m_bits := d.m_bits.map (fun blk => all_ones ^^^ blk) }

/-- Operator `&=`: block-wise, over the blocks of the left operand. -/
def and_assign (d rhs : dynamic_bitset) : Option dynamic_bitset :=
  if rhs.m_bits.length < d.m_bits.length then none
  else some { d with m_bits := List.zipWith (· &&& ·) d.m_bits rhs.m_bits }

/-- Member `any()`: some block is nonzero. -/
def any (d : dynamic_bitset) : Bool := d.m_bits.any (fun blk => blk != 0)

/-- Member `none()`, which is `!any()`. -/
def no_bits (d : dynamic_bitset) : Bool := !d.any

/-- Member `count()`: the sum of the population counts of the blocks. -/
def count (d : dynamic_bitset) : Nat := (d.m_bits.map popcount).sum

/-- The block sequence written by `to_block_range`. -/
def to_block_range (d : dynamic_bitset) : List Nat := d.m_bits

end dynamic_bitset

/-- Bit `i` of a block vector: the specification-level reading of the storage
(zero outside the vector). -/
def bitAt (l : List Nat) (i : Nat) : Bool := (l.getD (i / 64) 0).testBit (i % 64)

/-- The class invariant of `dynamic_bitset` (`m_check_invariants`: the block
count matches the bit count and the unused bits of the highest block are zero),
together with the ranges of the machine types: blocks are 64-bit words and the
bit count, which `BitSet` only ever sets from a `uint32_t`, is below `2 ^ 32`. -/
def dynamic_bitset.WF (d : dynamic_bitset) : Prop :=
  d.m_bits.length = calc_num_blocks d.m_num_bits ∧
  (∀ x ∈ d.m_bits, x < 2 ^ 64) ∧
  (d.m_num_bits % 64 ≠ 0 →
    d.m_bits.getD (d.m_bits.length - 1) 0 < 2 ^ (d.m_num_bits % 64)) ∧
  d.m_num_bits < 2 ^ 32

instance (d : dynamic_bitset) : Decidable d.WF := by
  unfold dynamic_bitset.WF; infer_instance

/-- Specification of a scan result: `r` is the lowest position `≥ p` whose bit
is set in `l`, or `npos` when no bit at a position `≥ p` is set. -/
def IsFirstSetFrom (l : List Nat) (p r : Nat) : Prop :=
  (r = npos ∧ ∀ j, p ≤ j → bitAt l j = false) ∨
  (p ≤ r ∧ bitAt l r = true ∧ ∀ j, p ≤ j → j < r → bitAt l j = false)

/-! ## Lucene::BitSet -/

/-- The data member of `Lucene::BitSet`. -/
structure BitSet where
  /-- The field `bitSet`. -/
  bitSet : dynamic_bitset
  deriving DecidableEq, Repr

namespace BitSet

/-- Constructor `BitSet::BitSet(uint32_t size)`. -/
def create (size : Nat) : BitSet := ⟨dynamic_bitset.create size⟩

/-- Method `BitSet::resize(uint32_t size)`. -/
def resize (b : BitSet) (size : Nat) : BitSet := ⟨b.bitSet.resize size⟩

/-- Method `BitSet::size()`. -/
def size (b : BitSet) : Nat := toUInt32 (b.bitSet.num_blocks * 8 * 8)

/-- Method `BitSet::numBlocks()`. -/
def numBlocks (b : BitSet) : Nat := toUInt32 b.bitSet.num_blocks

/-- Method `BitSet::get(uint32_t bitIndex)`. -/
def get (b : BitSet) (bitIndex : Nat) : Option Bool :=
  if bitIndex < b.bitSet.size then b.bitSet.test bitIndex else some false

/-- Method `BitSet::clear()`. -/
def clear (b : BitSet) : BitSet := ⟨b.bitSet.clear⟩

/-- Method `BitSet::clear(uint32_t bitIndex)`. -/
def clearBit (b : BitSet) (bitIndex : Nat) : Option BitSet :=
  if bitIndex ≤ b.bitSet.size then (b.bitSet.set bitIndex false).map BitSet.mk
  else some b

/-- Method `BitSet::fastSet(uint32_t fromIndex, uint32_t toIndex, bool value)`;
`boostVersion` is the value of the macro `BOOST_VERSION`. -/
def fastSetRange (boostVersion : Nat) (b : BitSet) (fromIndex toIndex : Nat) (value : Bool) :
    Option BitSet :=
  if boostVersion ≥ 106900 then
    (b.bitSet.set_range fromIndex (toUInt32 (toIndex + 2 ^ 32 - fromIndex)) value).map BitSet.mk
  else
    (b.bitSet.set_loop value fromIndex (toIndex - fromIndex)).map BitSet.mk

/-- Method `BitSet::clear(uint32_t fromIndex, uint32_t toIndex)`. -/
def clearRange (boostVersion : Nat) (b : BitSet) (fromIndex toIndex : Nat) : Option BitSet :=
  if boostVersion ≥ 106900 then
    let fromIndex := toUInt32 (min fromIndex b.bitSet.size)
    let toIndex := toUInt32 (min toIndex b.bitSet.size)
    (b.bitSet.reset_range fromIndex (toUInt32 (toIndex + 2 ^ 32 - fromIndex))).map BitSet.mk
  else
    let toIndex := min toIndex (toUInt32 b.bitSet.size)
    let start := min fromIndex (toUInt32 b.bitSet.size)
    (b.bitSet.set_loop false start (toIndex - start)).map BitSet.mk

/-- Method `BitSet::set(uint32_t bitIndex)`. -/
def set (b : BitSet) (bitIndex : Nat) : Option BitSet :=
  let b1 := if bitIndex ≥ b.bitSet.size then b.resize (toUInt32 (bitIndex + 1)) else b
  (b1.bitSet.set bitIndex true).map BitSet.mk

/-- Method `BitSet::set(uint32_t fromIndex, uint32_t toIndex, bool value)`. -/
def setRange (boostVersion : Nat) (b : BitSet) (fromIndex toIndex : Nat) (value : Bool) :
    Option BitSet :=
  let b1 := if toIndex ≥ b.bitSet.size then b.resize (toUInt32 (toIndex + 1)) else b
  fastSetRange boostVersion b1 fromIndex toIndex value

/-- Method `BitSet::nextSetBit(uint32_t fromIndex)`. -/
def nextSetBit (boostVersion : Nat) (b : BitSet) (fromIndex : Nat) : Int :=
  if boostVersion ≥ 108800 then
    toInt32 (b.bitSet.find_first_from fromIndex)
  else
    let next := if fromIndex = 0 then b.bitSet.find_first else b.bitSet.find_next (fromIndex - 1)
    toInt32 (if next = npos then 2 ^ 64 - 1 else next)

/-- Method `BitSet::_or`. -/
def _or (b : BitSet) (set : BitSet) : Option BitSet :=
  if set.bitSet.size > b.bitSet.size then
    ((b.resize (toUInt32 set.bitSet.size)).bitSet.or_assign set.bitSet).map BitSet.mk
  else
    let other := set.bitSet.resize b.bitSet.size
    (b.bitSet.or_assign other).map BitSet.mk

/-- Method `BitSet::_xor`. -/
def _xor (b : BitSet) (set : BitSet) : Option BitSet :=
  if set.bitSet.size > b.bitSet.size then
    ((b.resize (toUInt32 set.bitSet.size)).bitSet.xor_assign set.bitSet).map BitSet.mk
  else
    let other := set.bitSet.resize b.bitSet.size
    (b.bitSet.xor_assign other).map BitSet.mk

/-- Method `BitSet::fastClear(uint32_t bitIndex)`. -/
def fastClear (b : BitSet) (bitIndex : Nat) : Option BitSet :=
  (b.bitSet.set bitIndex false).map BitSet.mk

/-- Method `BitSet::fastSet(uint32_t bitIndex)`. -/
def fastSet (b : BitSet) (bitIndex : Nat) : Option BitSet :=
  (b.bitSet.set bitIndex true).map BitSet.mk

/-- Method `BitSet::set(uint32_t bitIndex, bool value)`. -/
def setValue (b : BitSet) (bitIndex : Nat) (value : Bool) : Option BitSet :=
  let b1 := if bitIndex ≥ b.bitSet.size then b.resize (toUInt32 (bitIndex + 1)) else b
  (b1.bitSet.set bitIndex value).map BitSet.mk

/-- Method `BitSet::fastFlip(uint32_t bitIndex)`. -/
def fastFlip (b : BitSet) (bitIndex : Nat) : Option BitSet :=
  (b.bitSet.flip bitIndex).map BitSet.mk

/-- Method `BitSet::flip(uint32_t bitIndex)`. -/
def flip (b : BitSet) (bitIndex : Nat) : Option BitSet :=
  let b1 := if bitIndex ≥ b.bitSet.size then b.resize (toUInt32 (bitIndex + 1)) else b
  (b1.bitSet.flip bitIndex).map BitSet.mk

/-- Method `BitSet::fastFlip(uint32_t fromIndex, uint32_t toIndex)`. -/
def fastFlipRange (boostVersion : Nat) (b : BitSet) (fromIndex toIndex : Nat) : Option BitSet :=
  if boostVersion ≥ 106900 then
    (b.bitSet.flip_range fromIndex (toUInt32 (toIndex + 2 ^ 32 - fromIndex))).map BitSet.mk
  else
    (b.bitSet.flip_loop fromIndex (toIndex - fromIndex)).map BitSet.mk

/-- Method `BitSet::flip(uint32_t fromIndex, uint32_t toIndex)`. -/
def flipRange (boostVersion : Nat) (b : BitSet) (fromIndex toIndex : Nat) : Option BitSet :=
  let b1 := if toIndex ≥ b.bitSet.size then b.resize (toUInt32 (toIndex + 1)) else b
  fastFlipRange boostVersion b1 fromIndex toIndex

/-- Method `BitSet::isEmpty()`. -/
def isEmpty (b : BitSet) : Bool := b.bitSet.no_bits

/-- Method `BitSet::_and`. -/
def _and (b : BitSet) (set : BitSet) : Option BitSet :=
  let other := set.bitSet.resize b.bitSet.size
  (b.bitSet.and_assign other).map BitSet.mk

/-- Method `BitSet::andNot`. -/
def andNot (b : BitSet) (set : BitSet) : Option BitSet :=
  let other := set.bitSet.resize b.bitSet.size
  (b.bitSet.and_assign other.flip_all).map BitSet.mk

/-- Method `BitSet::cardinality()`. -/
def cardinality (b : BitSet) : Nat := toUInt32 b.bitSet.count

/-- The loop of `BitSet::equals`, run for at most `fuel` iterations. -/
def equalsLoop (first second : dynamic_bitset) : Nat → Nat → Nat → Option Bool
  | 0, _, _ => none
  | fuel + 1, f, s =>
    if f = s then
      if f = npos then some true
      else equalsLoop first second fuel (first.find_next f) (second.find_next s)
    else some false

/-- Method `BitSet::equals`.  `samePointer` is the result of
`LuceneObject::equals(other)`, the comparison of the two object pointers;
`other` is `none` when the dynamic cast to `BitSet` gives a null pointer.  The
result is `none` when the loop has not returned within `fuel` iterations. -/
def equals (fuel : Nat) (b : BitSet) (other : Option BitSet) (samePointer : Bool) : Option Bool :=
  if samePointer then some true
  else
    match other with
    | none => some false
    | some otherBitSet =>
      let first := if b.bitSet.num_blocks < otherBitSet.bitSet.num_blocks then otherBitSet else b
      let second := if b.bitSet.num_blocks < otherBitSet.bitSet.num_blocks then b else otherBitSet
      equalsLoop first.bitSet second.bitSet fuel first.bitSet.find_first second.bitSet.find_first

/-- One step of the block visitor in `BitSet::hashCode`, on the 64-bit pattern of `hash`. -/
def hashStep (hash block : Nat) : Nat :=
  let hash := hash ^^^ block
  ((hash <<< 1) % 2 ^ 64) ||| (if hash ≥ 2 ^ 63 then all_ones else 0)

/-- Method `BitSet::hashCode`. -/
def hashCode (b : BitSet) : Int :=
  let hash := b.bitSet.to_block_range.foldl hashStep 0
  let shifted := (hash >>> 32) ||| (if hash ≥ 2 ^ 63 then 2 ^ 64 - 2 ^ 32 else 0)
  toInt32 (toUInt32 (shifted ^^^ hash) + 0x98761234)

/-- The 64-bit left rotation by one bit, as the comment in `hashCode` names the
mixing step: bit 63 moves to bit 0 and every other bit moves up by one. -/
def rotateLeft64 (x : Nat) : Nat := ((x <<< 1) % 2 ^ 64) ||| (x >>> 63)

/-- The states reached from a constructor by the checked mutating operations
that complete, on `uint32_t` arguments, the range forms of `set` and `flip`
being called with `fromIndex ≤ toIndex`. -/
inductive Reachable (boostVersion : Nat) : BitSet → Prop
  | create (n : Nat) : n < 2 ^ 32 → Reachable boostVersion (BitSet.create n)
  | set (b b1 : BitSet) (i : Nat) : Reachable boostVersion b → i < 2 ^ 32 →
      b.set i = some b1 → Reachable boostVersion b1
  | setValue (b b1 : BitSet) (i : Nat) (v : Bool) : Reachable boostVersion b → i < 2 ^ 32 →
      b.setValue i v = some b1 → Reachable boostVersion b1
  | setRange (b b1 : BitSet) (f t : Nat) (v : Bool) : Reachable boostVersion b → f ≤ t →
      t < 2 ^ 32 → b.setRange boostVersion f t v = some b1 → Reachable boostVersion b1
  | clear (b : BitSet) : Reachable boostVersion b → Reachable boostVersion b.clear
  | clearBit (b b1 : BitSet) (i : Nat) : Reachable boostVersion b → i < 2 ^ 32 →
      b.clearBit i = some b1 → Reachable boostVersion b1
  | clearRange (b b1 : BitSet) (f t : Nat) : Reachable boostVersion b → f < 2 ^ 32 →
      t < 2 ^ 32 → b.clearRange boostVersion f t = some b1 → Reachable boostVersion b1
  | flip (b b1 : BitSet) (i : Nat) : Reachable boostVersion b → i < 2 ^ 32 →
      b.flip i = some b1 → Reachable boostVersion b1
  | flipRange (b b1 : BitSet) (f t : Nat) : Reachable boostVersion b → f ≤ t →
      t < 2 ^ 32 → b.flipRange boostVersion f t = some b1 → Reachable boostVersion b1
  | and (b o b1 : BitSet) : Reachable boostVersion b → Reachable boostVersion o →
      b._and o = some b1 → Reachable boostVersion b1
  | or (b o b1 : BitSet) : Reachable boostVersion b → Reachable boostVersion o →
      b._or o = some b1 → Reachable boostVersion b1
  | xor (b o b1 : BitSet) : Reachable boostVersion b → Reachable boostVersion o →
      b._xor o = some b1 → Reachable boostVersion b1
  | andNot (b o b1 : BitSet) : Reachable boostVersion b → Reachable boostVersion o →
      b.andNot o = some b1 → Reachable boostVersion b1

end BitSet

/-! ## Lucene::Future (include/lucene++/ThreadPool.h) -/

/-- The data member of `Lucene::Future`: the `boost::any` slot `value`, `none`
when the `boost::any` is empty. -/
structure Future (α : Type) where
  /-- The field `value`. -/
  value : Option α

namespace Future

/-- Method `Future::set(const boost::any& value)`; the argument may itself be an
empty `boost::any`. -/
def set {α : Type} (self : Future α) (value : Option α) : Future α :=
  { self with value := value }

/-- Method `Future::get<TYPE>()` run by itself: each of at most `fuel` passes of
the loop finds the slot as `wait` left it, that is unchanged; the result is
`none` when the loop has not ended within `fuel` passes. -/
def get {α : Type} (self : Future α) : Nat → Option α
  | 0 => none
  | fuel + 1 => if self.value.isNone then get self fuel else self.value

/-- A call on a `Future`. -/
inductive Call (α : Type) where
  /-- A call of `set` with the given `boost::any`. -/
  | set (value : Option α)
  /-- A call of `get` with the given bound on the passes of its loop. -/
  | get (fuel : Nat)

/-- The slot after a call, and what the call returned when it is a `get`. -/
def step {α : Type} (self : Future α) : Call α → Future α × Option α
  | Call.set value => (self.set value, none)
  | Call.get fuel => (self, self.get fuel)

/-- The slot after a sequence of calls. -/
def run {α : Type} (self : Future α) : List (Call α) → Future α
  | [] => self
  | c :: cs => run (self.step c).1 cs

end Future

end Lucene

namespace Lucene

/-! ## Arithmetic of block and bit indices -/

theorem calc_num_blocks_le (n : Nat) : n ≤ calc_num_blocks n * 64 := by
  unfold calc_num_blocks bits_per_block
  split <;> omega

theorem calc_num_blocks_lt (n : Nat) : calc_num_blocks n * 64 < n + 64 := by
  unfold calc_num_blocks bits_per_block
  split <;> omega

theorem block_index_lt_calc {n i : Nat} (h : i < n) : i / 64 < calc_num_blocks n := by
  have := calc_num_blocks_le n
  omega

theorem calc_num_blocks_mono {m n : Nat} (h : m ≤ n) : calc_num_blocks m ≤ calc_num_blocks n := by
  unfold calc_num_blocks bits_per_block
  split <;> split <;> omega

theorem testBit_and_mask (x k : Nat) : decide (x &&& 2 ^ k ≠ 0) = x.testBit k := by
  by_cases h : x.testBit k = true
  · have : (x &&& 2 ^ k).testBit k = true := by simp [Nat.testBit_and, h, Nat.testBit_two_pow_self]
    have hne : x &&& 2 ^ k ≠ 0 := by
      intro h0; rw [h0] at this; simp at this
    simp [hne, h]
  · have hz : x &&& 2 ^ k = 0 := by
      apply Nat.eq_of_testBit_eq
      intro i
      simp only [Nat.testBit_and, Nat.zero_testBit, Nat.testBit_two_pow]
      by_cases hik : k = i
      · subst hik; simp at h; simp [h]
      · simp [hik]
    simp [hz, h]

namespace dynamic_bitset

theorem bitAt_of_block_ge {l : List Nat} {i : Nat} (h : l.length ≤ i / 64) : bitAt l i = false := by
  unfold bitAt
  rw [List.getD_eq_default _ _ h]
  simp

theorem bitAt_of_ge {d : dynamic_bitset} (hd : d.WF) {i : Nat} (h : d.m_num_bits ≤ i) :
    bitAt d.m_bits i = false := by
  obtain ⟨hlen, _, hpad, _⟩ := hd
  by_cases hb : d.m_bits.length ≤ i / 64
  · exact bitAt_of_block_ge hb
  · have hlt : i / 64 < d.m_bits.length := Nat.lt_of_not_le hb
    unfold calc_num_blocks bits_per_block at hlen
    by_cases hz : d.m_num_bits % 64 = 0
    · simp [hz] at hlen; omega
    · simp [hz] at hlen
      have hidx : i / 64 = d.m_bits.length - 1 := by omega
      have hmod : d.m_num_bits % 64 ≤ i % 64 := by omega
      have hp := hpad hz
      unfold bitAt
      rw [hidx]
      apply Nat.testBit_lt_two_pow
      exact Nat.lt_of_lt_of_le hp (Nat.pow_le_pow_right (by decide) hmod)

theorem lt_size_of_bitAt {d : dynamic_bitset} (hd : d.WF) {i : Nat} (h : bitAt d.m_bits i = true) :
    i < d.m_num_bits := by
  by_contra hn
  rw [bitAt_of_ge hd (Nat.le_of_not_lt hn)] at h
  exact Bool.false_ne_true h

theorem test_eq {d : dynamic_bitset} {i : Nat} (h : i / 64 < d.m_bits.length) :
    d.test i = some (bitAt d.m_bits i) := by
  unfold test block_index bits_per_block bitAt
  rw [List.getElem?_eq_getElem h]
  simp only [bit_mask, bit_index, bits_per_block]
  rw [testBit_and_mask, List.getD_eq_getElem _ _ h]

theorem test_of_lt {d : dynamic_bitset} (hd : d.WF) {i : Nat} (h : i < d.m_num_bits) :
    d.test i = some (bitAt d.m_bits i) := by
  apply test_eq
  rw [hd.1]
  exact block_index_lt_calc h

end dynamic_bitset

end Lucene

namespace Lucene

theorem getD_set_zero (l : List Nat) (k m x : Nat) :
    (l.set k x).getD m 0 = if k = m ∧ k < l.length then x else l.getD m 0 := by
  simp only [List.getD_eq_getElem?_getD, List.getElem?_set]
  by_cases hkm : k = m
  · subst hkm
    by_cases hk : k < l.length
    · simp [hk]
    · simp [hk, List.getElem?_eq_none (Nat.le_of_not_lt hk)]
  · simp [hkm]

theorem getD_vector_resize (l : List Nat) (r m : Nat) :
    (vector_resize l r 0).getD m 0 = if m < r then l.getD m 0 else 0 := by
  unfold vector_resize
  simp only [List.getD_eq_getElem?_getD]
  by_cases hm : m < (l.take r).length
  · rw [List.getElem?_append_left hm]
    have hmr : m < r := by simp at hm; omega
    simp [hmr, List.getElem?_take]
  · have hm2 : (l.take r).length ≤ m := Nat.le_of_not_lt hm
    rw [List.getElem?_append_right hm2]
    simp only [List.length_take] at hm2 ⊢
    by_cases hmr : m < r
    · have hl : l.length ≤ m := by omega
      simp only [hmr, List.getElem?_eq_none hl, List.getElem?_replicate, if_true]
      split <;> rfl
    · simp only [hmr, List.getElem?_replicate, if_false]
      split <;> rfl

theorem length_vector_resize (l : List Nat) (r v : Nat) : (vector_resize l r v).length = r := by
  unfold vector_resize
  simp
  omega

theorem mem_vector_resize {l : List Nat} {r x : Nat} (h : x ∈ vector_resize l r 0) :
    x ∈ l ∨ x = 0 := by
  unfold vector_resize at h
  rcases List.mem_append.1 h with h | h
  · exact Or.inl (List.mem_of_mem_take h)
  · exact Or.inr (List.eq_of_mem_replicate h)

theorem testBit_all_ones (k : Nat) : all_ones.testBit k = decide (k < 64) := by
  unfold all_ones
  exact Nat.testBit_two_pow_sub_one 64 k

theorem bitAt_set_block (l : List Nat) (k x : Nat) (hk : k < l.length) (j : Nat) :
    bitAt (l.set k x) j = if j / 64 = k then x.testBit (j % 64) else bitAt l j := by
  unfold bitAt
  rw [getD_set_zero]
  by_cases h : j / 64 = k
  · simp [h, hk]
  · have h2 : ¬ (k = j / 64 ∧ k < l.length) := fun hh => h hh.1.symm
    rw [if_neg h2, if_neg h]

namespace dynamic_bitset

theorem WF_of_bits {d : dynamic_bitset} (hlen : d.m_bits.length = calc_num_blocks d.m_num_bits)
    (hblk : ∀ x ∈ d.m_bits, x < 2 ^ 64)
    (hz : ∀ j, d.m_num_bits ≤ j → bitAt d.m_bits j = false)
    (hn : d.m_num_bits < 2 ^ 32) : d.WF := by
  refine ⟨hlen, hblk, ?_, hn⟩
  intro hmod
  apply Nat.lt_pow_two_of_testBit
  intro i hi
  have hlast : d.m_bits.length - 1 = d.m_num_bits / 64 := by
    rw [hlen]; unfold calc_num_blocks bits_per_block; simp [hmod]
  by_cases h64 : i < 64
  · have := hz (d.m_num_bits / 64 * 64 + i) (by omega)
    unfold bitAt at this
    have e1 : (d.m_num_bits / 64 * 64 + i) / 64 = d.m_num_bits / 64 := by omega
    have e2 : (d.m_num_bits / 64 * 64 + i) % 64 = i := by omega
    rw [e1, e2] at this
    rw [hlast]; exact this
  · apply Nat.testBit_lt_two_pow
    have hb : d.m_bits.getD (d.m_bits.length - 1) 0 < 2 ^ 64 := by
      by_cases hl : d.m_bits.length - 1 < d.m_bits.length
      · rw [List.getD_eq_getElem _ _ hl]; exact hblk _ (List.getElem_mem _)
      · rw [List.getD_eq_default _ _ (Nat.le_of_not_lt hl)]; decide
    exact Nat.lt_of_lt_of_le hb (Nat.pow_le_pow_right (by decide) (Nat.le_of_not_lt h64))

theorem set_eq_none {d : dynamic_bitset} {i : Nat} {v : Bool} (h : d.m_bits.length ≤ i / 64) :
    d.set i v = none := by
  unfold set block_index bits_per_block
  rw [List.getElem?_eq_none h]

theorem set_isSome {d : dynamic_bitset} {i : Nat} (v : Bool) (h : i / 64 < d.m_bits.length) :
    ∃ d1, d.set i v = some d1 := by
  unfold set block_index bits_per_block
  rw [List.getElem?_eq_getElem h]
  cases v <;> simp

theorem of_set_eq_some {d d1 : dynamic_bitset} {i : Nat} {v : Bool} (h : d.set i v = some d1) :
    i / 64 < d.m_bits.length ∧ d1.m_num_bits = d.m_num_bits ∧
    d1.m_bits.length = d.m_bits.length ∧
    (∀ j, bitAt d1.m_bits j = if j = i then v else bitAt d.m_bits j) ∧
    ((∀ x ∈ d.m_bits, x < 2 ^ 64) → ∀ x ∈ d1.m_bits, x < 2 ^ 64) := by
  have hlt : i / 64 < d.m_bits.length := by
    by_contra hn
    rw [set_eq_none (Nat.le_of_not_lt hn)] at h
    exact Option.noConfusion h
  refine ⟨hlt, ?_⟩
  unfold set block_index bits_per_block at h
  rw [List.getElem?_eq_getElem hlt] at h
  simp only [bit_mask, bit_index, bits_per_block] at h
  cases v
  · simp only [Bool.false_eq_true, if_false, Option.some.injEq] at h
    subst h
    refine ⟨rfl, by simp, ?_, ?_⟩
    · intro j
      rw [bitAt_set_block _ _ _ hlt]
      by_cases hb : j / 64 = i / 64
      · rw [if_pos hb]
        simp only [Nat.testBit_and, Nat.testBit_xor, testBit_all_ones, Nat.testBit_two_pow]
        have hm2 : j % 64 < 64 := Nat.mod_lt _ (by decide)
        by_cases hj : j = i
        · subst hj; simp [hm2]
        · have hm : i % 64 ≠ j % 64 := by omega
          simp only [hj, if_false, hm, hm2, decide_True, decide_False, Bool.xor_false,
            Bool.and_true]
          unfold bitAt
          rw [hb, List.getD_eq_getElem _ _ hlt]
      · have hj : j ≠ i := by intro e; exact hb (by rw [e])
        rw [if_neg hb, if_neg hj]
    · intro hx x hmem
      rcases List.mem_or_eq_of_mem_set hmem with hm | hm
      · exact hx x hm
      · rw [hm]
        exact Nat.lt_of_le_of_lt Nat.and_le_left (hx _ (List.getElem_mem _))
  · simp only [if_true, Option.some.injEq] at h
    subst h
    refine ⟨rfl, by simp, ?_, ?_⟩
    · intro j
      rw [bitAt_set_block _ _ _ hlt]
      by_cases hb : j / 64 = i / 64
      · rw [if_pos hb]
        simp only [Nat.testBit_or, Nat.testBit_two_pow]
        by_cases hj : j = i
        · subst hj; simp
        · have hm : i % 64 ≠ j % 64 := by omega
          simp only [hj, if_false, hm, decide_False, Bool.or_false]
          unfold bitAt
          rw [hb, List.getD_eq_getElem _ _ hlt]
      · have hj : j ≠ i := by intro e; exact hb (by rw [e])
        rw [if_neg hb, if_neg hj]
    · intro hx x hmem
      rcases List.mem_or_eq_of_mem_set hmem with hm | hm
      · exact hx x hm
      · rw [hm]
        apply Nat.or_lt_two_pow (hx _ (List.getElem_mem _))
        exact Nat.pow_lt_pow_right (by decide) (Nat.mod_lt _ (by decide))

theorem WF_set {d d1 : dynamic_bitset} {i : Nat} {v : Bool} (hd : d.WF)
    (hi : i < d.m_num_bits ∨ v = false) (h : d.set i v = some d1) : d1.WF := by
  obtain ⟨_, hn, hlen, hbit, hblk⟩ := of_set_eq_some h
  apply WF_of_bits
  · rw [hlen, hn]; exact hd.1
  · exact hblk hd.2.1
  · intro j hj
    rw [hn] at hj
    rw [hbit j]
    by_cases hji : j = i
    · subst hji
      rcases hi with hi | hi
      · omega
      · simp [hi]
    · simp [hji, bitAt_of_ge hd hj]
  · rw [hn]; exact hd.2.2.2

end dynamic_bitset

end Lucene

namespace Lucene

namespace dynamic_bitset

theorem vector_resize_self (l : List Nat) : vector_resize l l.length 0 = l := by
  unfold vector_resize
  simp

theorem resize_eq (d : dynamic_bitset) (n : Nat) :
    d.resize n = m_zero_unused_bits ⟨vector_resize d.m_bits (calc_num_blocks n) 0, n⟩ := by
  unfold resize num_blocks
  by_cases h : calc_num_blocks n = d.m_bits.length
  · simp only [h, ne_eq, not_true_eq_false, if_false, vector_resize_self]
  · simp only [ne_eq, h, not_false_eq_true, if_true]

theorem m_zero_unused_bits_num_bits (d : dynamic_bitset) :
    (m_zero_unused_bits d).m_num_bits = d.m_num_bits := by
  unfold m_zero_unused_bits
  simp only []
  split <;> rfl

theorem m_zero_unused_bits_length (d : dynamic_bitset) :
    (m_zero_unused_bits d).m_bits.length = d.m_bits.length := by
  unfold m_zero_unused_bits
  simp only []
  split
  · simp
  · rfl

theorem m_zero_unused_bits_blocks (d : dynamic_bitset) (h : ∀ x ∈ d.m_bits, x < 2 ^ 64) :
    ∀ x ∈ (m_zero_unused_bits d).m_bits, x < 2 ^ 64 := by
  unfold m_zero_unused_bits
  simp only []
  split
  · intro x hx
    rcases List.mem_or_eq_of_mem_set hx with hm | hm
    · exact h x hm
    · rw [hm]
      refine Nat.lt_of_le_of_lt Nat.and_le_left ?_
      by_cases hl : d.m_bits.length - 1 < d.m_bits.length
      · rw [List.getD_eq_getElem _ _ hl]; exact h _ (List.getElem_mem _)
      · rw [List.getD_eq_default _ _ (Nat.le_of_not_lt hl)]; decide
  · exact h

theorem bitAt_m_zero_unused_bits (d : dynamic_bitset)
    (hlen : d.m_bits.length = calc_num_blocks d.m_num_bits) (j : Nat) :
    bitAt (m_zero_unused_bits d).m_bits j = (decide (j < d.m_num_bits) && bitAt d.m_bits j) := by
  unfold m_zero_unused_bits bits_per_block
  unfold calc_num_blocks bits_per_block at hlen
  simp only []
  by_cases hz : d.m_num_bits % 64 = 0
  · simp only [hz, ne_eq, not_true_eq_false, if_false]
    simp only [hz, ne_eq, not_true_eq_false, if_false, Nat.add_zero] at hlen
    by_cases hj : j < d.m_num_bits
    · simp [hj]
    · have : d.m_bits.length ≤ j / 64 := by omega
      simp [hj, bitAt_of_block_ge this]
  · simp only [ne_eq, hz, not_false_eq_true, if_true]
    simp only [ne_eq, hz, not_false_eq_true, if_true] at hlen
    have hlast : d.m_bits.length - 1 = d.m_num_bits / 64 := by omega
    have hlt : d.m_num_bits / 64 < d.m_bits.length := by omega
    rw [hlast, bitAt_set_block _ _ _ hlt]
    by_cases hb : j / 64 = d.m_num_bits / 64
    · rw [if_pos hb]
      simp only [Nat.testBit_and, Nat.testBit_two_pow_sub_one]
      unfold bitAt
      rw [hb, Bool.and_comm]
      congr 1
      have : (j % 64 < d.m_num_bits % 64) ↔ j < d.m_num_bits := by omega
      simp only [this]
    · rw [if_neg hb]
      by_cases hj : j < d.m_num_bits
      · simp [hj]
      · have : d.m_bits.length ≤ j / 64 := by omega
        simp [hj, bitAt_of_block_ge this]

theorem resize_num_bits (d : dynamic_bitset) (n : Nat) : (d.resize n).m_num_bits = n := by
  rw [resize_eq, m_zero_unused_bits_num_bits]

theorem resize_length (d : dynamic_bitset) (n : Nat) :
    (d.resize n).m_bits.length = calc_num_blocks n := by
  rw [resize_eq, m_zero_unused_bits_length, length_vector_resize]

theorem bitAt_vector_resize (l : List Nat) (r j : Nat) :
    bitAt (vector_resize l r 0) j = (decide (j / 64 < r) && bitAt l j) := by
  unfold bitAt
  rw [getD_vector_resize]
  by_cases h : j / 64 < r <;> simp [h]

theorem bitAt_resize (d : dynamic_bitset) (n j : Nat) :
    bitAt (d.resize n).m_bits j = (decide (j < n) && bitAt d.m_bits j) := by
  rw [resize_eq, bitAt_m_zero_unused_bits _ (by simp [length_vector_resize])]
  simp only [bitAt_vector_resize]
  by_cases hj : j < n
  · have := block_index_lt_calc hj
    simp [hj, this]
  · simp [hj]

theorem WF_resize {d : dynamic_bitset} (hblk : ∀ x ∈ d.m_bits, x < 2 ^ 64) {n : Nat}
    (hn : n < 2 ^ 32) : (d.resize n).WF := by
  apply WF_of_bits
  · rw [resize_length, resize_num_bits]
  · rw [resize_eq]
    apply m_zero_unused_bits_blocks
    intro x hx
    rcases mem_vector_resize hx with h | h
    · exact hblk x h
    · rw [h]; decide
  · intro j hj
    rw [resize_num_bits] at hj
    rw [bitAt_resize]
    simp [Nat.not_lt.2 hj]
  · rw [resize_num_bits]; exact hn

theorem bitAt_create (n j : Nat) : bitAt (create n).m_bits j = false := by
  unfold create bitAt
  simp only [List.getD_eq_getElem?_getD, List.getElem?_replicate]
  split <;> simp

theorem WF_create {n : Nat} (hn : n < 2 ^ 32) : (create n).WF := by
  apply WF_of_bits
  · simp [create]
  · intro x hx
    rw [List.eq_of_mem_replicate hx]; decide
  · intro j _; exact bitAt_create n j
  · exact hn

theorem WF_clear (d : dynamic_bitset) : d.clear.WF := by
  unfold clear; decide

end dynamic_bitset

end Lucene

namespace Lucene

theorem toUInt32_of_lt {n : Nat} (h : n < 2 ^ 32) : toUInt32 n = n := by
  unfold toUInt32
  exact Nat.mod_eq_of_lt h

namespace dynamic_bitset

theorem bitAt_resize_grow {d : dynamic_bitset} (hd : d.WF) {n : Nat} (hn : d.m_num_bits ≤ n)
    (j : Nat) : bitAt (d.resize n).m_bits j = bitAt d.m_bits j := by
  rw [bitAt_resize]
  by_cases hj : j < n
  · simp [hj]
  · have : d.m_num_bits ≤ j := by omega
    simp [hj, bitAt_of_ge hd this]

end dynamic_bitset

namespace BitSet

theorem get_eq {b : BitSet} (hb : b.bitSet.WF) (i : Nat) :
    b.get i = some (bitAt b.bitSet.m_bits i) := by
  unfold get dynamic_bitset.size
  by_cases h : i < b.bitSet.m_num_bits
  · rw [if_pos h, dynamic_bitset.test_of_lt hb h]
  · rw [if_neg h, dynamic_bitset.bitAt_of_ge hb (Nat.le_of_not_lt h)]

theorem size_eq (b : BitSet) : b.size = toUInt32 (b.bitSet.m_bits.length * 64) := by
  unfold size dynamic_bitset.num_blocks
  rw [Nat.mul_assoc]

theorem size_eq_of_lt {b : BitSet} (h : b.bitSet.m_bits.length < 2 ^ 26) :
    b.size = b.bitSet.m_bits.length * 64 := by
  rw [size_eq, toUInt32_of_lt]
  omega

theorem length_lt_of_num_bits_le {d : dynamic_bitset} (hd : d.WF)
    (h : d.m_num_bits ≤ 2 ^ 32 - 64) : d.m_bits.length < 2 ^ 26 := by
  have := calc_num_blocks_lt d.m_num_bits
  rw [hd.1]
  omega

theorem set_eq_some {b : BitSet} (hb : b.bitSet.WF) {i : Nat} (hi : i < 2 ^ 32 - 1) :
    ∃ b1, b.set i = some b1 ∧ b1.bitSet.WF ∧
      b1.bitSet.m_num_bits = max b.bitSet.m_num_bits (i + 1) ∧
      ∀ j, bitAt b1.bitSet.m_bits j = (decide (j = i) || bitAt b.bitSet.m_bits j) := by
  unfold set resize dynamic_bitset.size
  rw [toUInt32_of_lt (by omega : i + 1 < 2 ^ 32)]
  by_cases hge : i ≥ b.bitSet.m_num_bits
  · simp only [hge, if_true]
    have hw : (b.bitSet.resize (i + 1)).WF := dynamic_bitset.WF_resize hb.2.1 (by omega)
    have hlt : i / 64 < (b.bitSet.resize (i + 1)).m_bits.length := by
      rw [dynamic_bitset.resize_length]; exact block_index_lt_calc (by omega)
    obtain ⟨d1, hd1⟩ := dynamic_bitset.set_isSome true hlt
    refine ⟨⟨d1⟩, by rw [hd1]; rfl, ?_, ?_, ?_⟩
    · exact dynamic_bitset.WF_set hw (Or.inl (by rw [dynamic_bitset.resize_num_bits]; omega)) hd1
    · obtain ⟨_, hn, _⟩ := dynamic_bitset.of_set_eq_some hd1
      show d1.m_num_bits = _
      rw [hn, dynamic_bitset.resize_num_bits]; omega
    · intro j
      obtain ⟨_, _, _, hbit, _⟩ := dynamic_bitset.of_set_eq_some hd1
      show bitAt d1.m_bits j = _
      rw [hbit j, dynamic_bitset.bitAt_resize_grow hb (by omega)]
      by_cases hj : j = i <;> simp [hj]
  · simp only [hge, if_false]
    have hlt2 : i < b.bitSet.m_num_bits := Nat.lt_of_not_le hge
    have hlt : i / 64 < b.bitSet.m_bits.length := by
      rw [hb.1]; exact block_index_lt_calc hlt2
    obtain ⟨d1, hd1⟩ := dynamic_bitset.set_isSome true hlt
    refine ⟨⟨d1⟩, by rw [hd1]; rfl, ?_, ?_, ?_⟩
    · exact dynamic_bitset.WF_set hb (Or.inl hlt2) hd1
    · obtain ⟨_, hn, _⟩ := dynamic_bitset.of_set_eq_some hd1
      show d1.m_num_bits = _
      rw [hn]; omega
    · intro j
      obtain ⟨_, _, _, hbit, _⟩ := dynamic_bitset.of_set_eq_some hd1
      show bitAt d1.m_bits j = _
      rw [hbit j]
      by_cases hj : j = i <;> simp [hj]

end BitSet

end Lucene

namespace Lucene

namespace dynamic_bitset

theorem of_set_loop_eq_some (v : Bool) : ∀ (len pos : Nat) (d d1 : dynamic_bitset),
    set_loop d v pos len = some d1 →
    d1.m_num_bits = d.m_num_bits ∧ d1.m_bits.length = d.m_bits.length ∧
    (∀ j, bitAt d1.m_bits j = if pos ≤ j ∧ j < pos + len then v else bitAt d.m_bits j) ∧
    ((∀ x ∈ d.m_bits, x < 2 ^ 64) → ∀ x ∈ d1.m_bits, x < 2 ^ 64) := by
  intro len
  induction len with
  | zero =>
    intro pos d d1 h
    simp only [set_loop, Option.some.injEq] at h
    subst h
    refine ⟨rfl, rfl, ?_, fun hx => hx⟩
    intro j
    have : ¬ (pos ≤ j ∧ j < pos + 0) := by omega
    rw [if_neg this]
  | succ len ih =>
    intro pos d d1 h
    simp only [set_loop] at h
    cases hs : d.set pos v with
    | none => rw [hs] at h; exact Option.noConfusion h
    | some d2 =>
      rw [hs] at h
      obtain ⟨_, hn2, hl2, hb2, hx2⟩ := of_set_eq_some hs
      obtain ⟨hn1, hl1, hb1, hx1⟩ := ih (pos + 1) d2 d1 h
      refine ⟨by rw [hn1, hn2], by rw [hl1, hl2], ?_, fun hx => hx1 (hx2 hx)⟩
      intro j
      rw [hb1 j, hb2 j]
      by_cases hj : j = pos
      · subst hj
        have h1 : ¬ (j + 1 ≤ j ∧ j < j + 1 + len) := by omega
        have h2 : j ≤ j ∧ j < j + (len + 1) := by omega
        rw [if_neg h1, if_pos h2, if_pos rfl]
      · by_cases hr : pos + 1 ≤ j ∧ j < pos + 1 + len
        · have h2 : pos ≤ j ∧ j < pos + (len + 1) := by omega
          rw [if_pos hr, if_pos h2]
        · have h2 : ¬ (pos ≤ j ∧ j < pos + (len + 1)) := by omega
          rw [if_neg hr, if_neg h2, if_neg hj]

theorem set_loop_isSome (v : Bool) : ∀ (len pos : Nat) (d : dynamic_bitset),
    pos + len ≤ 64 * d.m_bits.length → ∃ d1, set_loop d v pos len = some d1 := by
  intro len
  induction len with
  | zero => intro pos d _; exact ⟨d, rfl⟩
  | succ len ih =>
    intro pos d h
    have hlt : pos / 64 < d.m_bits.length := by omega
    obtain ⟨d2, hd2⟩ := set_isSome v hlt
    obtain ⟨_, _, hl2, _, _⟩ := of_set_eq_some hd2
    obtain ⟨d1, hd1⟩ := ih (pos + 1) d2 (by rw [hl2]; omega)
    refine ⟨d1, ?_⟩
    simp only [set_loop, hd2]
    exact hd1

theorem WF_set_loop {d d1 : dynamic_bitset} {v : Bool} {pos len : Nat} (hd : d.WF)
    (hr : pos + len ≤ d.m_num_bits ∨ v = false) (h : set_loop d v pos len = some d1) :
    d1.WF := by
  obtain ⟨hn, hlen, hbit, hblk⟩ := of_set_loop_eq_some v len pos d d1 h
  apply WF_of_bits
  · rw [hlen, hn]; exact hd.1
  · exact hblk hd.2.1
  · intro j hj
    rw [hn] at hj
    rw [hbit j]
    by_cases hin : pos ≤ j ∧ j < pos + len
    · rw [if_pos hin]
      rcases hr with hr | hr
      · omega
      · exact hr
    · rw [if_neg hin]; exact bitAt_of_ge hd hj
  · rw [hn]; exact hd.2.2.2

end dynamic_bitset

namespace BitSet

theorem clearRange_eq (boostVersion : Nat) {b : BitSet} (hb : b.bitSet.WF) {fromIndex toIndex : Nat}
    (hft : fromIndex ≤ toIndex) (ht : toIndex < 2 ^ 32) :
    b.clearRange boostVersion fromIndex toIndex =
      (b.bitSet.set_loop false (min fromIndex b.bitSet.m_num_bits)
        (min toIndex b.bitSet.m_num_bits - min fromIndex b.bitSet.m_num_bits)).map BitSet.mk := by
  have hn := hb.2.2.2
  unfold clearRange dynamic_bitset.size dynamic_bitset.reset_range
  have e1 : toUInt32 (min fromIndex b.bitSet.m_num_bits) = min fromIndex b.bitSet.m_num_bits :=
    toUInt32_of_lt (by omega)
  have e2 : toUInt32 (min toIndex b.bitSet.m_num_bits) = min toIndex b.bitSet.m_num_bits :=
    toUInt32_of_lt (by omega)
  have e3 : toUInt32 b.bitSet.m_num_bits = b.bitSet.m_num_bits := toUInt32_of_lt hn
  have e4 : toUInt32 (min toIndex b.bitSet.m_num_bits + 2 ^ 32 - min fromIndex b.bitSet.m_num_bits)
      = min toIndex b.bitSet.m_num_bits - min fromIndex b.bitSet.m_num_bits := by
    unfold toUInt32; omega
  simp only [e1, e2, e3, e4]
  split <;> rfl

theorem fastSetRange_eq (boostVersion : Nat) (b : BitSet) {fromIndex toIndex : Nat} (value : Bool)
    (hft : fromIndex ≤ toIndex) (ht : toIndex < 2 ^ 32) :
    fastSetRange boostVersion b fromIndex toIndex value =
      (b.bitSet.set_loop value fromIndex (toIndex - fromIndex)).map BitSet.mk := by
  unfold fastSetRange dynamic_bitset.set_range
  have e : toUInt32 (toIndex + 2 ^ 32 - fromIndex) = toIndex - fromIndex := by
    unfold toUInt32; omega
  rw [e]
  split <;> rfl

theorem clearRange_eq_some (boostVersion : Nat) {b : BitSet} (hb : b.bitSet.WF)
    {fromIndex toIndex : Nat} (hft : fromIndex ≤ toIndex) (ht : toIndex < 2 ^ 32) :
    ∃ b1, b.clearRange boostVersion fromIndex toIndex = some b1 ∧ b1.bitSet.WF ∧
      b1.bitSet.m_num_bits = b.bitSet.m_num_bits ∧
      b1.bitSet.m_bits.length = b.bitSet.m_bits.length ∧
      ∀ j, bitAt b1.bitSet.m_bits j =
        (!decide (fromIndex ≤ j ∧ j < toIndex) && bitAt b.bitSet.m_bits j) := by
  rw [clearRange_eq boostVersion hb hft ht]
  have hsto : min fromIndex b.bitSet.m_num_bits +
      (min toIndex b.bitSet.m_num_bits - min fromIndex b.bitSet.m_num_bits)
      ≤ 64 * b.bitSet.m_bits.length := by
    have := calc_num_blocks_le b.bitSet.m_num_bits
    rw [hb.1]; omega
  obtain ⟨d1, hd1⟩ := dynamic_bitset.set_loop_isSome false _ _ _ hsto
  obtain ⟨hn, hlen, hbit, _⟩ := dynamic_bitset.of_set_loop_eq_some false _ _ _ _ hd1
  refine ⟨⟨d1⟩, by rw [hd1]; rfl, dynamic_bitset.WF_set_loop hb (Or.inr rfl) hd1, hn, hlen, ?_⟩
  intro j
  show bitAt d1.m_bits j = _
  rw [hbit j]
  by_cases hj : j < b.bitSet.m_num_bits
  · by_cases hin : fromIndex ≤ j ∧ j < toIndex
    · have : min fromIndex b.bitSet.m_num_bits ≤ j ∧ j < min fromIndex b.bitSet.m_num_bits +
        (min toIndex b.bitSet.m_num_bits - min fromIndex b.bitSet.m_num_bits) := by omega
      rw [if_pos this]; simp [hin]
    · have : ¬ (min fromIndex b.bitSet.m_num_bits ≤ j ∧ j < min fromIndex b.bitSet.m_num_bits +
        (min toIndex b.bitSet.m_num_bits - min fromIndex b.bitSet.m_num_bits)) := by omega
      rw [if_neg this]; simp [hin]
  · have hz := dynamic_bitset.bitAt_of_ge hb (Nat.le_of_not_lt hj)
    rw [hz]
    split <;> simp

theorem setRange_eq_some (boostVersion : Nat) {b : BitSet} (hb : b.bitSet.WF)
    {fromIndex toIndex : Nat} (value : Bool) (hft : fromIndex ≤ toIndex)
    (ht : toIndex < 2 ^ 32 - 1) :
    ∃ b1, b.setRange boostVersion fromIndex toIndex value = some b1 ∧ b1.bitSet.WF ∧
      b1.bitSet.m_num_bits = max b.bitSet.m_num_bits (toIndex + 1) ∧
      ∀ j, bitAt b1.bitSet.m_bits j =
        if fromIndex ≤ j ∧ j < toIndex then value else bitAt b.bitSet.m_bits j := by
  unfold setRange resize dynamic_bitset.size
  rw [toUInt32_of_lt (by omega : toIndex + 1 < 2 ^ 32)]
  by_cases hge : toIndex ≥ b.bitSet.m_num_bits
  · simp only [hge, if_true]
    rw [fastSetRange_eq boostVersion _ value hft (by omega)]
    have hw : (b.bitSet.resize (toIndex + 1)).WF := dynamic_bitset.WF_resize hb.2.1 (by omega)
    have hsto : fromIndex + (toIndex - fromIndex) ≤
        64 * (b.bitSet.resize (toIndex + 1)).m_bits.length := by
      have := calc_num_blocks_le (toIndex + 1)
      rw [dynamic_bitset.resize_length]; omega
    obtain ⟨d1, hd1⟩ := dynamic_bitset.set_loop_isSome value _ _ _ hsto
    obtain ⟨hn, _, hbit, _⟩ := dynamic_bitset.of_set_loop_eq_some value _ _ _ _ hd1
    refine ⟨⟨d1⟩, by rw [hd1]; rfl, ?_, ?_, ?_⟩
    · exact dynamic_bitset.WF_set_loop hw
        (Or.inl (by rw [dynamic_bitset.resize_num_bits]; omega)) hd1
    · show d1.m_num_bits = _
      rw [hn, dynamic_bitset.resize_num_bits]; omega
    · intro j
      show bitAt d1.m_bits j = _
      rw [hbit j, dynamic_bitset.bitAt_resize_grow hb (by omega)]
      have : (fromIndex ≤ j ∧ j < fromIndex + (toIndex - fromIndex)) ↔
          (fromIndex ≤ j ∧ j < toIndex) := by omega
      simp only [this]
  · simp only [hge, if_false]
    rw [fastSetRange_eq boostVersion _ value hft (by omega)]
    have hsto : fromIndex + (toIndex - fromIndex) ≤ 64 * b.bitSet.m_bits.length := by
      have := calc_num_blocks_le b.bitSet.m_num_bits
      rw [hb.1]; omega
    obtain ⟨d1, hd1⟩ := dynamic_bitset.set_loop_isSome value _ _ _ hsto
    obtain ⟨hn, _, hbit, _⟩ := dynamic_bitset.of_set_loop_eq_some value _ _ _ _ hd1
    refine ⟨⟨d1⟩, by rw [hd1]; rfl, ?_, ?_, ?_⟩
    · exact dynamic_bitset.WF_set_loop hb (Or.inl (by omega)) hd1
    · show d1.m_num_bits = _
      rw [hn]; omega
    · intro j
      show bitAt d1.m_bits j = _
      rw [hbit j]
      have : (fromIndex ≤ j ∧ j < fromIndex + (toIndex - fromIndex)) ↔
          (fromIndex ≤ j ∧ j < toIndex) := by omega
      simp only [this]

end BitSet

end Lucene

namespace Lucene

/-! ## Scanning for set bits -/

theorem lowest_bit_aux_spec : ∀ (fuel x : Nat), x ≠ 0 → x < 2 ^ fuel →
    x.testBit (lowest_bit_aux fuel x) = true ∧
    ∀ j, j < lowest_bit_aux fuel x → x.testBit j = false := by
  intro fuel
  induction fuel with
  | zero => intro x h0 hx; simp at hx; exact absurd hx h0
  | succ fuel ih =>
    intro x h0 hx
    unfold lowest_bit_aux
    by_cases hodd : x % 2 = 1
    · rw [if_pos hodd]
      refine ⟨by simp [hodd], ?_⟩
      intro j hj; omega
    · rw [if_neg hodd]
      have h2 : x / 2 ≠ 0 := by omega
      have h3 : x / 2 < 2 ^ fuel := by
        rw [Nat.pow_succ] at hx; omega
      obtain ⟨ht, hl⟩ := ih (x / 2) h2 h3
      refine ⟨?_, ?_⟩
      · rw [Nat.add_comm 1, Nat.testBit_succ]; exact ht
      · intro j hj
        cases j with
        | zero => simp [hodd]
        | succ k =>
          rw [Nat.testBit_succ]
          exact hl k (by omega)

theorem lowest_bit_spec {x : Nat} (h0 : x ≠ 0) (hx : x < 2 ^ 64) :
    x.testBit (lowest_bit x) = true ∧ (∀ j, j < lowest_bit x → x.testBit j = false) ∧
    lowest_bit x < 64 := by
  obtain ⟨ht, hl⟩ := lowest_bit_aux_spec 64 x h0 hx
  refine ⟨ht, hl, ?_⟩
  by_contra hn
  have : x.testBit (lowest_bit x) = false :=
    Nat.testBit_lt_two_pow (Nat.lt_of_lt_of_le hx (Nat.pow_le_pow_right (by decide)
      (Nat.le_of_not_lt hn)))
  rw [show lowest_bit x = lowest_bit_aux 64 x from rfl] at this
  rw [this] at ht
  exact Bool.false_ne_true ht

theorem find_if_not_empty_spec : ∀ (t : List Nat) (i : Nat),
    i ≤ find_if_not_empty t i ∧ find_if_not_empty t i ≤ i + t.length ∧
    (∀ k, i ≤ k → k < find_if_not_empty t i → t.getD (k - i) 0 = 0) ∧
    (find_if_not_empty t i < i + t.length → t.getD (find_if_not_empty t i - i) 0 ≠ 0) := by
  intro t
  induction t with
  | nil =>
    intro i
    simp only [find_if_not_empty, List.length_nil]
    refine ⟨Nat.le_refl _, Nat.le_refl _, ?_, ?_⟩
    · intro k h1 h2; omega
    · intro h; omega
  | cons b bs ih =>
    intro i
    simp only [find_if_not_empty, List.length_cons]
    by_cases hb : b ≠ 0
    · rw [if_pos hb]
      refine ⟨Nat.le_refl _, by omega, ?_, ?_⟩
      · intro k h1 h2; omega
      · intro _; simpa using hb
    · rw [if_neg hb]
      obtain ⟨h1, h2, h3, h4⟩ := ih (i + 1)
      refine ⟨by omega, by omega, ?_, ?_⟩
      · intro k hk1 hk2
        by_cases hki : k = i
        · subst hki; simpa using hb
        · have := h3 k (by omega) hk2
          have e : k - i = (k - (i + 1)) + 1 := by omega
          rw [e, List.getD_cons_succ]; exact this
      · intro hlt
        have := h4 (by omega)
        have e : find_if_not_empty bs (i + 1) - i = (find_if_not_empty bs (i + 1) - (i + 1)) + 1 := by
          omega
        rw [e, List.getD_cons_succ]; exact this

theorem getD_drop (l : List Nat) (fb k : Nat) (h : fb ≤ k) :
    (l.drop fb).getD (k - fb) 0 = l.getD k 0 := by
  simp only [List.getD_eq_getElem?_getD, List.getElem?_drop]
  rw [show fb + (k - fb) = k by omega]

theorem getD_lt_of_blocks {l : List Nat} (h : ∀ x ∈ l, x < 2 ^ 64) (k : Nat) :
    l.getD k 0 < 2 ^ 64 := by
  by_cases hk : k < l.length
  · rw [List.getD_eq_getElem _ _ hk]; exact h _ (List.getElem_mem _)
  · rw [List.getD_eq_default _ _ (Nat.le_of_not_lt hk)]; decide

theorem IsFirstSetFrom.extend {l : List Nat} {p q r : Nat} (h : IsFirstSetFrom l q r)
    (hpq : p ≤ q) (hz : ∀ j, p ≤ j → j < q → bitAt l j = false) : IsFirstSetFrom l p r := by
  rcases h with ⟨hr, hall⟩ | ⟨hqr, hbit, hall⟩
  · refine Or.inl ⟨hr, ?_⟩
    intro j hj
    by_cases hjq : j < q
    · exact hz j hj hjq
    · exact hall j (Nat.le_of_not_lt hjq)
  · refine Or.inr ⟨Nat.le_trans hpq hqr, hbit, ?_⟩
    intro j hj hjr
    by_cases hjq : j < q
    · exact hz j hj hjq
    · exact hall j (Nat.le_of_not_lt hjq) hjr

theorem IsFirstSetFrom.unique {l : List Nat} {p r s : Nat} (hr : IsFirstSetFrom l p r)
    (hs : IsFirstSetFrom l p s) : r = s := by
  rcases hr with ⟨hr, hall⟩ | ⟨hpr, hbit, hall⟩
  · rcases hs with ⟨hs, _⟩ | ⟨hps, hbit2, _⟩
    · rw [hr, hs]
    · rw [hall s hps] at hbit2; exact absurd hbit2 Bool.false_ne_true
  · rcases hs with ⟨_, hall2⟩ | ⟨hps, hbit2, hall2⟩
    · rw [hall2 r hpr] at hbit; exact absurd hbit Bool.false_ne_true
    · rcases Nat.lt_trichotomy r s with h | h | h
      · rw [hall2 r hpr h] at hbit; exact absurd hbit Bool.false_ne_true
      · exact h
      · rw [hall s hps h] at hbit2; exact absurd hbit2 Bool.false_ne_true

namespace dynamic_bitset

theorem m_do_find_from_spec {d : dynamic_bitset} (hblk : ∀ x ∈ d.m_bits, x < 2 ^ 64)
    {fb : Nat} (hfb : fb ≤ d.m_bits.length) :
    IsFirstSetFrom d.m_bits (fb * 64) (d.m_do_find_from fb) := by
  obtain ⟨h1, h2, h3, h4⟩ := find_if_not_empty_spec (d.m_bits.drop fb) fb
  unfold m_do_find_from num_blocks bits_per_block
  simp only []
  generalize find_if_not_empty (d.m_bits.drop fb) fb = r at h1 h2 h3 h4
  have hlen : fb + (d.m_bits.drop fb).length = d.m_bits.length := by
    rw [List.length_drop]; omega
  rw [hlen] at h2 h4
  have hzero : ∀ k, fb ≤ k → k < r → d.m_bits.getD k 0 = 0 := by
    intro k hk1 hk2
    rw [← getD_drop _ _ _ hk1]; exact h3 k hk1 hk2
  by_cases hr : r ≥ d.m_bits.length
  · rw [if_pos hr]
    refine Or.inl ⟨rfl, ?_⟩
    intro j hj
    by_cases hjl : j / 64 < d.m_bits.length
    · unfold bitAt
      rw [hzero (j / 64) (by omega) (by omega)]; simp
    · exact bitAt_of_block_ge (Nat.le_of_not_lt hjl)
  · rw [if_neg hr]
    have hrl : r < d.m_bits.length := Nat.lt_of_not_le hr
    have hne : d.m_bits.getD r 0 ≠ 0 := by
      rw [← getD_drop _ _ _ h1]; exact h4 hrl
    obtain ⟨ht, hl, h64⟩ := lowest_bit_spec hne (getD_lt_of_blocks hblk r)
    refine Or.inr ⟨by omega, ?_, ?_⟩
    · unfold bitAt
      have e1 : (r * 64 + lowest_bit (d.m_bits.getD r 0)) / 64 = r := by omega
      have e2 : (r * 64 + lowest_bit (d.m_bits.getD r 0)) % 64 = lowest_bit (d.m_bits.getD r 0) := by
        omega
      rw [e1, e2]; exact ht
    · intro j hj1 hj2
      unfold bitAt
      by_cases hjr : j / 64 < r
      · rw [hzero (j / 64) (by omega) hjr]; simp
      · have e1 : j / 64 = r := by omega
        rw [e1]
        exact hl _ (by omega)

theorem scan_spec {d : dynamic_bitset} (hd : d.WF) {p : Nat} (hp : p < d.m_num_bits) :
    IsFirstSetFrom d.m_bits p
      (if d.m_bits.getD (p / 64) 0 >>> (p % 64) ≠ 0
       then p + lowest_bit (d.m_bits.getD (p / 64) 0 >>> (p % 64))
       else d.m_do_find_from (p / 64 + 1)) := by
  have hblk : p / 64 < d.m_bits.length := by rw [hd.1]; exact block_index_lt_calc hp
  have hlt := getD_lt_of_blocks hd.2.1 (p / 64)
  by_cases hf : d.m_bits.getD (p / 64) 0 >>> (p % 64) ≠ 0
  · rw [if_pos hf]
    have hfl : d.m_bits.getD (p / 64) 0 >>> (p % 64) < 2 ^ 64 :=
      Nat.lt_of_le_of_lt (by rw [Nat.shiftRight_eq_div_pow]; exact Nat.div_le_self _ _) hlt
    obtain ⟨ht, hl, _⟩ := lowest_bit_spec hf hfl
    generalize lowest_bit (d.m_bits.getD (p / 64) 0 >>> (p % 64)) = lb at ht hl
    rw [Nat.testBit_shiftRight] at ht
    have hin : p % 64 + lb < 64 := by
      by_contra hn
      have : (d.m_bits.getD (p / 64) 0).testBit (p % 64 + lb) = false :=
        Nat.testBit_lt_two_pow (Nat.lt_of_lt_of_le hlt (Nat.pow_le_pow_right (by decide)
          (Nat.le_of_not_lt hn)))
      rw [this] at ht; exact Bool.false_ne_true ht
    refine Or.inr ⟨by omega, ?_, ?_⟩
    · unfold bitAt
      have e1 : (p + lb) / 64 = p / 64 := by omega
      have e2 : (p + lb) % 64 = p % 64 + lb := by omega
      rw [e1, e2]; exact ht
    · intro j hj1 hj2
      unfold bitAt
      have e1 : j / 64 = p / 64 := by omega
      have := hl (j - p) (by omega)
      rw [Nat.testBit_shiftRight] at this
      rw [e1, show j % 64 = p % 64 + (j - p) by omega]; exact this
  · rw [if_neg hf]
    have hf0 : d.m_bits.getD (p / 64) 0 >>> (p % 64) = 0 := by
      by_contra hn; exact hf hn
    have := m_do_find_from_spec hd.2.1 (show p / 64 + 1 ≤ d.m_bits.length by omega)
    apply this.extend (by omega)
    intro j hj1 hj2
    unfold bitAt
    have e1 : j / 64 = p / 64 := by omega
    have ht : (d.m_bits.getD (p / 64) 0 >>> (p % 64)).testBit (j - p) = false := by
      rw [hf0]; simp
    rw [Nat.testBit_shiftRight] at ht
    rw [e1, show j % 64 = p % 64 + (j - p) by omega]; exact ht

theorem find_first_spec {d : dynamic_bitset} (hd : d.WF) :
    IsFirstSetFrom d.m_bits 0 d.find_first := by
  have := m_do_find_from_spec hd.2.1 (Nat.zero_le d.m_bits.length)
  simpa [find_first] using this

theorem find_next_spec {d : dynamic_bitset} (hd : d.WF) (pos : Nat) :
    IsFirstSetFrom d.m_bits (pos + 1) (d.find_next pos) := by
  have hn := hd.2.2.2
  unfold find_next size block_index bit_index bits_per_block
  simp only []
  by_cases hc : pos ≥ (d.m_num_bits + 2 ^ 64 - 1) % 2 ^ 64 ∨ d.m_num_bits = 0
  · rw [if_pos hc]
    refine Or.inl ⟨rfl, ?_⟩
    intro j hj
    apply bitAt_of_ge hd
    omega
  · rw [if_neg hc]
    exact scan_spec hd (by omega)

theorem find_first_from_spec {d : dynamic_bitset} (hd : d.WF) (pos : Nat) :
    IsFirstSetFrom d.m_bits pos (d.find_first_from pos) := by
  unfold find_first_from size block_index bit_index bits_per_block
  simp only []
  by_cases hc : pos ≥ d.m_num_bits
  · rw [if_pos hc]
    refine Or.inl ⟨rfl, ?_⟩
    intro j hj
    apply bitAt_of_ge hd
    omega
  · rw [if_neg hc]
    exact scan_spec hd (by omega)

theorem ne_npos_of_bitAt {d : dynamic_bitset} (hd : d.WF) (j : Nat)
    (h : bitAt d.m_bits j = true) : j ≠ npos := by
  have := lt_size_of_bitAt hd h
  have := hd.2.2.2
  unfold npos
  omega

end dynamic_bitset

end Lucene

namespace Lucene

namespace BitSet

/-! ## The comparison loop of `equals` -/

theorem equalsLoop_spec {A B : dynamic_bitset} (hA : A.WF) (hB : B.WF) :
    ∀ (fuel p f s : Nat), IsFirstSetFrom A.m_bits p f → IsFirstSetFrom B.m_bits p s →
      (∀ j, j < p → bitAt A.m_bits j = bitAt B.m_bits j) →
      p ≤ A.m_num_bits → A.m_num_bits - p < fuel →
      ∃ r, equalsLoop A B fuel f s = some r ∧
        (r = true ↔ ∀ j, bitAt A.m_bits j = bitAt B.m_bits j) := by
  intro fuel
  induction fuel with
  | zero => intro p f s _ _ _ _ h; omega
  | succ fuel ih =>
    intro p f s hf hs hlow hp hfuel
    unfold equalsLoop
    by_cases hfs : f = s
    · rw [if_pos hfs]
      subst hfs
      by_cases hnp : f = npos
      · rw [if_pos hnp]
        refine ⟨true, rfl, ?_⟩
        simp only [true_iff]
        intro j
        by_cases hj : j < p
        · exact hlow j hj
        · have hj2 : p ≤ j := Nat.le_of_not_lt hj
          have hAz : bitAt A.m_bits j = false := by
            rcases hf with ⟨_, hall⟩ | ⟨_, hbit, _⟩
            · exact hall j hj2
            · exact absurd hnp (dynamic_bitset.ne_npos_of_bitAt hA f hbit)
          have hBz : bitAt B.m_bits j = false := by
            rcases hs with ⟨_, hall⟩ | ⟨_, hbit, _⟩
            · exact hall j hj2
            · exact absurd hnp (dynamic_bitset.ne_npos_of_bitAt hB f hbit)
          rw [hAz, hBz]
      · rw [if_neg hnp]
        have hfA : p ≤ f ∧ bitAt A.m_bits f = true ∧ ∀ j, p ≤ j → j < f →
            bitAt A.m_bits j = false := by
          rcases hf with ⟨h, _⟩ | h
          · exact absurd h hnp
          · exact h
        have hfB : p ≤ f ∧ bitAt B.m_bits f = true ∧ ∀ j, p ≤ j → j < f →
            bitAt B.m_bits j = false := by
          rcases hs with ⟨h, _⟩ | h
          · exact absurd h hnp
          · exact h
        have hlt := dynamic_bitset.lt_size_of_bitAt hA hfA.2.1
        apply ih (f + 1) _ _ (dynamic_bitset.find_next_spec hA f)
          (dynamic_bitset.find_next_spec hB f)
        · intro j hj
          by_cases hjp : j < p
          · exact hlow j hjp
          · by_cases hjf : j = f
            · rw [hjf, hfA.2.1, hfB.2.1]
            · rw [hfA.2.2 j (by omega) (by omega), hfB.2.2 j (by omega) (by omega)]
        · omega
        · omega
    · rw [if_neg hfs]
      refine ⟨false, rfl, ?_⟩
      simp only [Bool.false_eq_true, false_iff]
      intro hall
      apply hfs
      have hs2 : IsFirstSetFrom A.m_bits p s := by
        rcases hs with ⟨h, hz⟩ | ⟨h1, h2, h3⟩
        · exact Or.inl ⟨h, fun j hj => by rw [hall j]; exact hz j hj⟩
        · exact Or.inr ⟨h1, by rw [hall s]; exact h2, fun j hj1 hj2 => by
            rw [hall j]; exact h3 j hj1 hj2⟩
      exact hf.unique hs2

theorem equals_spec {a b : BitSet} (ha : a.bitSet.WF) (hb : b.bitSet.WF) {fuel : Nat}
    (hfa : a.bitSet.m_num_bits < fuel) (hfb : b.bitSet.m_num_bits < fuel) :
    ∃ r, a.equals fuel (some b) false = some r ∧
      (r = true ↔ ∀ j, bitAt a.bitSet.m_bits j = bitAt b.bitSet.m_bits j) := by
  unfold equals
  simp only [Bool.false_eq_true, if_false]
  by_cases h : a.bitSet.num_blocks < b.bitSet.num_blocks
  · simp only [h, if_true]
    obtain ⟨r, hr, hiff⟩ := equalsLoop_spec hb ha fuel 0 _ _
      (dynamic_bitset.find_first_spec hb) (dynamic_bitset.find_first_spec ha)
      (fun j hj => absurd hj (Nat.not_lt_zero j)) (Nat.zero_le _) (by omega)
    refine ⟨r, hr, hiff.trans ⟨fun h j => (h j).symm, fun h j => (h j).symm⟩⟩
  · simp only [h, if_false]
    exact equalsLoop_spec ha hb fuel 0 _ _
      (dynamic_bitset.find_first_spec ha) (dynamic_bitset.find_first_spec hb)
      (fun j hj => absurd hj (Nat.not_lt_zero j)) (Nat.zero_le _) (by omega)

end BitSet

end Lucene

namespace Lucene

/-! ## Block-wise operators -/

theorem getD_zipWith (f : Nat → Nat → Nat) (hf : f 0 0 = 0) {l1 l2 : List Nat}
    (hlen : l1.length = l2.length) (k : Nat) :
    (List.zipWith f l1 l2).getD k 0 = f (l1.getD k 0) (l2.getD k 0) := by
  simp only [List.getD_eq_getElem?_getD, List.getElem?_zipWith]
  by_cases hk : k < l1.length
  · have hk2 : k < l2.length := by omega
    rw [List.getElem?_eq_getElem hk, List.getElem?_eq_getElem hk2]
    rfl
  · have hk2 : ¬ k < l2.length := by omega
    rw [List.getElem?_eq_none (Nat.le_of_not_lt hk), List.getElem?_eq_none (Nat.le_of_not_lt hk2)]
    exact hf.symm

theorem mem_zipWith_lt (f : Nat → Nat → Nat)
    (hlt : ∀ x y, x < 2 ^ 64 → y < 2 ^ 64 → f x y < 2 ^ 64) {l1 l2 : List Nat}
    (h1 : ∀ x ∈ l1, x < 2 ^ 64) (h2 : ∀ x ∈ l2, x < 2 ^ 64) :
    ∀ x ∈ List.zipWith f l1 l2, x < 2 ^ 64 := by
  intro x hx
  obtain ⟨i, hi, rfl⟩ := List.getElem_of_mem hx
  rw [List.getElem_zipWith]
  exact hlt _ _ (h1 _ (List.getElem_mem _)) (h2 _ (List.getElem_mem _))

namespace dynamic_bitset

theorem zipWith_assign (f : Nat → Nat → Nat) (g : Bool → Bool → Bool)
    (hfg : ∀ x y i, (f x y).testBit i = g (x.testBit i) (y.testBit i))
    (hg : g false false = false)
    (hlt : ∀ x y, x < 2 ^ 64 → y < 2 ^ 64 → f x y < 2 ^ 64)
    {a b : dynamic_bitset} (ha : a.WF) (hb : b.WF) (hn : a.m_num_bits = b.m_num_bits) :
    (dynamic_bitset.mk (List.zipWith f a.m_bits b.m_bits) a.m_num_bits).WF ∧
    ∀ j, bitAt (List.zipWith f a.m_bits b.m_bits) j = g (bitAt a.m_bits j) (bitAt b.m_bits j) := by
  have hlen : a.m_bits.length = b.m_bits.length := by rw [ha.1, hb.1, hn]
  have hf0 : f 0 0 = 0 := by
    apply Nat.eq_of_testBit_eq
    intro i
    rw [hfg]; simp [hg]
  have hbits : ∀ j, bitAt (List.zipWith f a.m_bits b.m_bits) j =
      g (bitAt a.m_bits j) (bitAt b.m_bits j) := by
    intro j
    unfold bitAt
    rw [getD_zipWith f hf0 hlen, hfg]
  refine ⟨?_, hbits⟩
  apply WF_of_bits
  · show (List.zipWith f a.m_bits b.m_bits).length = calc_num_blocks a.m_num_bits
    rw [List.length_zipWith, ← hlen, Nat.min_self, ha.1]
  · exact mem_zipWith_lt f hlt ha.2.1 hb.2.1
  · intro j hj
    show bitAt (List.zipWith f a.m_bits b.m_bits) j = false
    have hj1 : a.m_num_bits ≤ j := hj
    rw [hbits j, bitAt_of_ge ha hj1, bitAt_of_ge hb (by rw [← hn]; exact hj1), hg]
  · exact ha.2.2.2

end dynamic_bitset

namespace BitSet

theorem or_eq_some {a b : BitSet} (ha : a.bitSet.WF) (hb : b.bitSet.WF) :
    ∃ a1, a._or b = some a1 ∧ a1.bitSet.WF ∧
      a1.bitSet.m_num_bits = max a.bitSet.m_num_bits b.bitSet.m_num_bits ∧
      ∀ j, bitAt a1.bitSet.m_bits j = (bitAt a.bitSet.m_bits j || bitAt b.bitSet.m_bits j) := by
  unfold BitSet._or resize dynamic_bitset.size dynamic_bitset.or_assign
  rw [toUInt32_of_lt hb.2.2.2]
  by_cases hgt : b.bitSet.m_num_bits > a.bitSet.m_num_bits
  · simp only [hgt, if_true]
    have hw := dynamic_bitset.WF_resize ha.2.1 hb.2.2.2 (d := a.bitSet)
    have hn : (a.bitSet.resize b.bitSet.m_num_bits).m_num_bits = b.bitSet.m_num_bits :=
      dynamic_bitset.resize_num_bits _ _
    obtain ⟨hwf, hbits⟩ := dynamic_bitset.zipWith_assign (· ||| ·) (· || ·)
      Nat.testBit_or rfl (fun x y hx hy => Nat.or_lt_two_pow hx hy) hw hb hn
    have hl : ¬ b.bitSet.m_bits.length < (a.bitSet.resize b.bitSet.m_num_bits).m_bits.length := by
      rw [dynamic_bitset.resize_length, hb.1]; omega
    rw [if_neg hl]
    refine ⟨_, rfl, hwf, ?_, ?_⟩
    · show (a.bitSet.resize b.bitSet.m_num_bits).m_num_bits = _
      rw [hn]; omega
    · intro j
      show bitAt (List.zipWith _ _ _) j = _
      rw [hbits j, dynamic_bitset.bitAt_resize_grow ha (by omega)]
  · simp only [hgt, if_false]
    have hle : b.bitSet.m_num_bits ≤ a.bitSet.m_num_bits := Nat.le_of_not_lt hgt
    have hw := dynamic_bitset.WF_resize hb.2.1 ha.2.2.2 (d := b.bitSet)
    have hn : a.bitSet.m_num_bits = (b.bitSet.resize a.bitSet.m_num_bits).m_num_bits :=
      (dynamic_bitset.resize_num_bits _ _).symm
    obtain ⟨hwf, hbits⟩ := dynamic_bitset.zipWith_assign (· ||| ·) (· || ·)
      Nat.testBit_or rfl (fun x y hx hy => Nat.or_lt_two_pow hx hy) ha hw hn
    have hl : ¬ (b.bitSet.resize a.bitSet.m_num_bits).m_bits.length < a.bitSet.m_bits.length := by
      rw [dynamic_bitset.resize_length, ha.1]; omega
    rw [if_neg hl]
    refine ⟨_, rfl, hwf, ?_, ?_⟩
    · show a.bitSet.m_num_bits = _
      omega
    · intro j
      show bitAt (List.zipWith _ _ _) j = _
      rw [hbits j, dynamic_bitset.bitAt_resize_grow hb hle]

theorem xor_eq_some {a b : BitSet} (ha : a.bitSet.WF) (hb : b.bitSet.WF) :
    ∃ a1, a._xor b = some a1 ∧ a1.bitSet.WF ∧
      a1.bitSet.m_num_bits = max a.bitSet.m_num_bits b.bitSet.m_num_bits ∧
      ∀ j, bitAt a1.bitSet.m_bits j =
        (Bool.xor (bitAt a.bitSet.m_bits j) (bitAt b.bitSet.m_bits j)) := by
  unfold BitSet._xor resize dynamic_bitset.size dynamic_bitset.xor_assign
  rw [toUInt32_of_lt hb.2.2.2]
  by_cases hgt : b.bitSet.m_num_bits > a.bitSet.m_num_bits
  · simp only [hgt, if_true]
    have hw := dynamic_bitset.WF_resize ha.2.1 hb.2.2.2 (d := a.bitSet)
    have hn : (a.bitSet.resize b.bitSet.m_num_bits).m_num_bits = b.bitSet.m_num_bits :=
      dynamic_bitset.resize_num_bits _ _
    obtain ⟨hwf, hbits⟩ := dynamic_bitset.zipWith_assign (· ^^^ ·) Bool.xor
      Nat.testBit_xor rfl (fun x y hx hy => Nat.xor_lt_two_pow hx hy) hw hb hn
    have hl : ¬ b.bitSet.m_bits.length < (a.bitSet.resize b.bitSet.m_num_bits).m_bits.length := by
      rw [dynamic_bitset.resize_length, hb.1]; omega
    rw [if_neg hl]
    refine ⟨_, rfl, hwf, ?_, ?_⟩
    · show (a.bitSet.resize b.bitSet.m_num_bits).m_num_bits = _
      rw [hn]; omega
    · intro j
      show bitAt (List.zipWith _ _ _) j = _
      rw [hbits j, dynamic_bitset.bitAt_resize_grow ha (by omega)]
  · simp only [hgt, if_false]
    have hle : b.bitSet.m_num_bits ≤ a.bitSet.m_num_bits := Nat.le_of_not_lt hgt
    have hw := dynamic_bitset.WF_resize hb.2.1 ha.2.2.2 (d := b.bitSet)
    have hn : a.bitSet.m_num_bits = (b.bitSet.resize a.bitSet.m_num_bits).m_num_bits :=
      (dynamic_bitset.resize_num_bits _ _).symm
    obtain ⟨hwf, hbits⟩ := dynamic_bitset.zipWith_assign (· ^^^ ·) Bool.xor
      Nat.testBit_xor rfl (fun x y hx hy => Nat.xor_lt_two_pow hx hy) ha hw hn
    have hl : ¬ (b.bitSet.resize a.bitSet.m_num_bits).m_bits.length < a.bitSet.m_bits.length := by
      rw [dynamic_bitset.resize_length, ha.1]; omega
    rw [if_neg hl]
    refine ⟨_, rfl, hwf, ?_, ?_⟩
    · show a.bitSet.m_num_bits = _
      omega
    · intro j
      show bitAt (List.zipWith _ _ _) j = _
      rw [hbits j, dynamic_bitset.bitAt_resize_grow hb hle]

/-! ## `nextSetBit` -/

theorem nextSetBit_eq (boostVersion : Nat) {b : BitSet} (hb : b.bitSet.WF) (fromIndex : Nat) :
    ∃ r, IsFirstSetFrom b.bitSet.m_bits fromIndex r ∧
      b.nextSetBit boostVersion fromIndex = toInt32 r := by
  unfold nextSetBit
  by_cases hv : boostVersion ≥ 108800
  · rw [if_pos hv]
    exact ⟨_, dynamic_bitset.find_first_from_spec hb fromIndex, rfl⟩
  · rw [if_neg hv]
    by_cases h0 : fromIndex = 0
    · subst h0
      refine ⟨b.bitSet.find_first, dynamic_bitset.find_first_spec hb, ?_⟩
      simp only [if_true]
      by_cases hn : b.bitSet.find_first = npos
      · rw [if_pos hn, hn]; rfl
      · rw [if_neg hn]
    · refine ⟨b.bitSet.find_next (fromIndex - 1), ?_, ?_⟩
      · have := dynamic_bitset.find_next_spec hb (fromIndex - 1)
        rwa [show fromIndex - 1 + 1 = fromIndex by omega] at this
      · simp only [h0, if_false]
        by_cases hn : b.bitSet.find_next (fromIndex - 1) = npos
        · rw [if_pos hn, hn]; rfl
        · rw [if_neg hn]

end BitSet

end Lucene

namespace Lucene

namespace BitSet

/-! ## Preservation of the invariant by the clearing operations -/

theorem WF_clearBit {b b1 : BitSet} (hb : b.bitSet.WF) {k : Nat} (h : b.clearBit k = some b1) :
    b1.bitSet.WF ∧ b1.bitSet.m_bits.length = b.bitSet.m_bits.length := by
  unfold clearBit at h
  by_cases hk : k ≤ b.bitSet.size
  · rw [if_pos hk] at h
    cases hs : b.bitSet.set k false with
    | none => rw [hs] at h; exact Option.noConfusion h
    | some d1 =>
      rw [hs] at h
      simp only [Option.map_some', Option.some.injEq] at h
      subst h
      exact ⟨dynamic_bitset.WF_set hb (Or.inr rfl) hs, (dynamic_bitset.of_set_eq_some hs).2.2.1⟩
  · rw [if_neg hk] at h
    simp only [Option.some.injEq] at h
    subst h
    exact ⟨hb, rfl⟩

theorem WF_of_set_loop_false {b b1 : BitSet} (hb : b.bitSet.WF) {pos len : Nat}
    (h : (b.bitSet.set_loop false pos len).map BitSet.mk = some b1) :
    b1.bitSet.WF ∧ b1.bitSet.m_bits.length = b.bitSet.m_bits.length := by
  cases hs : b.bitSet.set_loop false pos len with
  | none => rw [hs] at h; exact Option.noConfusion h
  | some d1 =>
    rw [hs] at h
    simp only [Option.map_some', Option.some.injEq] at h
    subst h
    exact ⟨dynamic_bitset.WF_set_loop hb (Or.inr rfl) hs,
      (dynamic_bitset.of_set_loop_eq_some false _ _ _ _ hs).2.1⟩

theorem WF_clearRange {boostVersion : Nat} {b b1 : BitSet} (hb : b.bitSet.WF)
    {fromIndex toIndex : Nat} (h : b.clearRange boostVersion fromIndex toIndex = some b1) :
    b1.bitSet.WF ∧ b1.bitSet.m_bits.length = b.bitSet.m_bits.length := by
  unfold clearRange dynamic_bitset.reset_range at h
  by_cases hv : boostVersion ≥ 106900
  · rw [if_pos hv] at h
    exact WF_of_set_loop_false hb h
  · rw [if_neg hv] at h
    exact WF_of_set_loop_false hb h

theorem get_of_capacity_le {b : BitSet} (hb : b.bitSet.WF) {i : Nat}
    (hi : 64 * b.bitSet.num_blocks ≤ i) : b.get i = some false := by
  rw [get_eq hb, dynamic_bitset.bitAt_of_ge hb]
  have := calc_num_blocks_le b.bitSet.m_num_bits
  unfold dynamic_bitset.num_blocks at hi
  rw [hb.1] at hi
  omega

theorem get_of_size_le {b : BitSet} (hb : b.bitSet.WF) (hsz : b.bitSet.num_blocks < 2 ^ 26)
    {i : Nat} (hi : b.size ≤ i) : b.get i = some false := by
  apply get_of_capacity_le hb
  rw [size_eq_of_lt hsz] at hi
  unfold dynamic_bitset.num_blocks
  omega

theorem toInt32_npos : toInt32 npos = -1 := by decide

theorem toInt32_of_lt {r : Nat} (h : r < 2 ^ 31) : toInt32 r = (r : Int) := by
  unfold toInt32
  have e : r % 2 ^ 32 = r := Nat.mod_eq_of_lt (by omega)
  rw [e, if_pos h]

theorem toInt32_ne_minus_one {r : Nat} (h : r < 2 ^ 32 - 1) : toInt32 r ≠ -1 := by
  unfold toInt32
  have e : r % 2 ^ 32 = r := Nat.mod_eq_of_lt (by omega)
  rw [e]
  split <;> omega

theorem nextSetBit_cases_int32 (boostVersion : Nat) {b : BitSet} (hb : b.bitSet.WF)
    (fromIndex : Nat) :
    (b.nextSetBit boostVersion fromIndex = -1 ∧
      ∀ i, fromIndex ≤ i → bitAt b.bitSet.m_bits i = false) ∨
    (∃ k : Nat, b.nextSetBit boostVersion fromIndex = toInt32 k ∧
      b.nextSetBit boostVersion fromIndex ≠ -1 ∧
      (k < 2 ^ 31 → b.nextSetBit boostVersion fromIndex = (k : Int)) ∧ fromIndex ≤ k ∧
      bitAt b.bitSet.m_bits k = true ∧
      ∀ i, fromIndex ≤ i → i < k → bitAt b.bitSet.m_bits i = false) := by
  obtain ⟨r, hr, he⟩ := nextSetBit_eq boostVersion hb fromIndex
  rcases hr with ⟨hn, hall⟩ | ⟨h1, h2, h3⟩
  · left
    exact ⟨by rw [he, hn, toInt32_npos], hall⟩
  · right
    have hlt := dynamic_bitset.lt_size_of_bitAt hb h2
    have h32 := hb.2.2.2
    exact ⟨r, he, by rw [he]; exact toInt32_ne_minus_one (by omega),
      fun hk => by rw [he, toInt32_of_lt hk], h1, h2, h3⟩

theorem nextSetBit_cases (boostVersion : Nat) {b : BitSet} (hb : b.bitSet.WF)
    (hcap : ∀ k, bitAt b.bitSet.m_bits k = true → k < 2 ^ 31) (fromIndex : Nat) :
    (b.nextSetBit boostVersion fromIndex = -1 ∧
      ∀ i, fromIndex ≤ i → bitAt b.bitSet.m_bits i = false) ∨
    (∃ k : Nat, b.nextSetBit boostVersion fromIndex = (k : Int) ∧ fromIndex ≤ k ∧
      bitAt b.bitSet.m_bits k = true ∧
      ∀ i, fromIndex ≤ i → i < k → bitAt b.bitSet.m_bits i = false) := by
  obtain ⟨r, hr, he⟩ := nextSetBit_eq boostVersion hb fromIndex
  rcases hr with ⟨hn, hall⟩ | ⟨h1, h2, h3⟩
  · left
    exact ⟨by rw [he, hn, toInt32_npos], hall⟩
  · right
    exact ⟨r, by rw [he, toInt32_of_lt (hcap r h2)], h1, h2, h3⟩

end BitSet

end Lucene

namespace Lucene

namespace BitSet

/-! ## The claims -/

theorem get_unused_bit_state (i : Nat) : (BitSet.mk ⟨[1024], 5⟩).get i = some false := by
  unfold BitSet.get dynamic_bitset.size
  by_cases h : i < 5
  · have h5 : i < 5 := h
    interval_cases i <;> decide
  · show (if i < 5 then _ else some false) = some false
    rw [if_neg h]

/-- C1 (counterexample): `fastSet(10)` on a vector created with 5 bits (index 10
is below `size()`, which is 64) stores a bit the vector does not use.  On that
vector and a fresh 5-bit vector `get` agrees at every index, and `equals`
returns false in both directions; on that vector and a 64-bit vector holding
bit 10, `equals` returns true while `get(10)` differs. -/
theorem equals_sees_unused_bit :
    (BitSet.create 5).fastSet 10 = some ⟨⟨[1024], 5⟩⟩ ∧
    (∀ i, (BitSet.mk ⟨[1024], 5⟩).get i = (BitSet.create 5).get i) ∧
    (BitSet.mk ⟨[1024], 5⟩).equals 6 (some (BitSet.create 5)) false = some false ∧
    (BitSet.create 5).equals 6 (some (BitSet.mk ⟨[1024], 5⟩)) false = some false ∧
    (BitSet.create 64).set 10 = some ⟨⟨[1024], 64⟩⟩ ∧
    (BitSet.mk ⟨[1024], 5⟩).equals 65 (some (BitSet.mk ⟨[1024], 64⟩)) false = some true ∧
    (BitSet.mk ⟨[1024], 5⟩).get 10 = some false ∧
    (BitSet.mk ⟨[1024], 64⟩).get 10 = some true := by
  refine ⟨by decide, ?_, by decide, by decide, by decide, by decide, by decide, by decide⟩
  intro i
  rw [get_unused_bit_state i, get_eq (b := BitSet.create 5) (by decide)]
  exact congrArg some (dynamic_bitset.bitAt_create 5 i).symm

/-- C1 (amended): for two bit sets `a` and `b` that satisfy the invariant of
`dynamic_bitset` (the unused bits of the highest block are zero), of any sizes
and block counts, `a.equals(b)` returns within `fuel` iterations of its loop as soon as `fuel`
exceeds both bit counts (and at once when `b` is the object `a` itself), and its
result is `true` exactly when `get` gives the same answer on `a` and on `b` at
every index (equivalently at every `uint32_t` index); capacity without set bits
plays no part. -/
theorem equals_iff_get_agree (a b : BitSet) (ha : a.bitSet.WF) (hb : b.bitSet.WF) (fuel : Nat)
    (hfa : a.bitSet.m_num_bits < fuel) (hfb : b.bitSet.m_num_bits < fuel)
    (samePointer : Bool) (hsame : samePointer = true → a = b) :
    ∃ r, a.equals fuel (some b) samePointer = some r ∧
      (r = true ↔ ∀ i, a.get i = b.get i) ∧
      (r = true ↔ ∀ i, i < 2 ^ 32 → a.get i = b.get i) := by
  cases samePointer with
  | true =>
    have hab := hsame rfl
    subst hab
    exact ⟨true, rfl, ⟨fun _ _ => rfl, fun _ => rfl⟩, ⟨fun _ _ _ => rfl, fun _ => rfl⟩⟩
  | false =>
    obtain ⟨r, hr, hiff⟩ := equals_spec ha hb hfa hfb
    have h1 : (∀ j, bitAt a.bitSet.m_bits j = bitAt b.bitSet.m_bits j) ↔
        ∀ i, a.get i = b.get i := by
      constructor
      · intro h i; rw [get_eq ha, get_eq hb, h i]
      · intro h j
        have := h j
        rw [get_eq ha, get_eq hb] at this
        exact Option.some.inj this
    refine ⟨r, hr, hiff.trans h1, (hiff.trans h1).trans ⟨fun h i _ => h i, ?_⟩⟩
    intro h i
    by_cases hi : i < 2 ^ 32
    · exact h i hi
    · have h32a := ha.2.2.2
      have h32b := hb.2.2.2
      rw [get_eq ha, get_eq hb, dynamic_bitset.bitAt_of_ge ha (by omega),
        dynamic_bitset.bitAt_of_ge hb (by omega)]

/-- Witness for C1 (amended): bits {1, 3} in a 5-bit vector and in a 100-bit vector, two
distinct objects. -/
theorem equals_iff_get_agree_witness :
    (BitSet.mk ⟨[10], 5⟩).bitSet.WF ∧ (BitSet.mk ⟨[10, 0], 100⟩).bitSet.WF ∧
    (BitSet.mk ⟨[10], 5⟩).equals 101 (some (BitSet.mk ⟨[10, 0], 100⟩)) false = some true ∧
    ∃ r, (BitSet.mk ⟨[10], 5⟩).equals 101 (some (BitSet.mk ⟨[10, 0], 100⟩)) false = some r ∧
      (r = true ↔ ∀ i, (BitSet.mk ⟨[10], 5⟩).get i = (BitSet.mk ⟨[10, 0], 100⟩).get i) ∧
      (r = true ↔ ∀ i, i < 2 ^ 32 →
        (BitSet.mk ⟨[10], 5⟩).get i = (BitSet.mk ⟨[10, 0], 100⟩).get i) :=
  ⟨by decide, by decide, by decide,
    equals_iff_get_agree ⟨⟨[10], 5⟩⟩ ⟨⟨[10, 0], 100⟩⟩ (by decide) (by decide) 101
      (by decide) (by decide) false (fun h => absurd h (by decide))⟩

/-- C2 (the code at the failing input): bits {1, 3} set in a vector created with
5 bits and in a vector created with 100 bits give two bit sets for which
`equals` returns true and whose `hashCode` values differ: the zero block at the
end of the longer vector rotates the accumulator once more. -/
theorem hashCode_differs_on_equal_sets :
    ((BitSet.create 5).set 1).bind (fun b => b.set 3) = some ⟨⟨[10], 5⟩⟩ ∧
    ((BitSet.create 100).set 1).bind (fun b => b.set 3) = some ⟨⟨[10, 0], 100⟩⟩ ∧
    (BitSet.mk ⟨[10], 5⟩).equals 101 (some (BitSet.mk ⟨[10, 0], 100⟩)) false = some true ∧
    (BitSet.mk ⟨[10], 5⟩).hashCode = -1737092536 ∧
    (BitSet.mk ⟨[10, 0], 100⟩).hashCode = -1737092516 ∧
    (BitSet.mk ⟨[10], 5⟩).hashCode ≠ (BitSet.mk ⟨[10, 0], 100⟩).hashCode := by
  decide

/-- C3 (counterexample): `set(4294967295)` on an empty vector computes
`bitIndex + 1 = 0` in `uint32_t`, resizes to zero bits and then writes outside
the storage; no state with `get(i)` true and `size() >= i + 1` is produced. -/
theorem set_max_index_faults :
    (BitSet.create 0).set 4294967295 = none ∧
    ¬ ∃ b1, (BitSet.create 0).set 4294967295 = some b1 ∧ b1.get 4294967295 = some true ∧
      4294967295 + 1 ≤ b1.size := by
  have h : (BitSet.create 0).set 4294967295 = none := by decide
  refine ⟨h, ?_⟩
  rintro ⟨b1, hb1, _⟩
  rw [h] at hb1
  exact Option.noConfusion hb1

/-- C3 (amended): for a well-formed bit set and an index `i ≤ 2^32 - 2`, the
checked `set(i)` completes, afterwards `get(i)` is true, every bit that was set
before is still set and 64 times the block count is at least `i + 1`; the
`uint32_t` value `size()` is at least `i + 1` when `i < 2^32 - 64` and the bit
count before the call was at most `2^32 - 64`. -/
theorem set_get_size_preserve (b : BitSet) (hb : b.bitSet.WF) (i : Nat) (hi : i < 2 ^ 32 - 1) :
    ∃ b1, b.set i = some b1 ∧ b1.get i = some true ∧
      (∀ j, b.get j = some true → b1.get j = some true) ∧
      i + 1 ≤ 64 * b1.bitSet.num_blocks ∧
      (i < 2 ^ 32 - 64 → b.bitSet.m_num_bits ≤ 2 ^ 32 - 64 → i + 1 ≤ b1.size) := by
  obtain ⟨b1, hset, hw, hn, hbit⟩ := set_eq_some hb hi
  have hcap : i + 1 ≤ 64 * b1.bitSet.m_bits.length := by
    have := calc_num_blocks_le b1.bitSet.m_num_bits
    rw [hw.1]; omega
  refine ⟨b1, hset, ?_, ?_, hcap, ?_⟩
  · rw [get_eq hw, hbit]; simp
  · intro j hj
    rw [get_eq hb] at hj
    rw [get_eq hw, hbit, Option.some.inj hj]; simp
  · intro h1 h2
    have hl : b1.bitSet.m_bits.length < 2 ^ 26 := length_lt_of_num_bits_le hw (by omega)
    rw [size_eq_of_lt hl]; omega

/-- Witness for C3 (amended): setting bit 70 of a 5-bit vector holding {1, 3}. -/
theorem set_get_size_preserve_witness :
    (BitSet.mk ⟨[10], 5⟩).bitSet.WF ∧ 70 < 2 ^ 32 - 1 ∧
    ∃ b1, (BitSet.mk ⟨[10], 5⟩).set 70 = some b1 ∧ b1.get 70 = some true ∧
      (∀ j, (BitSet.mk ⟨[10], 5⟩).get j = some true → b1.get j = some true) ∧
      70 + 1 ≤ 64 * b1.bitSet.num_blocks ∧
      (70 < 2 ^ 32 - 64 → (BitSet.mk ⟨[10], 5⟩).bitSet.m_num_bits ≤ 2 ^ 32 - 64 →
        70 + 1 ≤ b1.size) :=
  ⟨by decide, by decide, set_get_size_preserve ⟨⟨[10], 5⟩⟩ (by decide) 70 (by decide)⟩

/-- C4 (counterexample): a vector created with 4294967295 bits has `2^26`
blocks, so `size()` is `2^32` reduced to `uint32_t`, which is 0; after `set(5)`
the index 5 is `>= size()` and `get(5)` is true. -/
theorem get_true_beyond_wrapped_size :
    ∃ b, (BitSet.create 4294967295).set 5 = some b ∧ b.size = 0 ∧ b.size ≤ 5 ∧
      b.get 5 = some true := by
  have hc : (BitSet.create 4294967295).bitSet.WF :=
    dynamic_bitset.WF_create (n := 4294967295) (by decide)
  obtain ⟨b, hset, hw, hn, hbit⟩ := set_eq_some hc (i := 5) (by decide)
  have hnum : b.bitSet.m_num_bits = 4294967295 := by
    rw [hn]; show max 4294967295 (5 + 1) = 4294967295; decide
  have hsz : b.size = 0 := by
    rw [size_eq, hw.1, hnum]; decide
  refine ⟨b, hset, hsz, by rw [hsz]; decide, ?_⟩
  rw [get_eq hw, hbit]; simp

/-- C4 (amended): for a well-formed bit set, `get(i)` returns false, without a
fault, at every index `i` at or beyond 64 times the block count, and at every
`i >= size()` when there are fewer than `2^26` blocks (so that `size()` has not
wrapped); the same holds in the state after `clear()`, and in the state after
`clear(index)` or `clear(from, to)` whenever that call completes; a freshly
created vector reads false everywhere. -/
theorem get_false_beyond_size (boostVersion : Nat) (b : BitSet) (hb : b.bitSet.WF) (i : Nat) :
    (64 * b.bitSet.num_blocks ≤ i → b.get i = some false) ∧
    (b.bitSet.num_blocks < 2 ^ 26 → b.size ≤ i → b.get i = some false) ∧
    (b.clear.size ≤ i → b.clear.get i = some false) ∧
    (∀ k b1, b.clearBit k = some b1 →
      (64 * b1.bitSet.num_blocks ≤ i → b1.get i = some false) ∧
      (b1.bitSet.num_blocks < 2 ^ 26 → b1.size ≤ i → b1.get i = some false)) ∧
    (∀ fromIndex toIndex b1, b.clearRange boostVersion fromIndex toIndex = some b1 →
      (64 * b1.bitSet.num_blocks ≤ i → b1.get i = some false) ∧
      (b1.bitSet.num_blocks < 2 ^ 26 → b1.size ≤ i → b1.get i = some false)) ∧
    (∀ n, n < 2 ^ 32 → (BitSet.create n).get i = some false) := by
  refine ⟨get_of_capacity_le hb, fun h1 h2 => get_of_size_le hb h1 h2, ?_, ?_, ?_, ?_⟩
  · intro _
    exact get_of_capacity_le (b := b.clear) (dynamic_bitset.WF_clear b.bitSet) (Nat.zero_le i)
  · intro k b1 h
    have hw := (WF_clearBit hb h).1
    exact ⟨get_of_capacity_le hw, fun h1 h2 => get_of_size_le hw h1 h2⟩
  · intro f t b1 h
    have hw := (WF_clearRange hb h).1
    exact ⟨get_of_capacity_le hw, fun h1 h2 => get_of_size_le hw h1 h2⟩
  · intro n hn
    rw [get_eq (b := BitSet.create n) (dynamic_bitset.WF_create hn)]
    exact congrArg some (dynamic_bitset.bitAt_create n i)

/-- Witness for C4 (amended): the 5-bit vector holding {1, 3}, read at index 64. -/
theorem get_false_beyond_size_witness :
    (BitSet.mk ⟨[10], 5⟩).bitSet.WF ∧
    ((BitSet.mk ⟨[10], 5⟩).bitSet.num_blocks < 2 ^ 26 → (BitSet.mk ⟨[10], 5⟩).size ≤ 64 →
      (BitSet.mk ⟨[10], 5⟩).get 64 = some false) :=
  ⟨by decide, (get_false_beyond_size 0 ⟨⟨[10], 5⟩⟩ (by decide) 64).2.1⟩

/-- C5 (the code at the failing input): on a vector created with 64 bits,
`size()` is 64 and the checked `clear(64)` passes the guard
`bitIndex <= bitSet.size()` and accesses block 1 of a one-block vector: a fault
instead of a call that is ignored.  The same happens for `clear(0)` on a vector
created with 0 bits. -/
theorem clearBit_at_size_faults :
    (BitSet.create 64).size = 64 ∧ (BitSet.create 64).numBlocks = 1 ∧
    (BitSet.create 64).clearBit 64 = none ∧
    (BitSet.create 0).size = 0 ∧ (BitSet.create 0).clearBit 0 = none := by
  decide

end BitSet

end Lucene

namespace Lucene

namespace BitSet

/-- C6 (counterexample): with `toIndex = 4294967295` the checked range `set`
computes `toIndex + 1 = 0` in `uint32_t` and resizes to zero bits: on an empty
vector the assignment of `[0, 4294967295)` then writes outside the storage (in
both variants of `fastSet`), and on a vector holding bit 0 the call
`set(4294967295, 4294967295, true)` completes with bit 0, outside the range,
lost.  And on the 5-bit vector left by `fastSet(10)`, which stores a bit it does
not use, `set(64, 70, true)` grows to 71 bits and `get(10)`, outside the range,
turns from false to true. -/
theorem setRange_max_index_faults :
    (BitSet.create 0).setRange 106900 0 4294967295 true = none ∧
    (BitSet.create 0).setRange 0 0 4294967295 true = none ∧
    (BitSet.mk ⟨[1], 1⟩).get 0 = some true ∧
    (BitSet.mk ⟨[1], 1⟩).setRange 106900 4294967295 4294967295 true = some ⟨⟨[], 0⟩⟩ ∧
    (BitSet.mk ⟨[], 0⟩).get 0 = some false ∧
    (BitSet.create 5).fastSet 10 = some ⟨⟨[1024], 5⟩⟩ ∧
    (BitSet.mk ⟨[1024], 5⟩).get 10 = some false ∧
    (BitSet.mk ⟨[1024], 5⟩).setRange 106900 64 70 true = some ⟨⟨[1024, 63], 71⟩⟩ ∧
    (BitSet.mk ⟨[1024], 5⟩).setRange 0 64 70 true = some ⟨⟨[1024, 63], 71⟩⟩ ∧
    (BitSet.mk ⟨[1024, 63], 71⟩).get 10 = some true := by
  decide

/-- C6 (amended): for a bit set that satisfies the invariant of `dynamic_bitset`
(the unused bits of the highest block are zero), either value, either variant of
`fastSet` and indices `from <= to <= 2^32 - 2`, the checked `set(from, to, value)`
completes; afterwards `get(i)` is `value` for every `from <= i < to`, `get(j)` is
unchanged for every `j` outside `[from, to)`, bit `to` included, and 64 times the
block count is at least `to + 1`; the `uint32_t` value `size()` is at least
`to + 1` when `to < 2^32 - 64` and the bit count before the call was at most
`2^32 - 64`. -/
theorem setRange_assigns_range (boostVersion : Nat) (b : BitSet) (hb : b.bitSet.WF)
    (value : Bool) (fromIndex toIndex : Nat) (hft : fromIndex ≤ toIndex)
    (ht : toIndex < 2 ^ 32 - 1) :
    ∃ b1, b.setRange boostVersion fromIndex toIndex value = some b1 ∧
      (∀ i, fromIndex ≤ i → i < toIndex → b1.get i = some value) ∧
      (∀ j, j < fromIndex ∨ toIndex ≤ j → b1.get j = b.get j) ∧
      b1.get toIndex = b.get toIndex ∧
      toIndex + 1 ≤ 64 * b1.bitSet.num_blocks ∧
      (toIndex < 2 ^ 32 - 64 → b.bitSet.m_num_bits ≤ 2 ^ 32 - 64 → toIndex + 1 ≤ b1.size) := by
  obtain ⟨b1, hset, hw, hn, hbit⟩ := setRange_eq_some boostVersion hb value hft ht
  have hout : ∀ j, j < fromIndex ∨ toIndex ≤ j → b1.get j = b.get j := by
    intro j hj
    have : ¬ (fromIndex ≤ j ∧ j < toIndex) := by omega
    rw [get_eq hw, get_eq hb, hbit, if_neg this]
  have hcap : toIndex + 1 ≤ 64 * b1.bitSet.m_bits.length := by
    have := calc_num_blocks_le b1.bitSet.m_num_bits
    rw [hw.1]; omega
  refine ⟨b1, hset, ?_, hout, hout toIndex (Or.inr (Nat.le_refl _)), hcap, ?_⟩
  · intro i h1 h2
    rw [get_eq hw, hbit, if_pos ⟨h1, h2⟩]
  · intro h1 h2
    have hl : b1.bitSet.m_bits.length < 2 ^ 26 := length_lt_of_num_bits_le hw (by omega)
    rw [size_eq_of_lt hl]; omega

/-- Witness for C6 (amended): assigning `[3, 70)` in a vector created with 64 bits. -/
theorem setRange_assigns_range_witness :
    (BitSet.create 64).bitSet.WF ∧ 3 ≤ 70 ∧ 70 < 2 ^ 32 - 1 ∧
    ∃ b1, (BitSet.create 64).setRange 106900 3 70 true = some b1 ∧
      (∀ i, 3 ≤ i → i < 70 → b1.get i = some true) ∧
      (∀ j, j < 3 ∨ 70 ≤ j → b1.get j = (BitSet.create 64).get j) ∧
      b1.get 70 = (BitSet.create 64).get 70 ∧
      70 + 1 ≤ 64 * b1.bitSet.num_blocks ∧
      (70 < 2 ^ 32 - 64 → (BitSet.create 64).bitSet.m_num_bits ≤ 2 ^ 32 - 64 →
        70 + 1 ≤ b1.size) :=
  ⟨by decide, by decide, by decide,
    setRange_assigns_range 106900 (BitSet.create 64) (by decide) true 3 70 (by decide)
      (by decide)⟩

/-- C7 (counterexample): on a vector created with 64 bits (one block, `size()`
64) the call `set(64, 64, value)` resizes to 65 bits: afterwards there are two
blocks and `size()` is 128.  And on the 5-bit vector left by `fastSet(10)`,
which stores a bit it does not use, `set(70, 70, value)` grows to 71 bits and
`get(10)` turns from false to true. -/
theorem setRange_empty_grows :
    (BitSet.create 64).size = 64 ∧ (BitSet.create 64).numBlocks = 1 ∧
    (BitSet.create 64).setRange 106900 64 64 true = some ⟨⟨[0, 0], 65⟩⟩ ∧
    (BitSet.create 64).setRange 0 64 64 false = some ⟨⟨[0, 0], 65⟩⟩ ∧
    (BitSet.mk ⟨[0, 0], 65⟩).size = 128 ∧ (BitSet.mk ⟨[0, 0], 65⟩).numBlocks = 2 ∧
    (BitSet.create 5).fastSet 10 = some ⟨⟨[1024], 5⟩⟩ ∧
    (BitSet.mk ⟨[1024], 5⟩).get 10 = some false ∧
    (BitSet.mk ⟨[1024], 5⟩).setRange 106900 70 70 true = some ⟨⟨[1024, 0], 71⟩⟩ ∧
    (BitSet.mk ⟨[1024], 5⟩).setRange 0 70 70 false = some ⟨⟨[1024, 0], 71⟩⟩ ∧
    (BitSet.mk ⟨[1024, 0], 71⟩).get 10 = some true := by
  decide

/-- C7 (amended): for a bit set that satisfies the invariant of `dynamic_bitset`
(the unused bits of the highest block are zero), either value and an index
`k <= 2^32 - 2`, the checked `set(k, k, value)` completes and leaves `get(i)`
unchanged at every index; when `k` is below the bit count nothing changes at
all, `size()` and `numBlocks()` included; when `k` is at or beyond the bit count
the vector is resized to `k + 1` bits, so that afterwards the block count is the
one needed for `k + 1` bits. -/
theorem setRange_empty_keeps_bits (boostVersion : Nat) (b : BitSet) (hb : b.bitSet.WF)
    (value : Bool) (k : Nat) (hk : k < 2 ^ 32 - 1) :
    ∃ b1, b.setRange boostVersion k k value = some b1 ∧
      (∀ i, b1.get i = b.get i) ∧
      (k < b.bitSet.m_num_bits → b1 = b ∧ b1.size = b.size ∧ b1.numBlocks = b.numBlocks) ∧
      (b.bitSet.m_num_bits ≤ k → b1.bitSet.m_num_bits = k + 1 ∧
        b1.bitSet.num_blocks = calc_num_blocks (k + 1)) := by
  obtain ⟨b1, hset, hw, hn, hbit⟩ := setRange_eq_some boostVersion hb value (Nat.le_refl k) hk
  refine ⟨b1, hset, ?_, ?_, ?_⟩
  · intro i
    have : ¬ (k ≤ i ∧ i < k) := by omega
    rw [get_eq hw, get_eq hb, hbit, if_neg this]
  · intro hlt
    have hnot : ¬ k ≥ b.bitSet.size := by unfold dynamic_bitset.size; omega
    have e : b.setRange boostVersion k k value = some b := by
      unfold setRange
      simp only [hnot, if_false]
      rw [fastSetRange_eq boostVersion b value (Nat.le_refl k) (by omega), Nat.sub_self]
      rfl
    rw [e] at hset
    have hb1 : b1 = b := (Option.some.inj hset).symm
    subst hb1
    exact ⟨rfl, rfl, rfl⟩
  · intro hge
    have hnk : b1.bitSet.m_num_bits = k + 1 := by rw [hn]; omega
    refine ⟨hnk, ?_⟩
    unfold dynamic_bitset.num_blocks
    rw [hw.1, hnk]

/-- Witness for C7 (amended): `set(64, 64, true)` on a vector created with 64 bits. -/
theorem setRange_empty_keeps_bits_witness :
    (BitSet.create 64).bitSet.WF ∧ 64 < 2 ^ 32 - 1 ∧
    ∃ b1, (BitSet.create 64).setRange 106900 64 64 true = some b1 ∧
      (∀ i, b1.get i = (BitSet.create 64).get i) ∧
      ((64 < (BitSet.create 64).bitSet.m_num_bits →
        b1 = BitSet.create 64 ∧ b1.size = (BitSet.create 64).size ∧
          b1.numBlocks = (BitSet.create 64).numBlocks)) ∧
      ((BitSet.create 64).bitSet.m_num_bits ≤ 64 → b1.bitSet.m_num_bits = 64 + 1 ∧
        b1.bitSet.num_blocks = calc_num_blocks (64 + 1)) :=
  ⟨by decide, by decide,
    setRange_empty_keeps_bits 106900 (BitSet.create 64) (by decide) true 64 (by decide)⟩

/-- C8: for a well-formed bit set, either variant of the loop and `uint32_t`
indices `from <= to`, the checked `clear(from, to)` completes; afterwards
`get(i)` is false for every `from <= i < to`, `get(j)` is unchanged for every
`j` outside `[from, to)`, and `size()` and `numBlocks()` are unchanged, also
when `from` or `to` lies beyond the bit count. -/
theorem clearRange_clears_range (boostVersion : Nat) (b : BitSet) (hb : b.bitSet.WF)
    (fromIndex toIndex : Nat) (hft : fromIndex ≤ toIndex) (ht : toIndex < 2 ^ 32) :
    ∃ b1, b.clearRange boostVersion fromIndex toIndex = some b1 ∧
      (∀ i, fromIndex ≤ i → i < toIndex → b1.get i = some false) ∧
      (∀ j, j < fromIndex ∨ toIndex ≤ j → b1.get j = b.get j) ∧
      b1.size = b.size ∧ b1.numBlocks = b.numBlocks ∧
      b1.bitSet.m_num_bits = b.bitSet.m_num_bits := by
  obtain ⟨b1, hclr, hw, hn, hlen, hbit⟩ := clearRange_eq_some boostVersion hb hft ht
  refine ⟨b1, hclr, ?_, ?_, ?_, ?_, hn⟩
  · intro i h1 h2
    rw [get_eq hw, hbit]
    simp [h1, h2]
  · intro j hj
    have : ¬ (fromIndex ≤ j ∧ j < toIndex) := by omega
    rw [get_eq hw, get_eq hb, hbit]
    simp [this]
  · rw [size_eq, size_eq, hlen]
  · unfold numBlocks dynamic_bitset.num_blocks
    rw [hlen]

/-- Witness for C8: clearing `[60, 200)` in a 71-bit vector holding `[3, 70)`. -/
theorem clearRange_clears_range_witness :
    (BitSet.mk ⟨[18446744073709551608, 63], 71⟩).bitSet.WF ∧ 60 ≤ 200 ∧ 200 < 2 ^ 32 ∧
    ∃ b1, (BitSet.mk ⟨[18446744073709551608, 63], 71⟩).clearRange 0 60 200 = some b1 ∧
      (∀ i, 60 ≤ i → i < 200 → b1.get i = some false) ∧
      (∀ j, j < 60 ∨ 200 ≤ j →
        b1.get j = (BitSet.mk ⟨[18446744073709551608, 63], 71⟩).get j) ∧
      b1.size = (BitSet.mk ⟨[18446744073709551608, 63], 71⟩).size ∧
      b1.numBlocks = (BitSet.mk ⟨[18446744073709551608, 63], 71⟩).numBlocks ∧
      b1.bitSet.m_num_bits = (BitSet.mk ⟨[18446744073709551608, 63], 71⟩).bitSet.m_num_bits :=
  ⟨by decide, by decide, by decide,
    clearRange_clears_range 0 ⟨⟨[18446744073709551608, 63], 71⟩⟩ (by decide) 60 200
      (by decide) (by decide)⟩

end BitSet

end Lucene

namespace Lucene

namespace BitSet

/-- C9 (counterexample): after `set(2147483648)` on an empty vector the only set
bit is at index `2^31`; `nextSetBit(0)` converts that index to `int32_t` and
returns `-2147483648`, which is neither the index of the set bit nor `-1`.  And
on the 5-bit vector left by `fastSet(10)`, which stores a bit it does not use,
`nextSetBit(0)` returns 10 in both variants although `get(10)` is false. -/
theorem nextSetBit_negative_index :
    (∃ b, (BitSet.create 0).set 2147483648 = some b ∧ b.get 2147483648 = some true ∧
      b.nextSetBit 108800 0 = -2147483648 ∧ b.nextSetBit 0 0 = -2147483648) ∧
    ((BitSet.create 5).fastSet 10 = some ⟨⟨[1024], 5⟩⟩ ∧
      (BitSet.mk ⟨[1024], 5⟩).get 10 = some false ∧
      (BitSet.mk ⟨[1024], 5⟩).nextSetBit 0 0 = 10 ∧
      (BitSet.mk ⟨[1024], 5⟩).nextSetBit 108800 0 = 10) := by
  refine ⟨?_, by decide⟩
  have hc : (BitSet.create 0).bitSet.WF := by decide
  obtain ⟨b, hset, hw, _, hbit⟩ := set_eq_some hc (i := 2147483648) (by decide)
  have hfirst : IsFirstSetFrom b.bitSet.m_bits 0 2147483648 := by
    refine Or.inr ⟨Nat.zero_le _, by rw [hbit]; simp, ?_⟩
    intro j _ hj
    have hne : j ≠ 2147483648 := by omega
    rw [hbit, show (BitSet.create 0).bitSet.m_bits = [] from rfl]
    simp [hne, bitAt]
  have hval : ∀ v, b.nextSetBit v 0 = -2147483648 := by
    intro v
    obtain ⟨r, hr, he⟩ := nextSetBit_eq v hw 0
    rw [he, hr.unique hfirst]
    decide
  refine ⟨b, hset, ?_, hval 108800, hval 0⟩
  rw [get_eq hw, hbit]; simp

/-- C9 (amended): for a bit set that satisfies the invariant of `dynamic_bitset`
(the unused bits of the highest block are zero), either variant of the scan and
every `from`: `nextSetBit(from)` is `-1` when no index `>= from` has `get` true,
and otherwise is the smallest index `k >= from` with `get(k)` true, converted to
`int32_t`: never `-1`, and `k` itself when `k < 2^31`; it is `-1` for `from` at
or beyond the bit count; and when every index with `get` true is below `2^31`,
the result is `-1` or that smallest index, and it is monotone in `from`. -/
theorem nextSetBit_least_or_minus_one (boostVersion : Nat) (b : BitSet) (hb : b.bitSet.WF)
    (fromIndex : Nat) :
    ((b.nextSetBit boostVersion fromIndex = -1 ∧ ∀ i, fromIndex ≤ i → b.get i = some false) ∨
     (∃ k : Nat, b.nextSetBit boostVersion fromIndex = toInt32 k ∧
        b.nextSetBit boostVersion fromIndex ≠ -1 ∧
        (k < 2 ^ 31 → b.nextSetBit boostVersion fromIndex = (k : Int)) ∧ fromIndex ≤ k ∧
        b.get k = some true ∧ ∀ i, fromIndex ≤ i → i < k → b.get i = some false)) ∧
    (b.bitSet.m_num_bits ≤ fromIndex → b.nextSetBit boostVersion fromIndex = -1) ∧
    ((∀ k, b.get k = some true → k < 2 ^ 31) →
      ((b.nextSetBit boostVersion fromIndex = -1 ∧
          ∀ i, fromIndex ≤ i → b.get i = some false) ∨
        (∃ k : Nat, b.nextSetBit boostVersion fromIndex = (k : Int) ∧ fromIndex ≤ k ∧
          b.get k = some true ∧ ∀ i, fromIndex ≤ i → i < k → b.get i = some false)) ∧
      (∀ from2, fromIndex ≤ from2 →
        (b.nextSetBit boostVersion fromIndex = -1 → b.nextSetBit boostVersion from2 = -1) ∧
        (b.nextSetBit boostVersion from2 ≠ -1 →
          b.nextSetBit boostVersion fromIndex ≤ b.nextSetBit boostVersion from2))) := by
  refine ⟨?_, ?_, ?_⟩
  · rcases nextSetBit_cases_int32 boostVersion hb fromIndex with
      ⟨h1, h2⟩ | ⟨k, h1, hne, hk, h2, h3, h4⟩
    · exact Or.inl ⟨h1, fun i hi => by rw [get_eq hb, h2 i hi]⟩
    · exact Or.inr ⟨k, h1, hne, hk, h2, by rw [get_eq hb, h3], fun i hi1 hi2 => by
        rw [get_eq hb, h4 i hi1 hi2]⟩
  · intro hge
    rcases nextSetBit_cases_int32 boostVersion hb fromIndex with
      ⟨h1, _⟩ | ⟨k, _, _, _, h2, h3, _⟩
    · exact h1
    · have := dynamic_bitset.lt_size_of_bitAt hb h3
      omega
  · intro hsmall
    have hcap : ∀ k, bitAt b.bitSet.m_bits k = true → k < 2 ^ 31 :=
      fun k hk => hsmall k (by rw [get_eq hb, hk])
    have key := nextSetBit_cases boostVersion hb hcap
    refine ⟨?_, ?_⟩
    · rcases key fromIndex with ⟨h1, h2⟩ | ⟨k, h1, h2, h3, h4⟩
      · exact Or.inl ⟨h1, fun i hi => by rw [get_eq hb, h2 i hi]⟩
      · exact Or.inr ⟨k, h1, h2, by rw [get_eq hb, h3], fun i hi1 hi2 => by
          rw [get_eq hb, h4 i hi1 hi2]⟩
    · intro from2 hle
      rcases key fromIndex with ⟨h1, h2⟩ | ⟨k, h1, h2, h3, h4⟩
      · rcases key from2 with ⟨g1, _⟩ | ⟨m, g1, g2, g3, _⟩
        · exact ⟨fun _ => g1, fun hne => absurd g1 hne⟩
        · rw [h2 m (by omega)] at g3
          exact absurd g3 Bool.false_ne_true
      · rcases key from2 with ⟨g1, _⟩ | ⟨m, g1, g2, g3, _⟩
        · exact ⟨fun _ => g1, fun hne => absurd g1 hne⟩
        · have hkm : k ≤ m := by
            by_contra hn
            rw [h4 m (by omega) (by omega)] at g3
            exact Bool.false_ne_true g3
          refine ⟨fun h => ?_, fun _ => ?_⟩
          · rw [h1] at h; omega
          · rw [h1, g1]; exact Int.ofNat_le.2 hkm

/-- Witness for C9 (amended): bits {1, 3} in a vector created with 5 bits, where
`nextSetBit` returns 1, 3, -1 for `from` = 0, 2, 4 in both variants. -/
theorem nextSetBit_least_or_minus_one_witness :
    (((BitSet.create 5).set 1).bind (fun b => b.set 3) = some ⟨⟨[10], 5⟩⟩ ∧
      (BitSet.mk ⟨[10], 5⟩).nextSetBit 0 0 = 1 ∧ (BitSet.mk ⟨[10], 5⟩).nextSetBit 0 2 = 3 ∧
      (BitSet.mk ⟨[10], 5⟩).nextSetBit 0 4 = -1 ∧
      (BitSet.mk ⟨[10], 5⟩).nextSetBit 108800 0 = 1 ∧
      (BitSet.mk ⟨[10], 5⟩).nextSetBit 108800 2 = 3 ∧
      (BitSet.mk ⟨[10], 5⟩).nextSetBit 108800 4 = -1) ∧
    (BitSet.mk ⟨[10], 5⟩).bitSet.WF ∧
    (((BitSet.mk ⟨[10], 5⟩).nextSetBit 0 2 = -1 ∧
        ∀ i, 2 ≤ i → (BitSet.mk ⟨[10], 5⟩).get i = some false) ∨
      (∃ k : Nat, (BitSet.mk ⟨[10], 5⟩).nextSetBit 0 2 = toInt32 k ∧
        (BitSet.mk ⟨[10], 5⟩).nextSetBit 0 2 ≠ -1 ∧
        (k < 2 ^ 31 → (BitSet.mk ⟨[10], 5⟩).nextSetBit 0 2 = (k : Int)) ∧ 2 ≤ k ∧
        (BitSet.mk ⟨[10], 5⟩).get k = some true ∧
        ∀ i, 2 ≤ i → i < k → (BitSet.mk ⟨[10], 5⟩).get i = some false)) :=
  ⟨by decide, by decide, (nextSetBit_least_or_minus_one 0 ⟨⟨[10], 5⟩⟩ (by decide) 2).1⟩

/-- C10 (counterexample): a vector created with 4294967295 bits has `2^26`
blocks and `size()` 0 (the product `2^32` reduced to `uint32_t`); after `or`, and
after `xor`, with a vector created with 1 bit, whose `size()` is 64, the
receiver still has `size()` 0, not the maximum 64 of the two sizes.  And on the
5-bit vector left by `fastSet(10)`, which stores a bit it does not use, `or` and
`xor` with a fresh 64-bit vector grow the receiver to 64 bits, where `get(10)` is
true although it was false on both operands. -/
theorem or_size_not_max_when_wrapped :
    ((BitSet.create 4294967295).size = 0 ∧ (BitSet.create 1).size = 64 ∧
      (∃ a1, (BitSet.create 4294967295)._or (BitSet.create 1) = some a1 ∧ a1.size = 0 ∧
        a1.size ≠ max (BitSet.create 4294967295).size (BitSet.create 1).size) ∧
      (∃ a1, (BitSet.create 4294967295)._xor (BitSet.create 1) = some a1 ∧ a1.size = 0 ∧
        a1.size ≠ max (BitSet.create 4294967295).size (BitSet.create 1).size)) ∧
    ((BitSet.create 5).fastSet 10 = some ⟨⟨[1024], 5⟩⟩ ∧
      (BitSet.mk ⟨[1024], 5⟩).get 10 = some false ∧ (BitSet.create 64).get 10 = some false ∧
      (BitSet.mk ⟨[1024], 5⟩)._or (BitSet.create 64) = some ⟨⟨[1024], 64⟩⟩ ∧
      (BitSet.mk ⟨[1024], 5⟩)._xor (BitSet.create 64) = some ⟨⟨[1024], 64⟩⟩ ∧
      (BitSet.mk ⟨[1024], 64⟩).get 10 = some true) := by
  refine ⟨?_, by decide⟩
  have ha : (BitSet.create 4294967295).bitSet.WF :=
    dynamic_bitset.WF_create (n := 4294967295) (by decide)
  have hb : (BitSet.create 1).bitSet.WF := by decide
  have hsa : (BitSet.create 4294967295).size = 0 := by
    rw [size_eq, ha.1]; decide
  have hsb : (BitSet.create 1).size = 64 := by decide
  have hsz : ∀ a1 : BitSet, a1.bitSet.WF →
      a1.bitSet.m_num_bits = max (BitSet.create 4294967295).bitSet.m_num_bits
        (BitSet.create 1).bitSet.m_num_bits → a1.size = 0 := by
    intro a1 hw hn
    have hnum : a1.bitSet.m_num_bits = 4294967295 := by
      rw [hn]; show max 4294967295 1 = 4294967295; decide
    rw [size_eq, hw.1, hnum]; decide
  refine ⟨hsa, hsb, ?_, ?_⟩
  · obtain ⟨a1, hor, hw, hn, _⟩ := or_eq_some ha hb
    have h0 := hsz a1 hw hn
    exact ⟨a1, hor, h0, by rw [h0, hsa, hsb]; decide⟩
  · obtain ⟨a1, hxor, hw, hn, _⟩ := xor_eq_some ha hb
    have h0 := hsz a1 hw hn
    exact ⟨a1, hxor, h0, by rw [h0, hsa, hsb]; decide⟩

/-- C10 (amended): for bit sets `a` and `b` that satisfy the invariant of
`dynamic_bitset` (the unused bits of the highest block are zero), `a.or(b)` and
`a.xor(b)` complete (the operand is only read); afterwards `get` on the receiver
is the OR, respectively XOR, of the old bit of `a` and the bit of `b` at every
index, so no set bit of `a` is lost by `or`; the bit count and `numBlocks()` of
the receiver are the maxima of those of `a` and `b`; and `size()` is the maximum
of the two sizes when both vectors have fewer than `2^26` blocks. -/
theorem or_xor_bits_and_size (a b : BitSet) (ha : a.bitSet.WF) (hb : b.bitSet.WF) :
    (∃ a1, a._or b = some a1 ∧
      (∀ i, a1.get i = (a.get i).bind fun x => (b.get i).map fun y => (x || y)) ∧
      (∀ i, a.get i = some true → a1.get i = some true) ∧
      a1.bitSet.m_num_bits = max a.bitSet.m_num_bits b.bitSet.m_num_bits ∧
      a1.numBlocks = max a.numBlocks b.numBlocks ∧
      (a.bitSet.num_blocks < 2 ^ 26 → b.bitSet.num_blocks < 2 ^ 26 →
        a1.size = max a.size b.size)) ∧
    (∃ a1, a._xor b = some a1 ∧
      (∀ i, a1.get i = (a.get i).bind fun x => (b.get i).map fun y => Bool.xor x y) ∧
      a1.bitSet.m_num_bits = max a.bitSet.m_num_bits b.bitSet.m_num_bits ∧
      a1.numBlocks = max a.numBlocks b.numBlocks ∧
      (a.bitSet.num_blocks < 2 ^ 26 → b.bitSet.num_blocks < 2 ^ 26 →
        a1.size = max a.size b.size)) := by
  have hlen : ∀ a1 : BitSet, a1.bitSet.WF →
      a1.bitSet.m_num_bits = max a.bitSet.m_num_bits b.bitSet.m_num_bits →
      a1.bitSet.m_bits.length = max a.bitSet.m_bits.length b.bitSet.m_bits.length := by
    intro a1 hw hn
    rw [hw.1, ha.1, hb.1, hn]
    rcases Nat.le_total a.bitSet.m_num_bits b.bitSet.m_num_bits with h | h
    · rw [Nat.max_eq_right h, Nat.max_eq_right (calc_num_blocks_mono h)]
    · rw [Nat.max_eq_left h, Nat.max_eq_left (calc_num_blocks_mono h)]
  have hblocks : ∀ d : dynamic_bitset, d.WF → toUInt32 d.m_bits.length = d.m_bits.length := by
    intro d hd
    apply toUInt32_of_lt
    have := calc_num_blocks_lt d.m_num_bits
    have := hd.2.2.2
    rw [hd.1]; omega
  have hnb : ∀ a1 : BitSet, a1.bitSet.WF →
      a1.bitSet.m_num_bits = max a.bitSet.m_num_bits b.bitSet.m_num_bits →
      a1.numBlocks = max a.numBlocks b.numBlocks := by
    intro a1 hw hn
    unfold numBlocks dynamic_bitset.num_blocks
    rw [hblocks _ hw, hblocks _ ha, hblocks _ hb, hlen a1 hw hn]
  have hsize : ∀ a1 : BitSet, a1.bitSet.WF →
      a1.bitSet.m_num_bits = max a.bitSet.m_num_bits b.bitSet.m_num_bits →
      a.bitSet.num_blocks < 2 ^ 26 → b.bitSet.num_blocks < 2 ^ 26 →
      a1.size = max a.size b.size := by
    intro a1 hw hn h1 h2
    have hl := hlen a1 hw hn
    unfold dynamic_bitset.num_blocks at h1 h2
    rw [size_eq_of_lt h1, size_eq_of_lt h2, size_eq_of_lt (by rw [hl]; omega), hl]
    omega
  refine ⟨?_, ?_⟩
  · obtain ⟨a1, hor, hw, hn, hbit⟩ := or_eq_some ha hb
    refine ⟨a1, hor, ?_, ?_, hn, hnb a1 hw hn, hsize a1 hw hn⟩
    · intro i
      rw [get_eq hw, get_eq ha, get_eq hb, hbit]; rfl
    · intro i hi
      rw [get_eq ha] at hi
      rw [get_eq hw, hbit, Option.some.inj hi]; rfl
  · obtain ⟨a1, hxor, hw, hn, hbit⟩ := xor_eq_some ha hb
    refine ⟨a1, hxor, ?_, hn, hnb a1 hw hn, hsize a1 hw hn⟩
    intro i
    rw [get_eq hw, get_eq ha, get_eq hb, hbit]; rfl

/-- Witness for C10 (amended): the 5-bit vector holding {1, 3} and a 100-bit
vector holding {0, 1, 64}. -/
theorem or_xor_bits_and_size_witness :
    (BitSet.mk ⟨[10], 5⟩).bitSet.WF ∧ (BitSet.mk ⟨[3, 1], 100⟩).bitSet.WF ∧
    (BitSet.mk ⟨[10], 5⟩)._or (BitSet.mk ⟨[3, 1], 100⟩) = some ⟨⟨[11, 1], 100⟩⟩ ∧
    (BitSet.mk ⟨[10], 5⟩)._xor (BitSet.mk ⟨[3, 1], 100⟩) = some ⟨⟨[9, 1], 100⟩⟩ ∧
    ∃ a1, (BitSet.mk ⟨[10], 5⟩)._or (BitSet.mk ⟨[3, 1], 100⟩) = some a1 ∧
      (∀ i, a1.get i = ((BitSet.mk ⟨[10], 5⟩).get i).bind fun x =>
        ((BitSet.mk ⟨[3, 1], 100⟩).get i).map fun y => (x || y)) ∧
      (∀ i, (BitSet.mk ⟨[10], 5⟩).get i = some true → a1.get i = some true) ∧
      a1.bitSet.m_num_bits = max (BitSet.mk ⟨[10], 5⟩).bitSet.m_num_bits
        (BitSet.mk ⟨[3, 1], 100⟩).bitSet.m_num_bits ∧
      a1.numBlocks = max (BitSet.mk ⟨[10], 5⟩).numBlocks (BitSet.mk ⟨[3, 1], 100⟩).numBlocks ∧
      ((BitSet.mk ⟨[10], 5⟩).bitSet.num_blocks < 2 ^ 26 →
        (BitSet.mk ⟨[3, 1], 100⟩).bitSet.num_blocks < 2 ^ 26 →
        a1.size = max (BitSet.mk ⟨[10], 5⟩).size (BitSet.mk ⟨[3, 1], 100⟩).size) :=
  ⟨by decide, by decide, by decide, by decide,
    (or_xor_bits_and_size ⟨⟨[10], 5⟩⟩ ⟨⟨[3, 1], 100⟩⟩ (by decide) (by decide)).1⟩

end BitSet

end Lucene

namespace Lucene

namespace dynamic_bitset

/-! ## Toggling bits -/

theorem flip_eq_none {d : dynamic_bitset} {i : Nat} (h : d.m_bits.length ≤ i / 64) :
    d.flip i = none := by
  unfold flip block_index bits_per_block
  rw [List.getElem?_eq_none h]

theorem flip_isSome {d : dynamic_bitset} {i : Nat} (h : i / 64 < d.m_bits.length) :
    ∃ d1, d.flip i = some d1 := by
  unfold flip block_index bits_per_block
  rw [List.getElem?_eq_getElem h]
  exact ⟨_, rfl⟩

theorem of_flip_eq_some {d d1 : dynamic_bitset} {i : Nat} (h : d.flip i = some d1) :
    i / 64 < d.m_bits.length ∧ d1.m_num_bits = d.m_num_bits ∧
    d1.m_bits.length = d.m_bits.length ∧
    (∀ j, bitAt d1.m_bits j = if j = i then !bitAt d.m_bits j else bitAt d.m_bits j) ∧
    ((∀ x ∈ d.m_bits, x < 2 ^ 64) → ∀ x ∈ d1.m_bits, x < 2 ^ 64) := by
  have hlt : i / 64 < d.m_bits.length := by
    by_contra hn
    rw [flip_eq_none (Nat.le_of_not_lt hn)] at h
    exact Option.noConfusion h
  refine ⟨hlt, ?_⟩
  unfold flip block_index bits_per_block at h
  rw [List.getElem?_eq_getElem hlt] at h
  simp only [bit_mask, bit_index, bits_per_block, Option.some.injEq] at h
  subst h
  refine ⟨rfl, by simp, ?_, ?_⟩
  · intro j
    rw [bitAt_set_block _ _ _ hlt]
    by_cases hb : j / 64 = i / 64
    · rw [if_pos hb]
      simp only [Nat.testBit_xor, Nat.testBit_two_pow]
      by_cases hj : j = i
      · subst hj
        simp only [if_true, decide_True, Bool.xor_true]
        unfold bitAt
        rw [List.getD_eq_getElem _ _ hlt]
      · have hm : i % 64 ≠ j % 64 := by omega
        simp only [hj, if_false, hm, decide_False, Bool.xor_false]
        unfold bitAt
        rw [hb, List.getD_eq_getElem _ _ hlt]
    · have hj : j ≠ i := by intro e; exact hb (by rw [e])
      rw [if_neg hb, if_neg hj]
  · intro hx x hmem
    rcases List.mem_or_eq_of_mem_set hmem with hm | hm
    · exact hx x hm
    · rw [hm]
      apply Nat.xor_lt_two_pow (hx _ (List.getElem_mem _))
      exact Nat.pow_lt_pow_right (by decide) (Nat.mod_lt _ (by decide))

theorem WF_flip {d d1 : dynamic_bitset} {i : Nat} (hd : d.WF) (hi : i < d.m_num_bits)
    (h : d.flip i = some d1) : d1.WF := by
  obtain ⟨_, hn, hlen, hbit, hblk⟩ := of_flip_eq_some h
  apply WF_of_bits
  · rw [hlen, hn]; exact hd.1
  · exact hblk hd.2.1
  · intro j hj
    rw [hn] at hj
    have hji : j ≠ i := by omega
    rw [hbit j, if_neg hji]
    exact bitAt_of_ge hd hj
  · rw [hn]; exact hd.2.2.2

theorem of_flip_loop_eq_some : ∀ (len pos : Nat) (d d1 : dynamic_bitset),
    flip_loop d pos len = some d1 →
    d1.m_num_bits = d.m_num_bits ∧ d1.m_bits.length = d.m_bits.length ∧
    (len = 0 ∨ (pos + len - 1) / 64 < d.m_bits.length) ∧
    (∀ j, bitAt d1.m_bits j =
      if pos ≤ j ∧ j < pos + len then !bitAt d.m_bits j else bitAt d.m_bits j) ∧
    ((∀ x ∈ d.m_bits, x < 2 ^ 64) → ∀ x ∈ d1.m_bits, x < 2 ^ 64) := by
  intro len
  induction len with
  | zero =>
    intro pos d d1 h
    simp only [flip_loop, Option.some.injEq] at h
    subst h
    refine ⟨rfl, rfl, Or.inl rfl, ?_, fun hx => hx⟩
    intro j
    have : ¬ (pos ≤ j ∧ j < pos + 0) := by omega
    rw [if_neg this]
  | succ len ih =>
    intro pos d d1 h
    simp only [flip_loop] at h
    cases hs : d.flip pos with
    | none => rw [hs] at h; exact Option.noConfusion h
    | some d2 =>
      rw [hs] at h
      obtain ⟨hin2, hn2, hl2, hb2, hx2⟩ := of_flip_eq_some hs
      obtain ⟨hn1, hl1, hin1, hb1, hx1⟩ := ih (pos + 1) d2 d1 h
      refine ⟨by rw [hn1, hn2], by rw [hl1, hl2], Or.inr ?_, ?_, fun hx => hx1 (hx2 hx)⟩
      · rcases hin1 with h0 | h1
        · subst h0; simpa using hin2
        · rw [hl2] at h1
          rw [show pos + (len + 1) - 1 = pos + 1 + len - 1 by omega]; exact h1
      · intro j
        rw [hb1 j, hb2 j]
        by_cases hj : j = pos
        · subst hj
          have h1 : ¬ (j + 1 ≤ j ∧ j < j + 1 + len) := by omega
          have h2 : j ≤ j ∧ j < j + (len + 1) := by omega
          rw [if_neg h1, if_pos h2, if_pos rfl]
        · by_cases hr : pos + 1 ≤ j ∧ j < pos + 1 + len
          · have h2 : pos ≤ j ∧ j < pos + (len + 1) := by omega
            rw [if_pos hr, if_pos h2, if_neg hj]
          · have h2 : ¬ (pos ≤ j ∧ j < pos + (len + 1)) := by omega
            rw [if_neg hr, if_neg h2, if_neg hj]

theorem flip_loop_isSome : ∀ (len pos : Nat) (d : dynamic_bitset),
    pos + len ≤ 64 * d.m_bits.length → ∃ d1, flip_loop d pos len = some d1 := by
  intro len
  induction len with
  | zero => intro pos d _; exact ⟨d, rfl⟩
  | succ len ih =>
    intro pos d h
    have hlt : pos / 64 < d.m_bits.length := by omega
    obtain ⟨d2, hd2⟩ := flip_isSome hlt
    obtain ⟨_, _, hl2, _, _⟩ := of_flip_eq_some hd2
    obtain ⟨d1, hd1⟩ := ih (pos + 1) d2 (by rw [hl2]; omega)
    refine ⟨d1, ?_⟩
    simp only [flip_loop, hd2]
    exact hd1

theorem WF_flip_loop {d d1 : dynamic_bitset} {pos len : Nat} (hd : d.WF)
    (hr : pos + len ≤ d.m_num_bits) (h : flip_loop d pos len = some d1) : d1.WF := by
  obtain ⟨hn, hlen, _, hbit, hblk⟩ := of_flip_loop_eq_some len pos d d1 h
  apply WF_of_bits
  · rw [hlen, hn]; exact hd.1
  · exact hblk hd.2.1
  · intro j hj
    rw [hn] at hj
    have hin : ¬ (pos ≤ j ∧ j < pos + len) := by omega
    rw [hbit j, if_neg hin]
    exact bitAt_of_ge hd hj
  · rw [hn]; exact hd.2.2.2

/-! ## Complement and intersection -/

theorem bitAt_map_complement (l : List Nat) (j : Nat) :
    bitAt (l.map (fun blk => all_ones ^^^ blk)) j =
      (decide (j / 64 < l.length) && !bitAt l j) := by
  unfold bitAt
  simp only [List.getD_eq_getElem?_getD, List.getElem?_map]
  by_cases h : j / 64 < l.length
  · rw [List.getElem?_eq_getElem h]
    have hm : j % 64 < 64 := Nat.mod_lt _ (by decide)
    simp [h, testBit_all_ones, hm]
  · rw [List.getElem?_eq_none (Nat.le_of_not_lt h)]
    simp [h]

theorem flip_all_num_bits (d : dynamic_bitset) : d.flip_all.m_num_bits = d.m_num_bits := by
  unfold flip_all
  rw [m_zero_unused_bits_num_bits]

theorem flip_all_length (d : dynamic_bitset) : d.flip_all.m_bits.length = d.m_bits.length := by
  unfold flip_all
  rw [m_zero_unused_bits_length]
  simp

theorem bitAt_flip_all {d : dynamic_bitset} (hd : d.WF) (j : Nat) :
    bitAt d.flip_all.m_bits j = (decide (j < d.m_num_bits) && !bitAt d.m_bits j) := by
  unfold flip_all
  rw [bitAt_m_zero_unused_bits _ (by simp [hd.1]), bitAt_map_complement]
  by_cases hj : j < d.m_num_bits
  · have : j / 64 < d.m_bits.length := by rw [hd.1]; exact block_index_lt_calc hj
    simp [hj, this]
  · simp [hj]

theorem WF_flip_all {d : dynamic_bitset} (hd : d.WF) : d.flip_all.WF := by
  apply WF_of_bits
  · rw [flip_all_length, flip_all_num_bits]; exact hd.1
  · unfold flip_all
    apply m_zero_unused_bits_blocks
    intro x hx
    obtain ⟨y, hy, rfl⟩ := List.mem_map.1 hx
    exact Nat.xor_lt_two_pow (by decide) (hd.2.1 y hy)
  · intro j hj
    rw [flip_all_num_bits] at hj
    rw [bitAt_flip_all hd]
    simp [Nat.not_lt.2 hj]
  · rw [flip_all_num_bits]; exact hd.2.2.2

end dynamic_bitset

namespace BitSet

theorem and_eq_some {a b : BitSet} (ha : a.bitSet.WF) (hb : b.bitSet.WF) :
    ∃ a1, a._and b = some a1 ∧ a1.bitSet.WF ∧
      a1.bitSet.m_num_bits = a.bitSet.m_num_bits ∧
      a1.bitSet.m_bits.length = a.bitSet.m_bits.length ∧
      ∀ j, bitAt a1.bitSet.m_bits j = (bitAt a.bitSet.m_bits j && bitAt b.bitSet.m_bits j) := by
  unfold BitSet._and dynamic_bitset.size dynamic_bitset.and_assign
  have hw := dynamic_bitset.WF_resize hb.2.1 ha.2.2.2 (d := b.bitSet)
  have hn : a.bitSet.m_num_bits = (b.bitSet.resize a.bitSet.m_num_bits).m_num_bits :=
    (dynamic_bitset.resize_num_bits _ _).symm
  obtain ⟨hwf, hbits⟩ := dynamic_bitset.zipWith_assign (· &&& ·) (· && ·)
    Nat.testBit_and rfl (fun x y hx _ => Nat.lt_of_le_of_lt Nat.and_le_left hx) ha hw hn
  have hl : ¬ (b.bitSet.resize a.bitSet.m_num_bits).m_bits.length < a.bitSet.m_bits.length := by
    rw [dynamic_bitset.resize_length, ha.1]; omega
  simp only [hl, if_false]
  refine ⟨_, rfl, hwf, rfl, ?_, ?_⟩
  · show (List.zipWith _ _ _).length = _
    rw [List.length_zipWith, dynamic_bitset.resize_length, ha.1, Nat.min_self]
  · intro j
    show bitAt (List.zipWith _ _ _) j = _
    rw [hbits j, dynamic_bitset.bitAt_resize]
    by_cases hj : j < a.bitSet.m_num_bits
    · simp [hj]
    · simp [hj, dynamic_bitset.bitAt_of_ge ha (Nat.le_of_not_lt hj)]

theorem andNot_eq_some {a b : BitSet} (ha : a.bitSet.WF) (hb : b.bitSet.WF) :
    ∃ a1, a.andNot b = some a1 ∧ a1.bitSet.WF ∧
      a1.bitSet.m_num_bits = a.bitSet.m_num_bits ∧
      a1.bitSet.m_bits.length = a.bitSet.m_bits.length ∧
      ∀ j, bitAt a1.bitSet.m_bits j = (bitAt a.bitSet.m_bits j && !bitAt b.bitSet.m_bits j) := by
  unfold BitSet.andNot dynamic_bitset.size dynamic_bitset.and_assign
  have hw0 := dynamic_bitset.WF_resize hb.2.1 ha.2.2.2 (d := b.bitSet)
  have hw := dynamic_bitset.WF_flip_all hw0
  have hn : a.bitSet.m_num_bits = (b.bitSet.resize a.bitSet.m_num_bits).flip_all.m_num_bits := by
    rw [dynamic_bitset.flip_all_num_bits, dynamic_bitset.resize_num_bits]
  obtain ⟨hwf, hbits⟩ := dynamic_bitset.zipWith_assign (· &&& ·) (· && ·)
    Nat.testBit_and rfl (fun x y hx _ => Nat.lt_of_le_of_lt Nat.and_le_left hx) ha hw hn
  have hlen : (b.bitSet.resize a.bitSet.m_num_bits).flip_all.m_bits.length
      = a.bitSet.m_bits.length := by
    rw [dynamic_bitset.flip_all_length, dynamic_bitset.resize_length, ha.1]
  have hl : ¬ (b.bitSet.resize a.bitSet.m_num_bits).flip_all.m_bits.length
      < a.bitSet.m_bits.length := by omega
  simp only [hl, if_false]
  refine ⟨_, rfl, hwf, rfl, ?_, ?_⟩
  · show (List.zipWith _ _ _).length = _
    rw [List.length_zipWith, hlen, Nat.min_self]
  · intro j
    show bitAt (List.zipWith _ _ _) j = _
    rw [hbits j, dynamic_bitset.bitAt_flip_all hw0, dynamic_bitset.resize_num_bits,
      dynamic_bitset.bitAt_resize]
    by_cases hj : j < a.bitSet.m_num_bits
    · simp [hj]
    · simp [hj, dynamic_bitset.bitAt_of_ge ha (Nat.le_of_not_lt hj)]

end BitSet

end Lucene

namespace Lucene

/-! ## Counting set bits -/

theorem popcount_aux_eq_sum : ∀ (fuel x : Nat),
    popcount_aux fuel x = ∑ i in Finset.range fuel, (if x.testBit i = true then 1 else 0) := by
  intro fuel
  induction fuel with
  | zero => intro x; simp [popcount_aux]
  | succ fuel ih =>
    intro x
    rw [popcount_aux, ih, Finset.sum_range_succ']
    have h0 : (if x.testBit 0 = true then 1 else 0) = x % 2 := by
      rw [Nat.testBit_zero]
      rcases Nat.mod_two_eq_zero_or_one x with h | h <;> simp [h]
    rw [h0, Nat.add_comm]
    congr 1
    apply Finset.sum_congr rfl
    intro i _
    rw [Nat.testBit_succ]

theorem bitAt_cons_lt (b : Nat) (bs : List Nat) {j : Nat} (h : j < 64) :
    bitAt (b :: bs) j = b.testBit j := by
  unfold bitAt
  rw [Nat.div_eq_of_lt h, Nat.mod_eq_of_lt h]
  rfl

theorem bitAt_cons_add (b : Nat) (bs : List Nat) (j : Nat) :
    bitAt (b :: bs) (64 + j) = bitAt bs j := by
  unfold bitAt
  rw [show (64 + j) / 64 = j / 64 + 1 by omega, show (64 + j) % 64 = j % 64 by omega]
  rfl

theorem sum_popcount_eq_sum : ∀ (l : List Nat),
    (l.map popcount).sum =
      ∑ j in Finset.range (64 * l.length), (if bitAt l j = true then 1 else 0) := by
  intro l
  induction l with
  | nil => simp
  | cons b bs ih =>
    have h1 : popcount b =
        ∑ j in Finset.range 64, (if bitAt (b :: bs) j = true then 1 else 0) := by
      unfold popcount
      rw [popcount_aux_eq_sum]
      apply Finset.sum_congr rfl
      intro j hj
      rw [bitAt_cons_lt b bs (Finset.mem_range.1 hj)]
    have h2 : ∑ j in Finset.range (64 * bs.length), (if bitAt bs j = true then 1 else 0) =
        ∑ j in Finset.range (64 * bs.length),
          (if bitAt (b :: bs) (64 + j) = true then 1 else 0) := by
      apply Finset.sum_congr rfl
      intro j _
      rw [bitAt_cons_add]
    rw [List.map_cons, List.sum_cons, List.length_cons,
      show 64 * (bs.length + 1) = 64 + 64 * bs.length by omega, Finset.sum_range_add, ih, h1, h2]

namespace dynamic_bitset

theorem count_eq_card (d : dynamic_bitset) :
    d.count = ((Finset.range (64 * d.m_bits.length)).filter
      (fun j => bitAt d.m_bits j = true)).card := by
  unfold count
  rw [sum_popcount_eq_sum, Finset.card_filter]

theorem count_eq_card_of_WF {d : dynamic_bitset} (hd : d.WF) :
    d.count = ((Finset.range d.m_num_bits).filter (fun j => bitAt d.m_bits j = true)).card := by
  have hset : (Finset.range (64 * d.m_bits.length)).filter (fun j => bitAt d.m_bits j = true) =
      (Finset.range d.m_num_bits).filter (fun j => bitAt d.m_bits j = true) := by
    apply Finset.ext
    intro j
    simp only [Finset.mem_filter, Finset.mem_range]
    have hcap := calc_num_blocks_le d.m_num_bits
    rw [← hd.1] at hcap
    constructor
    · rintro ⟨_, h⟩; exact ⟨lt_size_of_bitAt hd h, h⟩
    · rintro ⟨h1, h⟩; exact ⟨by omega, h⟩
  rw [count_eq_card, hset]

theorem count_le_num_bits {d : dynamic_bitset} (hd : d.WF) : d.count ≤ d.m_num_bits := by
  rw [count_eq_card_of_WF hd]
  calc ((Finset.range d.m_num_bits).filter (fun j => bitAt d.m_bits j = true)).card
      ≤ (Finset.range d.m_num_bits).card := Finset.card_filter_le _ _
    _ = d.m_num_bits := Finset.card_range _

theorem any_iff {d : dynamic_bitset} (hblk : ∀ x ∈ d.m_bits, x < 2 ^ 64) :
    d.any = true ↔ ∃ j, bitAt d.m_bits j = true := by
  unfold any
  rw [List.any_eq_true]
  constructor
  · rintro ⟨x, hx, hne⟩
    have hx0 : x ≠ 0 := by simpa using hne
    obtain ⟨k, hk, rfl⟩ := List.getElem_of_mem hx
    obtain ⟨i, hi⟩ := Nat.ne_zero_implies_bit_true hx0
    have hi64 : i < 64 := by
      by_contra hn
      have : d.m_bits[k].testBit i = false :=
        Nat.testBit_lt_two_pow (Nat.lt_of_lt_of_le (hblk _ hx)
          (Nat.pow_le_pow_right (by decide) (Nat.le_of_not_lt hn)))
      rw [this] at hi; exact Bool.false_ne_true hi
    refine ⟨k * 64 + i, ?_⟩
    unfold bitAt
    rw [show (k * 64 + i) / 64 = k by omega, show (k * 64 + i) % 64 = i by omega,
      List.getD_eq_getElem _ _ hk]
    exact hi
  · rintro ⟨j, hj⟩
    have hlt : j / 64 < d.m_bits.length := by
      by_contra hn
      rw [bitAt_of_block_ge (Nat.le_of_not_lt hn)] at hj
      exact Bool.false_ne_true hj
    refine ⟨d.m_bits[j / 64], List.getElem_mem _, ?_⟩
    unfold bitAt at hj
    rw [List.getD_eq_getElem _ _ hlt] at hj
    have : d.m_bits[j / 64] ≠ 0 := by
      intro h0; rw [h0] at hj; simp at hj
    simpa using this

theorem no_bits_iff {d : dynamic_bitset} (hblk : ∀ x ∈ d.m_bits, x < 2 ^ 64) :
    d.no_bits = true ↔ ∀ j, bitAt d.m_bits j = false := by
  unfold no_bits
  rw [Bool.not_eq_true', ← Bool.not_eq_true, any_iff hblk]
  constructor
  · intro h j
    by_contra hn
    exact h ⟨j, by simpa using hn⟩
  · rintro h ⟨j, hj⟩
    rw [h j] at hj
    exact Bool.false_ne_true hj

end dynamic_bitset

namespace BitSet

theorem get_true_iff {b : BitSet} (hb : b.bitSet.WF) (i : Nat) :
    b.get i = some true ↔ bitAt b.bitSet.m_bits i = true := by
  rw [get_eq hb]
  exact ⟨fun h => Option.some.inj h, fun h => congrArg some h⟩

theorem cardinality_eq_card {b : BitSet} (hb : b.bitSet.WF) :
    b.cardinality = ((Finset.range (2 ^ 32)).filter (fun i => b.get i = some true)).card := by
  unfold cardinality
  have hset : (Finset.range b.bitSet.m_num_bits).filter
        (fun j => bitAt b.bitSet.m_bits j = true) =
      (Finset.range (2 ^ 32)).filter (fun i => b.get i = some true) := by
    apply Finset.ext
    intro j
    simp only [Finset.mem_filter, Finset.mem_range, get_true_iff hb]
    have hn := hb.2.2.2
    constructor
    · rintro ⟨h1, h⟩; exact ⟨by omega, h⟩
    · rintro ⟨_, h⟩; exact ⟨dynamic_bitset.lt_size_of_bitAt hb h, h⟩
  rw [toUInt32_of_lt (Nat.lt_of_le_of_lt (dynamic_bitset.count_le_num_bits hb) hb.2.2.2),
    dynamic_bitset.count_eq_card_of_WF hb, hset]

theorem isEmpty_iff {b : BitSet} (hb : b.bitSet.WF) :
    b.isEmpty = true ↔ ∀ i, b.get i = some false := by
  unfold isEmpty
  rw [dynamic_bitset.no_bits_iff hb.2.1]
  constructor
  · intro h i; rw [get_eq hb, h i]
  · intro h j
    have := h j
    rw [get_eq hb] at this
    exact Option.some.inj this

end BitSet

end Lucene

namespace Lucene

namespace dynamic_bitset

theorem set_loop_in_storage (v : Bool) : ∀ (len pos : Nat) (d d1 : dynamic_bitset),
    set_loop d v pos len = some d1 → len = 0 ∨ (pos + len - 1) / 64 < d.m_bits.length := by
  intro len
  induction len with
  | zero => intro pos d d1 _; exact Or.inl rfl
  | succ len ih =>
    intro pos d d1 h
    simp only [set_loop] at h
    cases hs : d.set pos v with
    | none => rw [hs] at h; exact Option.noConfusion h
    | some d2 =>
      rw [hs] at h
      obtain ⟨hin2, _, hl2, _, _⟩ := of_set_eq_some hs
      right
      rcases ih (pos + 1) d2 d1 h with h0 | h1
      · subst h0; simpa using hin2
      · rw [hl2] at h1
        rw [show pos + (len + 1) - 1 = pos + 1 + len - 1 by omega]; exact h1

end dynamic_bitset

namespace BitSet

/-! ## The checked operations preserve the invariant -/

theorem grow_for {b : BitSet} (hb : b.bitSet.WF) {i : Nat} (hi : i < 2 ^ 32) :
    (if i ≥ b.bitSet.size then b.resize (toUInt32 (i + 1)) else b).bitSet.WF ∧
    (i < (if i ≥ b.bitSet.size then b.resize (toUInt32 (i + 1)) else b).bitSet.m_num_bits ∨
      (if i ≥ b.bitSet.size then b.resize (toUInt32 (i + 1)) else b).bitSet.m_bits.length = 0) := by
  unfold dynamic_bitset.size resize
  by_cases hge : i ≥ b.bitSet.m_num_bits
  · simp only [hge, if_true]
    have h32 : toUInt32 (i + 1) < 2 ^ 32 := Nat.mod_lt _ (by decide)
    refine ⟨dynamic_bitset.WF_resize hb.2.1 h32, ?_⟩
    rw [dynamic_bitset.resize_length, dynamic_bitset.resize_num_bits]
    by_cases hmax : i + 1 < 2 ^ 32
    · rw [toUInt32_of_lt hmax]; left; omega
    · have hi2 : i + 1 = 2 ^ 32 := by omega
      have h0 : toUInt32 (i + 1) = 0 := by rw [hi2]; decide
      rw [h0]
      right; decide
  · simp only [hge, if_false]
    exact ⟨hb, Or.inl (Nat.lt_of_not_le hge)⟩

theorem WF_of_set {b b1 : BitSet} (hb : b.bitSet.WF) {i : Nat} (hi : i < 2 ^ 32)
    (h : b.set i = some b1) : b1.bitSet.WF := by
  obtain ⟨hw, hlt⟩ := grow_for hb hi
  unfold set at h
  simp only [] at h
  cases hs : (if i ≥ b.bitSet.size then b.resize (toUInt32 (i + 1)) else b).bitSet.set i true with
  | none => rw [hs] at h; exact Option.noConfusion h
  | some d1 =>
    rw [hs] at h
    simp only [Option.map_some', Option.some.injEq] at h
    subst h
    have hin := (dynamic_bitset.of_set_eq_some hs).1
    exact dynamic_bitset.WF_set hw (Or.inl (by omega)) hs

theorem WF_of_setValue {b b1 : BitSet} (hb : b.bitSet.WF) {i : Nat} {v : Bool} (hi : i < 2 ^ 32)
    (h : b.setValue i v = some b1) : b1.bitSet.WF := by
  obtain ⟨hw, hlt⟩ := grow_for hb hi
  unfold setValue at h
  simp only [] at h
  cases hs : (if i ≥ b.bitSet.size then b.resize (toUInt32 (i + 1)) else b).bitSet.set i v with
  | none => rw [hs] at h; exact Option.noConfusion h
  | some d1 =>
    rw [hs] at h
    simp only [Option.map_some', Option.some.injEq] at h
    subst h
    have hin := (dynamic_bitset.of_set_eq_some hs).1
    exact dynamic_bitset.WF_set hw (Or.inl (by omega)) hs

theorem WF_of_flip {b b1 : BitSet} (hb : b.bitSet.WF) {i : Nat} (hi : i < 2 ^ 32)
    (h : b.flip i = some b1) : b1.bitSet.WF := by
  obtain ⟨hw, hlt⟩ := grow_for hb hi
  unfold flip at h
  simp only [] at h
  cases hs : (if i ≥ b.bitSet.size then b.resize (toUInt32 (i + 1)) else b).bitSet.flip i with
  | none => rw [hs] at h; exact Option.noConfusion h
  | some d1 =>
    rw [hs] at h
    simp only [Option.map_some', Option.some.injEq] at h
    subst h
    have hin := (dynamic_bitset.of_flip_eq_some hs).1
    exact dynamic_bitset.WF_flip hw (by omega) hs

theorem fastFlipRange_eq (boostVersion : Nat) (b : BitSet) {fromIndex toIndex : Nat}
    (hft : fromIndex ≤ toIndex) (ht : toIndex < 2 ^ 32) :
    fastFlipRange boostVersion b fromIndex toIndex =
      (b.bitSet.flip_loop fromIndex (toIndex - fromIndex)).map BitSet.mk := by
  unfold fastFlipRange dynamic_bitset.flip_range
  have e : toUInt32 (toIndex + 2 ^ 32 - fromIndex) = toIndex - fromIndex := by
    unfold toUInt32; omega
  rw [e]
  split <;> rfl

theorem WF_of_setRange {boostVersion : Nat} {b b1 : BitSet} (hb : b.bitSet.WF) {f t : Nat}
    {v : Bool} (hft : f ≤ t) (ht : t < 2 ^ 32)
    (h : b.setRange boostVersion f t v = some b1) : b1.bitSet.WF := by
  obtain ⟨hw, hlt⟩ := grow_for hb ht
  unfold setRange at h
  simp only [] at h
  rw [fastSetRange_eq boostVersion _ v hft ht] at h
  generalize (if t ≥ b.bitSet.size then b.resize (toUInt32 (t + 1)) else b) = g at h hw hlt
  cases hs : g.bitSet.set_loop v f (t - f) with
  | none => rw [hs] at h; exact Option.noConfusion h
  | some d1 =>
    rw [hs] at h
    simp only [Option.map_some', Option.some.injEq] at h
    subst h
    by_cases h0 : t - f = 0
    · rw [h0] at hs
      simp only [dynamic_bitset.set_loop, Option.some.injEq] at hs
      subst hs
      exact hw
    · rcases dynamic_bitset.set_loop_in_storage v _ _ _ _ hs with hz | hin
      · exact absurd hz h0
      · exact dynamic_bitset.WF_set_loop hw (Or.inl (by omega)) hs

theorem WF_of_flipRange {boostVersion : Nat} {b b1 : BitSet} (hb : b.bitSet.WF) {f t : Nat}
    (hft : f ≤ t) (ht : t < 2 ^ 32)
    (h : b.flipRange boostVersion f t = some b1) : b1.bitSet.WF := by
  obtain ⟨hw, hlt⟩ := grow_for hb ht
  unfold flipRange at h
  simp only [] at h
  rw [fastFlipRange_eq boostVersion _ hft ht] at h
  generalize (if t ≥ b.bitSet.size then b.resize (toUInt32 (t + 1)) else b) = g at h hw hlt
  cases hs : g.bitSet.flip_loop f (t - f) with
  | none => rw [hs] at h; exact Option.noConfusion h
  | some d1 =>
    rw [hs] at h
    simp only [Option.map_some', Option.some.injEq] at h
    subst h
    by_cases h0 : t - f = 0
    · rw [h0] at hs
      simp only [dynamic_bitset.flip_loop, Option.some.injEq] at hs
      subst hs
      exact hw
    · rcases (dynamic_bitset.of_flip_loop_eq_some _ _ _ _ hs).2.2.1 with hz | hin
      · exact absurd hz h0
      · exact dynamic_bitset.WF_flip_loop hw (by omega) hs

end BitSet

end Lucene

namespace Lucene

namespace BitSet

theorem WF_of_reachable {boostVersion : Nat} {b : BitSet} (h : Reachable boostVersion b) :
    b.bitSet.WF := by
  induction h with
  | create n hn => exact dynamic_bitset.WF_create hn
  | set b b1 i _ hi hs ih => exact WF_of_set ih hi hs
  | setValue b b1 i v _ hi hs ih => exact WF_of_setValue ih hi hs
  | setRange b b1 f t v _ hft ht hs ih => exact WF_of_setRange ih hft ht hs
  | clear b _ _ => exact dynamic_bitset.WF_clear b.bitSet
  | clearBit b b1 i _ _ hs ih => exact (WF_clearBit ih hs).1
  | clearRange b b1 f t _ _ _ hs ih => exact (WF_clearRange ih hs).1
  | flip b b1 i _ hi hs ih => exact WF_of_flip ih hi hs
  | flipRange b b1 f t _ hft ht hs ih => exact WF_of_flipRange ih hft ht hs
  | and b o b1 _ _ hs ihb iho =>
    obtain ⟨a1, h1, hw, _⟩ := and_eq_some ihb iho
    rw [h1] at hs
    exact (Option.some.inj hs) ▸ hw
  | or b o b1 _ _ hs ihb iho =>
    obtain ⟨a1, h1, hw, _⟩ := or_eq_some ihb iho
    rw [h1] at hs
    exact (Option.some.inj hs) ▸ hw
  | xor b o b1 _ _ hs ihb iho =>
    obtain ⟨a1, h1, hw, _⟩ := xor_eq_some ihb iho
    rw [h1] at hs
    exact (Option.some.inj hs) ▸ hw
  | andNot b o b1 _ _ hs ihb iho =>
    obtain ⟨a1, h1, hw, _⟩ := andNot_eq_some ihb iho
    rw [h1] at hs
    exact (Option.some.inj hs) ▸ hw

theorem card_eq_zero_iff {b : BitSet} :
    ((Finset.range (2 ^ 32)).filter (fun i => b.get i = some true)).card = 0 ↔
      ∀ i, i < 2 ^ 32 → b.get i ≠ some true := by
  rw [Finset.card_eq_zero, Finset.filter_eq_empty_iff]
  constructor
  · intro h i hi; exact h (Finset.mem_range.2 hi)
  · intro h i hi; exact h i (Finset.mem_range.1 hi)

theorem isEmpty_iff_card {b : BitSet} (hb : b.bitSet.WF) :
    b.isEmpty = true ↔
      ((Finset.range (2 ^ 32)).filter (fun i => b.get i = some true)).card = 0 := by
  rw [isEmpty_iff hb, card_eq_zero_iff]
  constructor
  · intro h i _ hi
    rw [h i] at hi
    exact absurd (Option.some.inj hi) Bool.false_ne_true
  · intro h i
    rw [get_eq hb]
    by_cases hi : i < 2 ^ 32
    · have := h i hi
      rw [get_eq hb] at this
      cases hbit : bitAt b.bitSet.m_bits i with
      | false => rfl
      | true => rw [hbit] at this; exact absurd rfl this
    · have hn := hb.2.2.2
      rw [dynamic_bitset.bitAt_of_ge hb (by omega)]

end BitSet

end Lucene

namespace Lucene

namespace BitSet

theorem size_eq_of_length_eq {a b : BitSet} (h : a.bitSet.m_bits.length = b.bitSet.m_bits.length) :
    a.size = b.size ∧ a.numBlocks = b.numBlocks := by
  refine ⟨by rw [size_eq, size_eq, h], ?_⟩
  unfold numBlocks dynamic_bitset.num_blocks
  rw [h]

/-- C11 (counterexample): the operand is the 5-bit vector left by `fastSet(10)`,
which stores a bit it does not use and reads false at index 10; the receiver is
a 64-bit vector holding bit 10.  The copy of the operand resized to 64 bits
shows the stored bit, so after `and` the receiver still reads true at index 10,
not the AND of true and false. -/
theorem and_sees_unused_bit :
    (BitSet.create 5).fastSet 10 = some ⟨⟨[1024], 5⟩⟩ ∧
    (BitSet.create 64).set 10 = some ⟨⟨[1024], 64⟩⟩ ∧
    (BitSet.mk ⟨[1024], 64⟩).get 10 = some true ∧
    (BitSet.mk ⟨[1024], 5⟩).get 10 = some false ∧
    (BitSet.mk ⟨[1024], 64⟩)._and (BitSet.mk ⟨[1024], 5⟩) = some ⟨⟨[1024], 64⟩⟩ := by
  decide

/-- C11 (amended): for bit sets `a` and `b` of any sizes that satisfy the
invariant of `dynamic_bitset` (the unused bits of the highest block are zero),
`a.and(b)` completes
(the operand is only read); afterwards `get` on the receiver is the AND of the
old bit of `a` and the bit of `b` at every index, where `get` on `b` is false
beyond its bit count; `size()`, `numBlocks()` and the bit count of the receiver
are unchanged. -/
theorem and_bits_and_size (a b : BitSet) (ha : a.bitSet.WF) (hb : b.bitSet.WF) :
    ∃ a1, a._and b = some a1 ∧
      (∀ i, a1.get i = (a.get i).bind fun x => (b.get i).map fun y => (x && y)) ∧
      (∀ i, b.bitSet.m_num_bits ≤ i → a1.get i = some false) ∧
      a1.size = a.size ∧ a1.numBlocks = a.numBlocks ∧
      a1.bitSet.m_num_bits = a.bitSet.m_num_bits := by
  obtain ⟨a1, hand, hw, hn, hlen, hbit⟩ := and_eq_some ha hb
  refine ⟨a1, hand, ?_, ?_, (size_eq_of_length_eq hlen).1, (size_eq_of_length_eq hlen).2, hn⟩
  · intro i
    rw [get_eq hw, get_eq ha, get_eq hb, hbit]; rfl
  · intro i hi
    rw [get_eq hw, hbit, dynamic_bitset.bitAt_of_ge hb hi, Bool.and_false]

/-- Witness for C11 (amended): the 5-bit vector holding {1, 3} and a 100-bit vector
holding {0, 1, 64}, in both orders. -/
theorem and_bits_and_size_witness :
    (BitSet.mk ⟨[10], 5⟩).bitSet.WF ∧ (BitSet.mk ⟨[3, 1], 100⟩).bitSet.WF ∧
    (BitSet.mk ⟨[10], 5⟩)._and (BitSet.mk ⟨[3, 1], 100⟩) = some ⟨⟨[2], 5⟩⟩ ∧
    (BitSet.mk ⟨[3, 1], 100⟩)._and (BitSet.mk ⟨[10], 5⟩) = some ⟨⟨[2, 0], 100⟩⟩ ∧
    ∃ a1, (BitSet.mk ⟨[10], 5⟩)._and (BitSet.mk ⟨[3, 1], 100⟩) = some a1 ∧
      (∀ i, a1.get i = ((BitSet.mk ⟨[10], 5⟩).get i).bind fun x =>
        ((BitSet.mk ⟨[3, 1], 100⟩).get i).map fun y => (x && y)) ∧
      (∀ i, (BitSet.mk ⟨[3, 1], 100⟩).bitSet.m_num_bits ≤ i → a1.get i = some false) ∧
      a1.size = (BitSet.mk ⟨[10], 5⟩).size ∧ a1.numBlocks = (BitSet.mk ⟨[10], 5⟩).numBlocks ∧
      a1.bitSet.m_num_bits = (BitSet.mk ⟨[10], 5⟩).bitSet.m_num_bits :=
  ⟨by decide, by decide, by decide, by decide,
    and_bits_and_size ⟨⟨[10], 5⟩⟩ ⟨⟨[3, 1], 100⟩⟩ (by decide) (by decide)⟩

/-- C12 (counterexample): the operand is the 5-bit vector left by `fastSet(10)`,
which stores a bit it does not use and reads false at index 10; the receiver is
a 64-bit vector holding bit 10.  The copy of the operand resized to 64 bits
shows the stored bit, so `andNot` clears bit 10 of the receiver, a position
that is not set in the operand. -/
theorem andNot_sees_unused_bit :
    (BitSet.create 5).fastSet 10 = some ⟨⟨[1024], 5⟩⟩ ∧
    (BitSet.create 64).set 10 = some ⟨⟨[1024], 64⟩⟩ ∧
    (BitSet.mk ⟨[1024], 64⟩).get 10 = some true ∧
    (BitSet.mk ⟨[1024], 5⟩).get 10 = some false ∧
    (BitSet.mk ⟨[1024], 64⟩).andNot (BitSet.mk ⟨[1024], 5⟩) = some ⟨⟨[0], 64⟩⟩ ∧
    (BitSet.mk ⟨[0], 64⟩).get 10 = some false := by
  decide

/-- C12 (amended): for bit sets `a` and `b` of any sizes that satisfy the
invariant of `dynamic_bitset` (the unused bits of the highest block are zero),
`a.andNot(b)` completes (the operand is only read); afterwards `get` on the receiver is the
old bit of `a` AND NOT the bit of `b` at every index: a position set in `b` is
clear, every other position of `a`, those beyond the bit count of `b` included,
is as before; `size()`, `numBlocks()` and the bit count of the receiver are
unchanged. -/
theorem andNot_bits_and_size (a b : BitSet) (ha : a.bitSet.WF) (hb : b.bitSet.WF) :
    ∃ a1, a.andNot b = some a1 ∧
      (∀ i, a1.get i = (a.get i).bind fun x => (b.get i).map fun y => (x && !y)) ∧
      (∀ i, b.get i = some true → a1.get i = some false) ∧
      (∀ i, b.get i = some false → a1.get i = a.get i) ∧
      (∀ i, b.bitSet.m_num_bits ≤ i → a1.get i = a.get i) ∧
      a1.size = a.size ∧ a1.numBlocks = a.numBlocks ∧
      a1.bitSet.m_num_bits = a.bitSet.m_num_bits := by
  obtain ⟨a1, hand, hw, hn, hlen, hbit⟩ := andNot_eq_some ha hb
  refine ⟨a1, hand, ?_, ?_, ?_, ?_, (size_eq_of_length_eq hlen).1,
    (size_eq_of_length_eq hlen).2, hn⟩
  · intro i
    rw [get_eq hw, get_eq ha, get_eq hb, hbit]; rfl
  · intro i hi
    rw [get_eq hb] at hi
    rw [get_eq hw, hbit, Option.some.inj hi]; simp
  · intro i hi
    rw [get_eq hb] at hi
    rw [get_eq hw, get_eq ha, hbit, Option.some.inj hi]; simp
  · intro i hi
    rw [get_eq hw, get_eq ha, hbit, dynamic_bitset.bitAt_of_ge hb hi]; simp

/-- Witness for C12 (amended): the 100-bit vector holding {0, 1, 64} and the 5-bit vector
holding {1, 3}, in both orders. -/
theorem andNot_bits_and_size_witness :
    (BitSet.mk ⟨[3, 1], 100⟩).bitSet.WF ∧ (BitSet.mk ⟨[10], 5⟩).bitSet.WF ∧
    (BitSet.mk ⟨[3, 1], 100⟩).andNot (BitSet.mk ⟨[10], 5⟩) = some ⟨⟨[1, 1], 100⟩⟩ ∧
    (BitSet.mk ⟨[10], 5⟩).andNot (BitSet.mk ⟨[3, 1], 100⟩) = some ⟨⟨[8], 5⟩⟩ ∧
    ∃ a1, (BitSet.mk ⟨[3, 1], 100⟩).andNot (BitSet.mk ⟨[10], 5⟩) = some a1 ∧
      (∀ i, a1.get i = ((BitSet.mk ⟨[3, 1], 100⟩).get i).bind fun x =>
        ((BitSet.mk ⟨[10], 5⟩).get i).map fun y => (x && !y)) ∧
      (∀ i, (BitSet.mk ⟨[10], 5⟩).get i = some true → a1.get i = some false) ∧
      (∀ i, (BitSet.mk ⟨[10], 5⟩).get i = some false →
        a1.get i = (BitSet.mk ⟨[3, 1], 100⟩).get i) ∧
      (∀ i, (BitSet.mk ⟨[10], 5⟩).bitSet.m_num_bits ≤ i →
        a1.get i = (BitSet.mk ⟨[3, 1], 100⟩).get i) ∧
      a1.size = (BitSet.mk ⟨[3, 1], 100⟩).size ∧
      a1.numBlocks = (BitSet.mk ⟨[3, 1], 100⟩).numBlocks ∧
      a1.bitSet.m_num_bits = (BitSet.mk ⟨[3, 1], 100⟩).bitSet.m_num_bits :=
  ⟨by decide, by decide, by decide, by decide,
    andNot_bits_and_size ⟨⟨[3, 1], 100⟩⟩ ⟨⟨[10], 5⟩⟩ (by decide) (by decide)⟩

/-- C13 (counterexample): the operand is the 5-bit vector left by `fastSet(10)`
and `fastSet(20)`, which stores two bits it does not use; the receiver is a
fresh 64-bit vector.  After `and` then `or` the receiver reads true at index 10
where the operand reads false, and `equals` on the receiver and the operand
returns false. -/
theorem and_then_or_sees_unused_bits :
    ((BitSet.create 5).fastSet 10).bind (fun b => b.fastSet 20) = some ⟨⟨[1049600], 5⟩⟩ ∧
    ((BitSet.create 64)._and (BitSet.mk ⟨[1049600], 5⟩)).bind
      (fun a => a._or (BitSet.mk ⟨[1049600], 5⟩)) = some ⟨⟨[1049600], 64⟩⟩ ∧
    (BitSet.mk ⟨[1049600], 64⟩).get 10 = some true ∧
    (BitSet.mk ⟨[1049600], 5⟩).get 10 = some false ∧
    (BitSet.mk ⟨[1049600], 64⟩).equals 65 (some (BitSet.mk ⟨[1049600], 5⟩)) false
      = some false := by
  decide

/-- C13 (amended): for bit sets `a` and `b` of any sizes that satisfy the
invariant of `dynamic_bitset` (the unused bits of the highest block are zero),
`a.and(b)` followed by `a.or(b)` completes and leaves the receiver holding
`(old a AND b) OR b` at every index, which is the bit of `b`; `equals` on the
receiver and `b` then returns true, within `fuel` iterations as soon as `fuel`
exceeds both bit counts. -/
theorem and_then_or_equals_operand (a b : BitSet) (ha : a.bitSet.WF) (hb : b.bitSet.WF)
    (fuel : Nat) (hfa : a.bitSet.m_num_bits < fuel) (hfb : b.bitSet.m_num_bits < fuel)
    (samePointer : Bool) :
    ∃ a1 a2, a._and b = some a1 ∧ a1._or b = some a2 ∧
      (∀ i, a2.get i = (a.get i).bind fun x => (b.get i).map fun y => ((x && y) || y)) ∧
      (∀ i, a2.get i = b.get i) ∧
      a2.equals fuel (some b) samePointer = some true := by
  obtain ⟨a1, hand, hw1, hn1, _, hbit1⟩ := and_eq_some ha hb
  obtain ⟨a2, hor, hw2, hn2, hbit2⟩ := or_eq_some hw1 hb
  have hsame : ∀ j, bitAt a2.bitSet.m_bits j = bitAt b.bitSet.m_bits j := by
    intro j
    rw [hbit2, hbit1]
    cases bitAt a.bitSet.m_bits j <;> cases bitAt b.bitSet.m_bits j <;> rfl
  refine ⟨a1, a2, hand, hor, ?_, ?_, ?_⟩
  · intro i
    rw [get_eq hw2, get_eq ha, get_eq hb, hbit2, hbit1]; rfl
  · intro i
    rw [get_eq hw2, get_eq hb, hsame]
  · cases samePointer with
    | true => rfl
    | false =>
      have hfa2 : a2.bitSet.m_num_bits < fuel := by rw [hn2, hn1]; omega
      obtain ⟨r, hr, hiff⟩ := equals_spec hw2 hb hfa2 hfb
      rw [hr, hiff.2 hsame]

/-- Witness for C13 (amended): the 5-bit vector holding {1, 3} and a 100-bit vector
holding {0, 1, 64}. -/
theorem and_then_or_equals_operand_witness :
    (BitSet.mk ⟨[10], 5⟩).bitSet.WF ∧ (BitSet.mk ⟨[3, 1], 100⟩).bitSet.WF ∧
    ((BitSet.mk ⟨[10], 5⟩)._and (BitSet.mk ⟨[3, 1], 100⟩)).bind
      (fun a1 => a1._or (BitSet.mk ⟨[3, 1], 100⟩)) = some ⟨⟨[3, 1], 100⟩⟩ ∧
    ∃ a1 a2, (BitSet.mk ⟨[10], 5⟩)._and (BitSet.mk ⟨[3, 1], 100⟩) = some a1 ∧
      a1._or (BitSet.mk ⟨[3, 1], 100⟩) = some a2 ∧
      (∀ i, a2.get i = ((BitSet.mk ⟨[10], 5⟩).get i).bind fun x =>
        ((BitSet.mk ⟨[3, 1], 100⟩).get i).map fun y => ((x && y) || y)) ∧
      (∀ i, a2.get i = (BitSet.mk ⟨[3, 1], 100⟩).get i) ∧
      a2.equals 101 (some (BitSet.mk ⟨[3, 1], 100⟩)) false = some true :=
  ⟨by decide, by decide, by decide,
    and_then_or_equals_operand ⟨⟨[10], 5⟩⟩ ⟨⟨[3, 1], 100⟩⟩ (by decide) (by decide) 101
      (by decide) (by decide) false⟩

/-- C14 (counterexample): on the 5-bit vector left by `fastSet(10)`, which
stores a bit it does not use, the copy of the operand resized to its own bit
count has that bit zeroed, so `a.xor(a)` leaves the stored bit in the receiver:
`isEmpty()` is false and `cardinality()` is 1 afterwards. -/
theorem xor_self_keeps_unused_bit :
    (BitSet.create 5).fastSet 10 = some ⟨⟨[1024], 5⟩⟩ ∧
    (BitSet.mk ⟨[1024], 5⟩)._xor (BitSet.mk ⟨[1024], 5⟩) = some ⟨⟨[1024], 5⟩⟩ ∧
    (BitSet.mk ⟨[1024], 5⟩).isEmpty = false ∧ (BitSet.mk ⟨[1024], 5⟩).cardinality = 1 := by
  decide

/-- C14 (amended): for a bit set `a` that satisfies the invariant of
`dynamic_bitset` (the unused bits of the highest block are zero), `a.xor(a)`,
the operand being the receiver itself (it is copied before the receiver is
written), completes and leaves the receiver all clear: `get(i)` is false for every `i`, `isEmpty()` is
true and `cardinality()` is 0, while `size()`, `numBlocks()` and the bit count
are as before the call. -/
theorem xor_self_all_clear (a : BitSet) (ha : a.bitSet.WF) :
    ∃ a1, a._xor a = some a1 ∧ (∀ i, a1.get i = some false) ∧
      a1.isEmpty = true ∧ a1.cardinality = 0 ∧
      a1.size = a.size ∧ a1.numBlocks = a.numBlocks ∧
      a1.bitSet.m_num_bits = a.bitSet.m_num_bits := by
  obtain ⟨a1, hxor, hw, hn, hbit⟩ := xor_eq_some ha ha
  have hn1 : a1.bitSet.m_num_bits = a.bitSet.m_num_bits := by rw [hn, Nat.max_self]
  have hlen : a1.bitSet.m_bits.length = a.bitSet.m_bits.length := by rw [hw.1, ha.1, hn1]
  have hget : ∀ i, a1.get i = some false := by
    intro i
    rw [get_eq hw, hbit, Bool.xor_self]
  refine ⟨a1, hxor, hget, (isEmpty_iff hw).2 hget, ?_, (size_eq_of_length_eq hlen).1,
    (size_eq_of_length_eq hlen).2, hn1⟩
  rw [cardinality_eq_card hw, card_eq_zero_iff]
  intro i _ hi
  rw [hget i] at hi
  exact absurd (Option.some.inj hi) Bool.false_ne_true

/-- Witness for C14 (amended): the 100-bit vector holding {0, 1, 64}. -/
theorem xor_self_all_clear_witness :
    (BitSet.mk ⟨[3, 1], 100⟩).bitSet.WF ∧
    (BitSet.mk ⟨[3, 1], 100⟩)._xor (BitSet.mk ⟨[3, 1], 100⟩) = some ⟨⟨[0, 0], 100⟩⟩ ∧
    ∃ a1, (BitSet.mk ⟨[3, 1], 100⟩)._xor (BitSet.mk ⟨[3, 1], 100⟩) = some a1 ∧
      (∀ i, a1.get i = some false) ∧ a1.isEmpty = true ∧ a1.cardinality = 0 ∧
      a1.size = (BitSet.mk ⟨[3, 1], 100⟩).size ∧
      a1.numBlocks = (BitSet.mk ⟨[3, 1], 100⟩).numBlocks ∧
      a1.bitSet.m_num_bits = (BitSet.mk ⟨[3, 1], 100⟩).bitSet.m_num_bits :=
  ⟨by decide, by decide, xor_self_all_clear ⟨⟨[3, 1], 100⟩⟩ (by decide)⟩

end BitSet

end Lucene

namespace Lucene

namespace BitSet

theorem get_create {n : Nat} (hn : n < 2 ^ 32) (i : Nat) : (BitSet.create n).get i = some false := by
  rw [get_eq (b := BitSet.create n) (dynamic_bitset.WF_create hn)]
  exact congrArg some (dynamic_bitset.bitAt_create n i)

theorem flip_loop_one (d : dynamic_bitset) (pos : Nat) :
    dynamic_bitset.flip_loop d pos 1 = d.flip pos := by
  show (match d.flip pos with
    | none => none
    | some d1 => dynamic_bitset.flip_loop d1 (pos + 1) 0) = d.flip pos
  cases d.flip pos <;> rfl

/-- C15 (counterexample): on a vector created with 4294967295 bits (`2^26`
blocks, all bits but the last of the highest block in use) the checked call
`flip(4294967295, 0)` does not grow (`toIndex` is below the bit count) and, with
`BOOST_VERSION >= 106900`, calls `bitSet.flip(4294967295, 1)`, the length being
`0 - 4294967295` in `uint32_t`; this toggles the unused bit: afterwards `get(i)`
is false at every index, while `isEmpty()` is false and `cardinality()` is 1. -/
theorem cardinality_counts_unused_bit :
    ∃ b1, (BitSet.create 4294967295).flipRange 106900 4294967295 0 = some b1 ∧
      (∀ i, b1.get i = some false) ∧
      ((Finset.range (2 ^ 32)).filter (fun i => b1.get i = some true)).card = 0 ∧
      b1.isEmpty = false ∧ b1.cardinality = 1 := by
  have hS : (BitSet.create 4294967295).bitSet.WF :=
    dynamic_bitset.WF_create (n := 4294967295) (by decide)
  have hnum : (BitSet.create 4294967295).bitSet.m_num_bits = 4294967295 := rfl
  have hlen : (BitSet.create 4294967295).bitSet.m_bits.length = 67108864 := by
    rw [hS.1, hnum]; decide
  obtain ⟨d1, hd1⟩ := dynamic_bitset.flip_isSome (d := (BitSet.create 4294967295).bitSet)
    (i := 4294967295) (by rw [hlen]; decide)
  obtain ⟨_, hn1, hlen1, hbit1, hblk1⟩ := dynamic_bitset.of_flip_eq_some hd1
  have hbit : ∀ j, bitAt d1.m_bits j = decide (j = 4294967295) := by
    intro j
    rw [hbit1 j]
    have hz : bitAt (BitSet.create 4294967295).bitSet.m_bits j = false :=
      dynamic_bitset.bitAt_create 4294967295 j
    rw [hz]
    by_cases hj : j = 4294967295 <;> simp [hj]
  have hrun : (BitSet.create 4294967295).flipRange 106900 4294967295 0 = some ⟨d1⟩ := by
    have h1 : ¬ (0 ≥ (BitSet.create 4294967295).bitSet.size) := by
      show ¬ (0 ≥ 4294967295); decide
    have h2 : toUInt32 (0 + 2 ^ 32 - 4294967295) = 1 := by decide
    have h3 : (106900 : Nat) ≥ 106900 := Nat.le_refl _
    show fastFlipRange 106900 (if 0 ≥ (BitSet.create 4294967295).bitSet.size
      then (BitSet.create 4294967295).resize (toUInt32 (0 + 1)) else BitSet.create 4294967295)
      4294967295 0 = some ⟨d1⟩
    rw [if_neg h1]
    unfold fastFlipRange dynamic_bitset.flip_range
    rw [if_pos h3, h2, flip_loop_one, hd1]
    rfl
  have hget : ∀ i, (BitSet.mk d1).get i = some false := by
    intro i
    unfold get dynamic_bitset.size
    show (if i < d1.m_num_bits then d1.test i else some false) = some false
    rw [hn1, hnum]
    by_cases hi : i < 4294967295
    · rw [if_pos hi, dynamic_bitset.test_eq (by rw [hlen1, hlen]; omega), hbit]
      have : i ≠ 4294967295 := by omega
      simp [this]
    · rw [if_neg hi]
  have hblk : ∀ x ∈ d1.m_bits, x < 2 ^ 64 := hblk1 hS.2.1
  refine ⟨⟨d1⟩, hrun, hget, ?_, ?_, ?_⟩
  · rw [card_eq_zero_iff]
    intro i _ hi
    rw [hget i] at hi
    exact absurd (Option.some.inj hi) Bool.false_ne_true
  · unfold isEmpty dynamic_bitset.no_bits
    have : d1.any = true :=
      (dynamic_bitset.any_iff hblk).2 ⟨4294967295, by rw [hbit]; simp⟩
    show (!d1.any) = false
    rw [this]; rfl
  · unfold cardinality
    show toUInt32 d1.count = 1
    have hset : (Finset.range (64 * d1.m_bits.length)).filter
        (fun j => bitAt d1.m_bits j = true) = {4294967295} := by
      apply Finset.ext
      intro j
      rw [Finset.mem_filter, Finset.mem_range, Finset.mem_singleton, hbit, hlen1, hlen]
      constructor
      · rintro ⟨_, h⟩; simpa using h
      · intro h; subst h; exact ⟨by decide, by simp⟩
    rw [dynamic_bitset.count_eq_card, hset, Finset.card_singleton]
    decide

/-- C15 (amended): for every bit set reached from a constructor by the checked
mutating operations (`set`, `clear`, `flip`, `and`, `or`, `xor`, `andNot`, in
all their forms), the range forms of `set` and `flip` being called with
`from <= to`, `cardinality()` is the number of `uint32_t` indices `i` with
`get(i)` true (no index beyond that range has `get` true), and `isEmpty()` is
true exactly when that number is 0. -/
theorem cardinality_counts_get (boostVersion : Nat) (b : BitSet)
    (h : Reachable boostVersion b) :
    b.cardinality = ((Finset.range (2 ^ 32)).filter (fun i => b.get i = some true)).card ∧
    (∀ i, b.get i = some true → i < 2 ^ 32) ∧
    (b.isEmpty = true ↔
      ((Finset.range (2 ^ 32)).filter (fun i => b.get i = some true)).card = 0) := by
  have hw := WF_of_reachable h
  refine ⟨cardinality_eq_card hw, ?_, isEmpty_iff_card hw⟩
  intro i hi
  have := dynamic_bitset.lt_size_of_bitAt hw ((get_true_iff hw i).1 hi)
  have := hw.2.2.2
  omega

/-- Witness for C15 (amended): the vector created with 5 bits after `set(1)` and
`set(3)`, whose cardinality is 2. -/
theorem cardinality_counts_get_witness :
    Reachable 0 (BitSet.mk ⟨[10], 5⟩) ∧ (BitSet.mk ⟨[10], 5⟩).cardinality = 2 ∧
    (BitSet.mk ⟨[10], 5⟩).isEmpty = false ∧
    (BitSet.mk ⟨[10], 5⟩).cardinality =
      ((Finset.range (2 ^ 32)).filter (fun i => (BitSet.mk ⟨[10], 5⟩).get i = some true)).card :=
  have hr : Reachable 0 (BitSet.mk ⟨[10], 5⟩) :=
    Reachable.set ⟨⟨[2], 5⟩⟩ ⟨⟨[10], 5⟩⟩ 3
      (Reachable.set (BitSet.create 5) ⟨⟨[2], 5⟩⟩ 1 (Reachable.create 5 (by decide))
        (by decide) (by decide))
      (by decide) (by decide)
  ⟨hr, by decide, by decide, (cardinality_counts_get 0 ⟨⟨[10], 5⟩⟩ hr).1⟩

/-- C16 (counterexample): a vector created with 4294967295 bits has `2^26`
blocks; `size()` is `2^26 * 64` reduced to `uint32_t`, that is 0, which is
neither 64 times `numBlocks()` nor at least the requested bit count. -/
theorem size_wraps_at_max_capacity :
    (BitSet.create 4294967295).numBlocks = 67108864 ∧ (BitSet.create 4294967295).size = 0 ∧
    (BitSet.create 4294967295).size ≠ 64 * (BitSet.create 4294967295).numBlocks ∧
    ¬ (4294967295 ≤ (BitSet.create 4294967295).size) := by
  have hS : (BitSet.create 4294967295).bitSet.WF :=
    dynamic_bitset.WF_create (n := 4294967295) (by decide)
  have hlen : (BitSet.create 4294967295).bitSet.m_bits.length = 67108864 := by
    rw [hS.1]; decide
  have hnb : (BitSet.create 4294967295).numBlocks = 67108864 := by
    unfold numBlocks dynamic_bitset.num_blocks
    rw [hlen]; decide
  have hsz : (BitSet.create 4294967295).size = 0 := by
    rw [size_eq, hlen]; decide
  refine ⟨hnb, hsz, ?_, ?_⟩
  · rw [hsz, hnb]; decide
  · rw [hsz]; decide

end BitSet

end Lucene

namespace Lucene

namespace BitSet

/-! ## Bit counts after the growing operations -/

theorem grow_num_bits (b : BitSet) (i : Nat) :
    (if i ≥ b.bitSet.size then b.resize (toUInt32 (i + 1)) else b).bitSet.m_num_bits =
      if i ≥ b.bitSet.m_num_bits then toUInt32 (i + 1) else b.bitSet.m_num_bits := by
  unfold dynamic_bitset.size resize
  by_cases h : i ≥ b.bitSet.m_num_bits
  · simp only [h, if_true, dynamic_bitset.resize_num_bits]
  · simp only [h, if_false]

theorem num_bits_of_set {b b1 : BitSet} {i : Nat} (h : b.set i = some b1) :
    b1.bitSet.m_num_bits =
      if i ≥ b.bitSet.m_num_bits then toUInt32 (i + 1) else b.bitSet.m_num_bits := by
  rw [← grow_num_bits]
  unfold set at h
  simp only [] at h
  cases hs : (if i ≥ b.bitSet.size then b.resize (toUInt32 (i + 1)) else b).bitSet.set i true with
  | none => rw [hs] at h; exact Option.noConfusion h
  | some d1 =>
    rw [hs] at h
    simp only [Option.map_some', Option.some.injEq] at h
    subst h
    exact (dynamic_bitset.of_set_eq_some hs).2.1

theorem num_bits_of_setValue {b b1 : BitSet} {i : Nat} {v : Bool} (h : b.setValue i v = some b1) :
    b1.bitSet.m_num_bits =
      if i ≥ b.bitSet.m_num_bits then toUInt32 (i + 1) else b.bitSet.m_num_bits := by
  rw [← grow_num_bits]
  unfold setValue at h
  simp only [] at h
  cases hs : (if i ≥ b.bitSet.size then b.resize (toUInt32 (i + 1)) else b).bitSet.set i v with
  | none => rw [hs] at h; exact Option.noConfusion h
  | some d1 =>
    rw [hs] at h
    simp only [Option.map_some', Option.some.injEq] at h
    subst h
    exact (dynamic_bitset.of_set_eq_some hs).2.1

theorem num_bits_of_flip {b b1 : BitSet} {i : Nat} (h : b.flip i = some b1) :
    b1.bitSet.m_num_bits =
      if i ≥ b.bitSet.m_num_bits then toUInt32 (i + 1) else b.bitSet.m_num_bits := by
  rw [← grow_num_bits]
  unfold flip at h
  simp only [] at h
  cases hs : (if i ≥ b.bitSet.size then b.resize (toUInt32 (i + 1)) else b).bitSet.flip i with
  | none => rw [hs] at h; exact Option.noConfusion h
  | some d1 =>
    rw [hs] at h
    simp only [Option.map_some', Option.some.injEq] at h
    subst h
    exact (dynamic_bitset.of_flip_eq_some hs).2.1

theorem num_bits_of_setRange {boostVersion : Nat} {b b1 : BitSet} {f t : Nat} {v : Bool}
    (hft : f ≤ t) (ht : t < 2 ^ 32) (h : b.setRange boostVersion f t v = some b1) :
    b1.bitSet.m_num_bits =
      if t ≥ b.bitSet.m_num_bits then toUInt32 (t + 1) else b.bitSet.m_num_bits := by
  rw [← grow_num_bits]
  unfold setRange at h
  simp only [] at h
  rw [fastSetRange_eq boostVersion _ v hft ht] at h
  cases hs : (if t ≥ b.bitSet.size then b.resize (toUInt32 (t + 1)) else b).bitSet.set_loop
      v f (t - f) with
  | none => rw [hs] at h; exact Option.noConfusion h
  | some d1 =>
    rw [hs] at h
    simp only [Option.map_some', Option.some.injEq] at h
    subst h
    exact (dynamic_bitset.of_set_loop_eq_some v _ _ _ _ hs).1

theorem num_bits_of_flipRange {boostVersion : Nat} {b b1 : BitSet} {f t : Nat}
    (hft : f ≤ t) (ht : t < 2 ^ 32) (h : b.flipRange boostVersion f t = some b1) :
    b1.bitSet.m_num_bits =
      if t ≥ b.bitSet.m_num_bits then toUInt32 (t + 1) else b.bitSet.m_num_bits := by
  rw [← grow_num_bits]
  unfold flipRange at h
  simp only [] at h
  rw [fastFlipRange_eq boostVersion _ hft ht] at h
  cases hs : (if t ≥ b.bitSet.size then b.resize (toUInt32 (t + 1)) else b).bitSet.flip_loop
      f (t - f) with
  | none => rw [hs] at h; exact Option.noConfusion h
  | some d1 =>
    rw [hs] at h
    simp only [Option.map_some', Option.some.injEq] at h
    subst h
    exact (dynamic_bitset.of_flip_loop_eq_some _ _ _ _ hs).1

theorem grown_num_bits_bounds {n i : Nat} (hn : n ≤ 2 ^ 32 - 64) (hi : i < 2 ^ 32 - 64) :
    (if i ≥ n then toUInt32 (i + 1) else n) ≤ 2 ^ 32 - 64 ∧
    i < (if i ≥ n then toUInt32 (i + 1) else n) := by
  by_cases h : i ≥ n
  · rw [if_pos h, toUInt32_of_lt (by omega)]; omega
  · rw [if_neg h]; omega

theorem size_facts {b : BitSet} (hb : b.bitSet.WF) (hn : b.bitSet.m_num_bits ≤ 2 ^ 32 - 64) :
    b.size = 64 * b.numBlocks ∧ b.bitSet.m_num_bits ≤ b.size ∧
    b.size < b.bitSet.m_num_bits + 64 := by
  have hl := length_lt_of_num_bits_le hb hn
  have h1 := calc_num_blocks_le b.bitSet.m_num_bits
  have h2 := calc_num_blocks_lt b.bitSet.m_num_bits
  rw [← hb.1] at h1 h2
  have hnb : b.numBlocks = b.bitSet.m_bits.length := by
    unfold numBlocks dynamic_bitset.num_blocks
    exact toUInt32_of_lt (by omega)
  rw [size_eq_of_lt hl, hnb]
  omega

/-- C16 (amended): for every requested bit count `N <= 2^32 - 64`, a bit set
constructed with `N` bits has `size() == 64 * numBlocks()` and
`N <= size() < N + 64`; every bit set with fewer than `2^26` blocks has
`size() == 64 * numBlocks()`; and after a growing operation (`set`, `flip`,
their range forms with `from <= to`, `or`, `xor`) on bit sets of at most
`2^32 - 64` bits with an index below `2^32 - 64`, `size()` is 64 times
`numBlocks()`, covers the bit count and exceeds it by less than 64. -/
theorem size_is_whole_blocks (boostVersion : Nat) (n : Nat) (hn : n ≤ 2 ^ 32 - 64) :
    ((BitSet.create n).size = 64 * (BitSet.create n).numBlocks ∧
      n ≤ (BitSet.create n).size ∧ (BitSet.create n).size < n + 64) ∧
    (∀ b : BitSet, b.bitSet.num_blocks < 2 ^ 26 → b.size = 64 * b.numBlocks) ∧
    (∀ b b1 : BitSet, b.bitSet.WF → b.bitSet.m_num_bits ≤ 2 ^ 32 - 64 →
      ∀ i t f : Nat, ∀ v : Bool, i < 2 ^ 32 - 64 → f ≤ t → t < 2 ^ 32 - 64 →
      (b.set i = some b1 ∨ b.setValue i v = some b1 ∨ b.flip i = some b1 ∨
        b.setRange boostVersion f t v = some b1 ∨ b.flipRange boostVersion f t = some b1) →
      b1.size = 64 * b1.numBlocks ∧ b1.bitSet.m_num_bits ≤ b1.size ∧
        b1.size < b1.bitSet.m_num_bits + 64) ∧
    (∀ a b a1 : BitSet, a.bitSet.WF → b.bitSet.WF → a.bitSet.m_num_bits ≤ 2 ^ 32 - 64 →
      b.bitSet.m_num_bits ≤ 2 ^ 32 - 64 → (a._or b = some a1 ∨ a._xor b = some a1) →
      a1.size = 64 * a1.numBlocks ∧ a1.bitSet.m_num_bits ≤ a1.size ∧
        a1.size < a1.bitSet.m_num_bits + 64) := by
  refine ⟨?_, ?_, ?_, ?_⟩
  · exact size_facts (b := BitSet.create n) (dynamic_bitset.WF_create (by omega)) hn
  · intro b hlt
    unfold dynamic_bitset.num_blocks at hlt
    rw [size_eq_of_lt hlt]
    unfold numBlocks dynamic_bitset.num_blocks
    rw [toUInt32_of_lt (by omega)]
    omega
  · intro b b1 hb hnb i t f v hi hft ht hop
    rcases hop with h | h | h | h | h
    · exact size_facts (WF_of_set hb (by omega) h)
        (by rw [num_bits_of_set h]; exact (grown_num_bits_bounds hnb hi).1)
    · exact size_facts (WF_of_setValue hb (by omega) h)
        (by rw [num_bits_of_setValue h]; exact (grown_num_bits_bounds hnb hi).1)
    · exact size_facts (WF_of_flip hb (by omega) h)
        (by rw [num_bits_of_flip h]; exact (grown_num_bits_bounds hnb hi).1)
    · exact size_facts (WF_of_setRange hb hft (by omega) h)
        (by rw [num_bits_of_setRange hft (by omega) h]; exact (grown_num_bits_bounds hnb ht).1)
    · exact size_facts (WF_of_flipRange hb hft (by omega) h)
        (by rw [num_bits_of_flipRange hft (by omega) h]; exact (grown_num_bits_bounds hnb ht).1)
  · intro a b a1 ha hb hna hnb hop
    rcases hop with h | h
    · obtain ⟨a2, h2, hw, hn2, _⟩ := or_eq_some ha hb
      rw [h2] at h
      have e : a2 = a1 := Option.some.inj h
      subst e
      exact size_facts hw (by rw [hn2]; omega)
    · obtain ⟨a2, h2, hw, hn2, _⟩ := xor_eq_some ha hb
      rw [h2] at h
      have e : a2 = a1 := Option.some.inj h
      subst e
      exact size_facts hw (by rw [hn2]; omega)

/-- Witness for C16 (amended): a vector created with 100 bits has 2 blocks and
`size()` 128. -/
theorem size_is_whole_blocks_witness :
    100 ≤ 2 ^ 32 - 64 ∧ (BitSet.create 100).size = 128 ∧ (BitSet.create 100).numBlocks = 2 ∧
    ((BitSet.create 100).size = 64 * (BitSet.create 100).numBlocks ∧
      100 ≤ (BitSet.create 100).size ∧ (BitSet.create 100).size < 100 + 64) :=
  ⟨by decide, by decide, by decide, (size_is_whole_blocks 0 100 (by decide)).1⟩

end BitSet

end Lucene

namespace Lucene

namespace BitSet

/-! ## Hash of a vector without set bits -/

theorem foldl_hashStep_zero : ∀ (l : List Nat), (∀ x ∈ l, x = 0) → l.foldl hashStep 0 = 0 := by
  intro l
  induction l with
  | nil => intro _; rfl
  | cons x xs ih =>
    intro h
    have hx : x = 0 := h x (List.mem_cons_self _ _)
    subst hx
    rw [List.foldl_cons, show hashStep 0 0 = 0 by decide]
    exact ih (fun y hy => h y (List.mem_cons_of_mem _ hy))

theorem blocks_zero_of_isEmpty {b : BitSet} (h : b.isEmpty = true) :
    ∀ x ∈ b.bitSet.m_bits, x = 0 := by
  unfold isEmpty dynamic_bitset.no_bits dynamic_bitset.any at h
  intro x hx
  by_contra hne
  have : (b.bitSet.m_bits.any fun blk => blk != 0) = true :=
    List.any_eq_true.2 ⟨x, hx, by simpa using hne⟩
  rw [this] at h
  exact Bool.false_ne_true h

theorem hashCode_of_isEmpty {b : BitSet} (h : b.isEmpty = true) :
    b.hashCode = toInt32 0x98761234 := by
  have hfold := foldl_hashStep_zero b.bitSet.m_bits (blocks_zero_of_isEmpty h)
  unfold hashCode dynamic_bitset.to_block_range
  simp only [hfold]
  decide

/-- C17: for well-formed bit sets `a` and `b` without a set bit, whatever their
bit counts and block counts, `hashCode()` is the constant `0x98761234` read as
`int32_t`, that is -1737092556 and not 0, on both, and `equals` returns true on
them (within `fuel` iterations as soon as `fuel` exceeds both bit counts). -/
theorem hashCode_of_empty_sets (a b : BitSet) (ha : a.bitSet.WF) (hb : b.bitSet.WF)
    (hea : ∀ i, a.get i = some false) (heb : ∀ i, b.get i = some false)
    (fuel : Nat) (hfa : a.bitSet.m_num_bits < fuel) (hfb : b.bitSet.m_num_bits < fuel) :
    a.hashCode = toInt32 0x98761234 ∧ a.hashCode = -1737092556 ∧ a.hashCode ≠ 0 ∧
    a.hashCode = b.hashCode ∧ a.isEmpty = true ∧
    a.equals fuel (some b) false = some true := by
  have hia : a.isEmpty = true := (isEmpty_iff ha).2 hea
  have hib : b.isEmpty = true := (isEmpty_iff hb).2 heb
  have hha := hashCode_of_isEmpty hia
  have hhb := hashCode_of_isEmpty hib
  have hval : toInt32 0x98761234 = -1737092556 := by decide
  refine ⟨hha, by rw [hha, hval], by rw [hha, hval]; decide, by rw [hha, hhb], hia, ?_⟩
  obtain ⟨r, hr, hiff⟩ := equals_spec ha hb hfa hfb
  have hsame : ∀ j, bitAt a.bitSet.m_bits j = bitAt b.bitSet.m_bits j := by
    intro j
    have h1 := hea j
    have h2 := heb j
    rw [get_eq ha] at h1
    rw [get_eq hb] at h2
    rw [Option.some.inj h1, Option.some.inj h2]
  rw [hr, hiff.2 hsame]

/-- Witness for C17: a vector with no block at all and a vector created with
200 bits. -/
theorem hashCode_of_empty_sets_witness :
    (BitSet.create 0).bitSet.WF ∧ (BitSet.create 200).bitSet.WF ∧
    (BitSet.create 0).numBlocks = 0 ∧ (BitSet.create 200).numBlocks = 4 ∧
    ((BitSet.create 0).hashCode = toInt32 0x98761234 ∧
      (BitSet.create 0).hashCode = -1737092556 ∧ (BitSet.create 0).hashCode ≠ 0 ∧
      (BitSet.create 0).hashCode = (BitSet.create 200).hashCode ∧
      (BitSet.create 0).isEmpty = true ∧
      (BitSet.create 0).equals 201 (some (BitSet.create 200)) false = some true) :=
  ⟨by decide, by decide, by decide, by decide,
    hashCode_of_empty_sets (BitSet.create 0) (BitSet.create 200) (by decide) (by decide)
      (get_create (by decide)) (get_create (by decide)) 201 (by decide) (by decide)⟩

/-- C20 (the code at the failing input): with accumulator 0 and the block
`2^63` (bit 63 set, as in a 64-bit vector after `set(63)`), the mixing step
`(hash << 1) | (hash >> 63)` on the signed `hash` gives all 64 bits set, because
`hash >> 63` is then -1; the left rotation by one bit of `0 XOR 2^63` is 1.  The
hash of that vector is thereby the hash of a vector with no set bit. -/
theorem hashStep_is_not_rotation :
    hashStep 0 (2 ^ 63) = 2 ^ 64 - 1 ∧ rotateLeft64 (0 ^^^ 2 ^ 63) = 1 ∧
    hashStep 0 (2 ^ 63) ≠ rotateLeft64 (0 ^^^ 2 ^ 63) ∧
    (BitSet.create 64).set 63 = some ⟨⟨[2 ^ 63], 64⟩⟩ ∧
    (BitSet.mk ⟨[2 ^ 63], 64⟩).hashCode = -1737092556 ∧
    (BitSet.create 64).hashCode = -1737092556 ∧
    hashStep 0 10 = rotateLeft64 (0 ^^^ 10) := by
  decide

end BitSet

namespace Future

/-! ## The result slot of `Future` -/

theorem run_of_gets {α : Type} : ∀ (calls : List (Call α)) (s : Future α),
    (∀ c ∈ calls, ∃ fuel, c = Call.get fuel) → s.run calls = s := by
  intro calls
  induction calls with
  | nil => intro s _; rfl
  | cons c cs ih =>
    intro s h
    obtain ⟨fuel, hc⟩ := h c (List.mem_cons_self _ _)
    subst hc
    show run (s.step (Call.get fuel)).1 cs = s
    exact ih s (fun c hc => h c (List.mem_cons_of_mem _ hc))

/-- C18 (counterexample): after `set(1)`, a second `set(2)` replaces the value,
so that a later `get` returns 2, and a `set` with an empty `boost::any` empties
the slot again. -/
theorem future_second_set_replaces :
    ((Future.mk (none : Option Nat)).run [Call.set (some 1)]).value = some 1 ∧
    ((Future.mk (none : Option Nat)).run [Call.set (some 1), Call.set (some 2)]).value
      = some 2 ∧
    ((Future.mk (none : Option Nat)).run [Call.set (some 1), Call.set (some 2)]).get 1
      = some 2 ∧
    ((Future.mk (none : Option Nat)).run [Call.set (some 1), Call.set none]).value = none := by
  decide

/-- C18 (amended): in the sequential model of one `Future`, `get` never changes
the slot and `set` stores its argument whatever the slot holds; hence, once the
slot holds a value `v`, after any later calls among which there is no `set` the
slot still holds `v` and every `get` returns `v`. -/
theorem future_value_stable_under_get {α : Type} (v : α) (calls : List (Call α))
    (hget : ∀ c ∈ calls, ∃ fuel, c = Call.get fuel) :
    ((Future.mk (some v)).run calls).value = some v ∧
    (∀ fuel, ((Future.mk (some v)).run calls).get (fuel + 1) = some v) ∧
    (∀ (s : Future α) (fuel : Nat), (s.step (Call.get fuel)).1 = s) ∧
    (∀ (s : Future α) (x : Option α), (s.step (Call.set x)).1.value = x) := by
  rw [run_of_gets calls _ hget]
  exact ⟨rfl, fun _ => rfl, fun _ _ => rfl, fun _ _ => rfl⟩

/-- Witness for C18 (amended): one `set(7)` on an empty slot, then two `get`s. -/
theorem future_value_stable_under_get_witness :
    ((Future.mk (none : Option Nat)).run [Call.set (some 7)]) = Future.mk (some 7) ∧
    ((Future.mk (some 7)).run [Call.get 1, Call.get 3]).value = some 7 ∧
    (∀ fuel, ((Future.mk (some 7)).run [Call.get 1, Call.get 3]).get (fuel + 1) = some 7) :=
  ⟨rfl,
    (future_value_stable_under_get 7 [Call.get 1, Call.get 3]
      (fun c hc => by
        rcases List.mem_cons.1 hc with h | h
        · exact ⟨1, h⟩
        · rcases List.mem_cons.1 h with h | h
          · exact ⟨3, h⟩
          · exact absurd h (List.not_mem_nil c))).1,
    (future_value_stable_under_get 7 [Call.get 1, Call.get 3]
      (fun c hc => by
        rcases List.mem_cons.1 hc with h | h
        · exact ⟨1, h⟩
        · rcases List.mem_cons.1 h with h | h
          · exact ⟨3, h⟩
          · exact absurd h (List.not_mem_nil c))).2.1⟩

end Future

end Lucene
